import Mathlib

/-!
# check_line_length_80_characters.c: a shallow embedding

The program reads a file through an unbuffered descriptor, one logical line
per call of `get_line_from_file`, and `main` reports the lines longer than 80
characters.

Modelling choices.

* A byte is a `Fin 256`.  The C variables of type `long` (`curr_buf_size`,
  `curr_data_len`, `i`, `line_num`, `printed`) are natural numbers: they are
  bounded by the size of the file, which is far below `2^63`.
* The operating system is a `World` (the descriptor table, the files that can
  be opened, the standard output) together with an `Env` that fixes in advance
  how each system call behaves: whether a `read` fails, is short or is full,
  whether a `realloc` succeeds, whether an `lseek` succeeds.  The oracles are
  indexed by the number of operations performed so far (`World.trace.length`).
* The buffer `buf` is the list of all its bytes, initialised or not; its
  length is the allocated capacity.  Bytes that `realloc` hands out
  uninitialised are taken from `Env.junk`.
* Every operation on the descriptor or on the buffer is recorded in
  `World.trace` (newest first).
* The two `while` loops of `get_line_from_file` carry fuel; `none` means that
  the fuel ran out.  `get_line_from_file` itself supplies the fuel, and
  `get_line_from_file_total` shows that it is enough in every environment.
  The loop of `main` takes its fuel as an argument: it does not end when a
  read error persists.
-/

namespace CheckLineLength

/-! ## Constants -/

abbrev Byte := Fin 256

/-- Source: `#define NEW_LINE '\n'` -/
def NEW_LINE : Byte := 10

/-- Source: `#define NO_ERROR 0` -/
def NO_ERROR : Int := 0
/-- Source: `#define INVALID_FD -1` -/
def INVALID_FD : Int := -1
/-- Source: `#define NO_MEMORY -2` -/
def NO_MEMORY : Int := -2
/-- Source: `#define FILE_LSEEK_ERROR -3` -/
def FILE_LSEEK_ERROR : Int := -3

/-- Source: `#define BUF_SIZE_INCREMENT 1024` -/
def BUF_SIZE_INCREMENT : Nat := 1024

/-! ## The operating system -/

/-- An open file description: the bytes of the file and the cursor. -/
structure OpenFile where
  content : List Byte
  pos : Nat
deriving DecidableEq, Repr

/-- How one call of `read` behaves. -/
inductive ReadOutcome where
  /-- The call `read` returns `-1`. -/
  | fail
  /-- The call `read` delivers as many bytes as were asked for, or all that remain. -/
  | full
  /-- The call `read` delivers at most `k + 1` bytes (a short read). -/
  | short (k : Nat)
deriving DecidableEq, Repr

/-- The behaviour of the system calls, fixed in advance and indexed by the
number of operations performed so far. -/
structure Env where
  read_outcome : Nat → ReadOutcome
  alloc_ok : Nat → Bool
  seek_ok : Nat → Bool
  /-- The content of freshly allocated memory, by index in the buffer. -/
  junk : Nat → Byte
  /-- The descriptor that a successful `open` returns. -/
  open_fd : Nat

/-- One operation on the descriptor or on the buffer. -/
inductive Event where
  /-- The call `realloc(buf, size)`, with its success. -/
  | realloc (size : Nat) (ok : Bool)
  /-- The call `read(fd, buf + off, count)` on a buffer of capacity `cap`, with the
  value returned. -/
  | read (fd : Int) (cap off count : Nat) (ret : Int)
  /-- The `for` loop reads `buf[0 .. len)` in a buffer of capacity `cap`. -/
  | scan (cap len : Nat)
  /-- The assignment `buf[idx] = 0` in a buffer of capacity `cap`. -/
  | store (cap idx : Nat)
  /-- The call `lseek(fd, delta, SEEK_CUR)`, with its success. -/
  | lseek (fd : Int) (delta : Int) (ok : Bool)
  /-- The call `free(buf)`. -/
  | free
  /-- The call `open(path, O_RDONLY)`, with the value returned. -/
  | opened (path : String) (ret : Int)
  /-- The call `close(fd)`. -/
  | close (fd : Int)
deriving DecidableEq, Repr

/-- What the program writes on the standard output, one constructor per
format string of the source. -/
inductive Msg where
  /-- Format string `"\n"` -/
  | blank
  /-- Format string `"\nError: Argument 'error_num' is NULL.\n"` -/
  | error_num_is_null
  /-- Format string `"\nError: Argument 'fd' is less than zero.\n"` -/
  | fd_less_than_zero
  /-- Format string `"Error: Incorrect usage.\n"` -/
  | incorrect_usage
  /-- Format string `"This program takes only one argument which is the name of a file
  whose line lengths have to be checked.\n"` -/
  | takes_one_argument
  /-- Format string `"Usage: %s file_name\n"` with `argv[0]`. -/
  | usage (prog : Option String)
  /-- Format string `"Please try again. Exiting..\n"` -/
  | try_again
  /-- Format string `"\n%s: File \"%s\" could not be opened. Exiting..\n\n"` with
  `__FILE__` and `argv[1]`. -/
  | could_not_be_opened (path : String)
  /-- Format string `"The length of the line at line number %ld is greater than 80
  characters.\n"` -/
  | over_length (line_num : Nat)
  /-- Format string `"\nTotal %ld lines have a length of more than 80 characters.\n\n"` -/
  | total (printed : Nat)
  /-- Format string `"No lines have a length of more than 80 characters.\n\n"` -/
  | no_lines
  /-- Format string `"\n\nError happened: Error number = %d\n\n"` -/
  | error_happened (error_num : Int)
deriving DecidableEq, Repr

/-- The state of the operating system. -/
structure World where
  /-- The files that `open` can open for reading, by path. -/
  fs : String → Option (List Byte)
  /-- The descriptor table. -/
  fds : Int → Option OpenFile
  /-- The operations performed so far, newest first. -/
  trace : List Event
  /-- The standard output, oldest first. -/
  out : List Msg

/-- Record one operation. -/
def World.record (w : World) (e : Event) : World :=
  { w with trace := e :: w.trace }

/-- The call `printf` with one message. -/
def World.printf (w : World) (m : Msg) : World :=
  { w with out := w.out ++ [m] }

/-- Move the cursor of the open file `file` behind `fd` to `pos`. -/
def World.set_pos (w : World) (fd : Int) (file : OpenFile) (pos : Nat) : World :=
  { w with fds := Function.update w.fds fd (some { file with pos := pos }) }

/-- The buffer `buf` after a successful `realloc(buf, size)`: its first `size`
bytes, followed by uninitialised bytes when it grows. -/
def resized (env : Env) (buf : List Byte) (size : Nat) : List Byte :=
  buf.take size ++ (List.range' buf.length (size - buf.length)).map env.junk

/-- The call `realloc(buf, size)`: `none` when the allocation fails. -/
def sys_realloc (env : Env) (w : World) (buf : List Byte) (size : Nat) :
    Option (List Byte) × World :=
  if env.alloc_ok w.trace.length then
    (some (resized env buf size), w.record (.realloc size true))
  else
    (none, w.record (.realloc size false))

/-- The call `free(buf)`. -/
def sys_free (w : World) : World :=
  w.record .free

/-- The bytes `bytes` written into `buf` from offset `off` on. -/
def write_at (buf : List Byte) (off : Nat) (bytes : List Byte) : List Byte :=
  buf.take off ++ bytes ++ buf.drop (off + bytes.length)

/-- The call `read(fd, buf + off, count)`: the value returned, the buffer afterwards
and the world afterwards.  A failing `read` leaves the cursor where it is. -/
def sys_read (env : Env) (w : World) (fd : Int) (buf : List Byte) (off count : Nat) :
    Int × List Byte × World :=
  match w.fds fd with
  | none => (-1, buf, w.record (.read fd buf.length off count (-1)))
  | some file =>
    let deliver := fun (n : Nat) =>
      let bytes := (file.content.drop file.pos).take n
      ((bytes.length : Int), write_at buf off bytes,
        (w.set_pos fd file (file.pos + bytes.length)).record
          (.read fd buf.length off count bytes.length))
    match env.read_outcome w.trace.length with
    | .fail => (-1, buf, w.record (.read fd buf.length off count (-1)))
    | .full => deliver count
    | .short k => deliver (min count (k + 1))

/-- The call `lseek(fd, delta, SEEK_CUR)`: the value returned and the world
afterwards.  It fails on a descriptor that is not open, when the environment
says so, and when the new position would be negative. -/
def sys_lseek (env : Env) (w : World) (fd : Int) (delta : Int) : Int × World :=
  match w.fds fd with
  | none => (-1, w.record (.lseek fd delta false))
  | some file =>
    if env.seek_ok w.trace.length ∧ 0 ≤ (file.pos : Int) + delta then
      (((file.pos : Int) + delta),
        (w.set_pos fd file ((file.pos : Int) + delta).toNat).record (.lseek fd delta true))
    else
      (-1, w.record (.lseek fd delta false))

/-! ## `get_line_from_file` -/

/-- The local variables of `get_line_from_file` that live across the loops. -/
structure Locals where
  buf : List Byte
  curr_buf_size : Nat
  curr_data_len : Nat
  end_of_file_reached_or_error : Bool
deriving DecidableEq, Repr

/-- The inner loop `while (curr_data_len != curr_buf_size)` (source lines
95 to 120).  `some (none, w)` is the `return NULL` of line 109;
`some (some s, w)` is the normal exit of the loop. -/
def read_loop (env : Env) (fd : Int) : Nat → Locals → World → Option (Option Locals × World)
  | fuel, s, w =>
    if s.curr_data_len = s.curr_buf_size then some (some s, w)
    else
      match fuel with
      | 0 => none
      | fuel + 1 =>
        match sys_read env w fd s.buf s.curr_data_len (s.curr_buf_size - s.curr_data_len) with
        | (bytes_read, buf, w1) =>
          if bytes_read = 0 ∧ s.curr_data_len = 0 then
            some (none, sys_free w1)
          else if bytes_read ≤ 0 then
            some (some { s with buf := buf, end_of_file_reached_or_error := true }, w1)
          else
            read_loop env fd fuel
              { s with buf := buf, curr_data_len := s.curr_data_len + bytes_read.toNat } w1

/-- The `for` loop of lines 124 to 130, without the store: the first index
`i` with `i < curr_data_len` and `buf[i] == NEW_LINE`.  The first argument is
the number of iterations that remain, `curr_data_len - i`. -/
def find_new_line (buf : List Byte) : Nat → Nat → Option Nat
  | 0, _ => none
  | n + 1, i => if buf[i]? = some NEW_LINE then some i else find_new_line buf n (i + 1)

/-- What one call returns: the line (`none` is `NULL`; otherwise the bytes of
the returned buffer, the terminating 0 included), the value of `*error_num`
after the call (`none` when the pointer `error_num` is `NULL`) and the world. -/
structure Ret where
  line : Option (List Byte)
  error_num : Option Int
  world : World

/-- The outer loop `while (1)` (source lines 80 to 178).  The result is the
returned pointer, the value of `*error_num` and the world. -/
def get_line_loop (env : Env) (fd : Int) :
    Nat → Locals → World → Option (Option (List Byte) × Int × World)
  | 0, _, _ => none
  | fuel + 1, s, w =>
    match sys_realloc env w s.buf (s.curr_buf_size + BUF_SIZE_INCREMENT) with
    | (none, w1) => some (none, NO_MEMORY, sys_free w1)
    | (some buf, w1) =>
      let s1 : Locals :=
        { s with buf := buf, curr_buf_size := s.curr_buf_size + BUF_SIZE_INCREMENT }
      match read_loop env fd (s1.curr_buf_size - s1.curr_data_len) s1 w1 with
      | none => none
      | some (none, w2) => some (none, NO_ERROR, w2)
      | some (some s2, w2) =>
        let w3 := w2.record (.scan s2.buf.length s2.curr_data_len)
        match find_new_line s2.buf s2.curr_data_len 0 with
        | some i =>
          let w4 := w3.record (.store s2.buf.length i)
          match sys_realloc env w4 (s2.buf.set i 0) (i + 1) with
          | (none, w5) => some (none, NO_MEMORY, sys_free w5)
          | (some buf, w5) =>
            match sys_lseek env w5 fd (((i : Int) + 1) - (s2.curr_data_len : Int)) with
            | (r, w6) =>
              if r < 0 then some (none, FILE_LSEEK_ERROR, sys_free w6)
              else some (some buf, NO_ERROR, w6)
        | none =>
          if s2.end_of_file_reached_or_error then
            match sys_realloc env w3 s2.buf (s2.curr_data_len + 1) with
            | (none, w4) => some (none, NO_MEMORY, sys_free w4)
            | (some buf, w4) =>
              some (some (buf.set s2.curr_data_len 0), NO_ERROR,
                w4.record (.store buf.length s2.curr_data_len))
          else
            get_line_loop env fd fuel s2 w3

/-- The number of bytes between the cursor of `fd` and the end of its file. -/
def World.remaining (w : World) (fd : Int) : Nat :=
  match w.fds fd with
  | none => 0
  | some file => file.content.length - file.pos

/-- Source function `static char *get_line_from_file(int fd, int *error_num)`.  The argument
`error_num` is `none` for a `NULL` pointer and `some v` for a pointer to an
`int` that holds `v`.  Every pass of the outer loop that does not return has
read `BUF_SIZE_INCREMENT` bytes, so `remaining + 1` passes are enough. -/
def get_line_from_file (env : Env) (fd : Int) (error_num : Option Int) (w : World) :
    Option Ret :=
  match error_num with
  | none => some ⟨none, none, w.printf .error_num_is_null⟩
  | some _ =>
    if fd < 0 then
      some ⟨none, some INVALID_FD, w.printf .fd_less_than_zero⟩
    else
      match get_line_loop env fd (w.remaining fd + 1) ⟨[], 0, 0, false⟩ w with
      | none => none
      | some (line, err, w1) => some ⟨line, some err, w1⟩

/-! ## `main` -/

/-- The call `strnlen(s, maxlen)`: the number of bytes before the first 0 byte among
the first `maxlen` bytes of `s`. -/
def strnlen : List Byte → Nat → Nat
  | _, 0 => 0
  | [], _ + 1 => 0
  | b :: s, maxlen + 1 => if b = 0 then 0 else strnlen s maxlen + 1

/-- The call `open(path, O_RDONLY)`. -/
def sys_open (env : Env) (w : World) (path : String) : Int × World :=
  match w.fs path with
  | none => (-1, w.record (.opened path (-1)))
  | some content =>
    ((env.open_fd : Int),
      { w with fds := Function.update w.fds (env.open_fd : Int) (some ⟨content, 0⟩),
               trace := .opened path env.open_fd :: w.trace })

/-- The call `close(fd)`. -/
def sys_close (w : World) (fd : Int) : World :=
  { w with fds := Function.update w.fds fd none, trace := .close fd :: w.trace }

/-- The variables of `main` that live across its loop. -/
structure MainLocals where
  line_num : Nat
  printed : Nat
  error_num : Int
deriving DecidableEq, Repr

/-- The loop `while ((line = get_line_from_file(fd, &error_num)) != NULL)` of
`main` (source lines 215 to 227). -/
def main_loop (env : Env) (fd : Int) : Nat → MainLocals → World → Option (MainLocals × World)
  | 0, _, _ => none
  | fuel + 1, m, w =>
    match get_line_from_file env fd (some m.error_num) w with
    | none => none
    | some r =>
      let error_num := r.error_num.getD m.error_num
      match r.line with
      | none => some ({ m with error_num := error_num }, r.world)
      | some line =>
        let line_num := m.line_num + 1
        if strnlen line 81 = 81 then
          main_loop env fd fuel ⟨line_num, m.printed + 1, error_num⟩
            ((r.world.printf (.over_length line_num)).record .free)
        else
          main_loop env fd fuel ⟨line_num, m.printed, error_num⟩ (r.world.record .free)

/-- Source function `int main(int argc, char *argv[])`, with `argc = argv.length`.  The
result is the exit status and the world; `none` means that the loop did not
end within `fuel` calls of `get_line_from_file`. -/
def main (env : Env) (fuel : Nat) (argv : List String) (w : World) : Option (Int × World) :=
  match argv with
  | [_, path] =>
    match sys_open env w path with
    | (fd, w1) =>
      if fd < 0 then
        some (1, w1.printf (.could_not_be_opened path))
      else
        match main_loop env fd fuel ⟨0, 0, 0⟩ (w1.printf .blank) with
        | none => none
        | some (m, w2) =>
          let w3 := if m.printed ≠ 0 then w2.printf (.total m.printed) else w2.printf .no_lines
          let w4 := if m.error_num ≠ 0 then w3.printf (.error_happened m.error_num) else w3
          some (0, sys_close w4 fd)
  | _ =>
    some (1,
      ((((((((w.printf .blank).printf .incorrect_usage).printf .blank).printf
        .takes_one_argument).printf .blank).printf (.usage argv.head?)).printf .blank).printf
        .try_again).printf .blank)

/-! ## Harness and vocabulary of the properties -/

/-- The lines returned by repeated calls of `get_line_from_file` before the
first `NULL`, with the error number of that last call and the world after it. -/
def read_lines (env : Env) (fd : Int) :
    Nat → World → Option (List (List Byte) × Option Int × World)
  | 0, _ => none
  | fuel + 1, w =>
    match get_line_from_file env fd (some 0) w with
    | none => none
    | some r =>
      match r.line with
      | none => some ([], r.error_num, r.world)
      | some line =>
        match read_lines env fd fuel r.world with
        | none => none
        | some (lines, e, w1) => some (line :: lines, e, w1)

/-- An environment in which no `read` fails (short reads are allowed), every
`realloc` succeeds and every `lseek` succeeds. -/
def Env.no_failure (env : Env) : Prop :=
  (∀ t, env.read_outcome t ≠ .fail) ∧ (∀ t, env.alloc_ok t = true) ∧
    (∀ t, env.seek_ok t = true)

/-- An environment in which every system call succeeds and every `read` is
full. -/
def Env.ideal (junk : Byte) (open_fd : Nat) : Env :=
  ⟨fun _ => .full, fun _ => true, fun _ => true, fun _ => junk, open_fd⟩

/-- A world with one open descriptor `fd` on a file of content `f` with the
cursor at `p`. -/
def World.single (fd : Int) (f : List Byte) (p : Nat) : World :=
  ⟨fun _ => none, fun d => if d = fd then some ⟨f, p⟩ else none, [], []⟩

/-- A world with no open descriptor in which `path` names a file of content
`f`. -/
def World.with_file (path : String) (f : List Byte) : World :=
  ⟨fun q => if q = path then some f else none, fun _ => none, [], []⟩

/-- Scenario A of the specification: four lines of 10, 80, 81 and 200 bytes,
each ended by a newline. -/
def scenario_A : List Byte :=
  List.replicate 10 97 ++ [NEW_LINE] ++ List.replicate 80 98 ++ [NEW_LINE] ++
    List.replicate 81 99 ++ [NEW_LINE] ++ List.replicate 200 100 ++ [NEW_LINE]

/-- An environment in which the first `read` is full and every later `read`
fails; every `realloc` and every `lseek` succeeds. -/
def Env.read_error_after_first : Env :=
  ⟨fun t => if t = 1 then .full else .fail, fun _ => true, fun _ => true, fun _ => 0, 3⟩

/-- An environment in which every `read` is full, every `realloc` succeeds
and every `lseek` fails. -/
def Env.seek_fails : Env :=
  ⟨fun _ => .full, fun _ => true, fun _ => false, fun _ => 0, 3⟩

/-- Whether an operation is an `lseek` that failed. -/
def Event.failed_lseek : Event → Bool
  | .lseek _ _ false => true
  | _ => false

/-- The number of failed `lseek` among the operations performed so far. -/
def World.failed_lseeks (w : World) : Nat :=
  w.trace.countP Event.failed_lseek

/-- The index of the first newline of `l`, or the length of `l` when it has
none. -/
def line_end : List Byte → Nat
  | [] => 0
  | b :: l => if b = NEW_LINE then 0 else line_end l + 1

/-- The logical lines of a byte sequence: the maximal runs of bytes between
newlines, and no empty line after a final newline. -/
def logical_lines : List Byte → List (List Byte)
  | [] => []
  | b :: rest =>
    if b = NEW_LINE then [] :: logical_lines rest
    else
      match logical_lines rest with
      | [] => [[b]]
      | l :: ls => (b :: l) :: ls

/-- The lines joined with one newline between consecutive lines. -/
def join_lines : List (List Byte) → List Byte
  | [] => []
  | [l] => l
  | l :: l2 :: ls => l ++ NEW_LINE :: join_lines (l2 :: ls)

/-- The 1-based numbers, counted from `n + 1`, of the lines of `ls` that have
more than 80 bytes, in increasing order. -/
def over_length_lines : Nat → List (List Byte) → List Nat
  | _, [] => []
  | n, l :: ls =>
    if 80 < l.length then (n + 1) :: over_length_lines (n + 1) ls
    else over_length_lines (n + 1) ls

/-- The 1-based numbers, counted from `n + 1`, of the lines of `ls` that
pass the test `strnlen(line, 81) == 81` of `main`, in increasing order; a line
of `ls` is the returned buffer without its sentinel. -/
def reported_lines : Nat → List (List Byte) → List Nat
  | _, [] => []
  | n, l :: ls =>
    if strnlen (l ++ [0]) 81 = 81 then (n + 1) :: reported_lines (n + 1) ls
    else reported_lines (n + 1) ls

/-- An environment in which every `read` is full, every `realloc` succeeds and
the `lseek` succeeds during the first ten operations only. -/
def Env.late_seek_fails : Env :=
  ⟨fun _ => .full, fun _ => true, fun t => decide (t < 10), fun _ => 0, 3⟩

/-- A file of two lines, the first of 81 bytes and the second of one byte. -/
def long_then_short : List Byte :=
  List.replicate 81 97 ++ [NEW_LINE] ++ [98, NEW_LINE]

/-- A file of three lines: 81 bytes `a`; one 0 byte followed by 81 bytes `b`;
80 bytes `c`. -/
def lines_with_nul : List Byte :=
  List.replicate 81 97 ++ [NEW_LINE] ++ (0 :: List.replicate 81 98) ++ [NEW_LINE] ++
    List.replicate 80 99 ++ [NEW_LINE]

/-- What C15 says of one operation: a `read` or a scan happens on a buffer
whose capacity is a positive multiple of `BUF_SIZE_INCREMENT`, with the data
length (the offset of the `read`, the bound of the scan) at most the capacity;
a `read` asks for exactly the free part of the buffer, which is not empty; a
store is at an index inside the buffer. -/
def Event.in_bounds : Event → Prop
  | .read _ cap off count _ =>
    0 < cap ∧ cap % BUF_SIZE_INCREMENT = 0 ∧ off ≤ cap ∧ count = cap - off ∧ 0 < count
  | .scan cap len => 0 < cap ∧ cap % BUF_SIZE_INCREMENT = 0 ∧ len ≤ cap
  | .store cap idx => idx < cap
  | _ => True

/-- The capacity of the buffer at a `read` or at a scan. -/
def Event.buf_size : Event → Option Nat
  | .read _ cap _ _ _ => some cap
  | .scan cap _ => some cap
  | _ => none

/-- The reader of the design note of the specification, which "may instead
scan only newly appended bytes for a newline, tracking the previous scan
offset": the outer loop of `get_line_from_file`, except that the scan starts
at `scanned`, the data length at the previous scan, instead of 0. -/
def get_line_loop_incremental (env : Env) (fd : Int) :
    Nat → Locals → Nat → World → Option (Option (List Byte) × Int × World)
  | 0, _, _, _ => none
  | fuel + 1, s, scanned, w =>
    match sys_realloc env w s.buf (s.curr_buf_size + BUF_SIZE_INCREMENT) with
    | (none, w1) => some (none, NO_MEMORY, sys_free w1)
    | (some buf, w1) =>
      let s1 : Locals :=
        { s with buf := buf, curr_buf_size := s.curr_buf_size + BUF_SIZE_INCREMENT }
      match read_loop env fd (s1.curr_buf_size - s1.curr_data_len) s1 w1 with
      | none => none
      | some (none, w2) => some (none, NO_ERROR, w2)
      | some (some s2, w2) =>
        let w3 := w2.record (.scan s2.buf.length s2.curr_data_len)
        match find_new_line s2.buf (s2.curr_data_len - scanned) scanned with
        | some i =>
          let w4 := w3.record (.store s2.buf.length i)
          match sys_realloc env w4 (s2.buf.set i 0) (i + 1) with
          | (none, w5) => some (none, NO_MEMORY, sys_free w5)
          | (some buf, w5) =>
            match sys_lseek env w5 fd (((i : Int) + 1) - (s2.curr_data_len : Int)) with
            | (r, w6) =>
              if r < 0 then some (none, FILE_LSEEK_ERROR, sys_free w6)
              else some (some buf, NO_ERROR, w6)
        | none =>
          if s2.end_of_file_reached_or_error then
            match sys_realloc env w3 s2.buf (s2.curr_data_len + 1) with
            | (none, w4) => some (none, NO_MEMORY, sys_free w4)
            | (some buf, w4) =>
              some (some (buf.set s2.curr_data_len 0), NO_ERROR,
                w4.record (.store buf.length s2.curr_data_len))
          else
            get_line_loop_incremental env fd fuel s2 s2.curr_data_len w3

/-- The function `get_line_from_file` with the incremental scan. -/
def get_line_from_file_incremental (env : Env) (fd : Int) (error_num : Option Int)
    (w : World) : Option Ret :=
  match error_num with
  | none => some ⟨none, none, w.printf .error_num_is_null⟩
  | some _ =>
    if fd < 0 then
      some ⟨none, some INVALID_FD, w.printf .fd_less_than_zero⟩
    else
      match get_line_loop_incremental env fd (w.remaining fd + 1) ⟨[], 0, 0, false⟩ 0 w with
      | none => none
      | some (line, err, w1) => some ⟨line, some err, w1⟩

/-- A file of 1500 bytes `a` followed by a newline and `b`. -/
def long_line : List Byte :=
  List.replicate 1500 97 ++ [NEW_LINE, 98]

/-- The loop of `main` (see `main_loop`), which in addition collects the
buffers that the calls of `get_line_from_file` return, in order. -/
def main_loop_lines (env : Env) (fd : Int) :
    Nat → MainLocals → World → Option (List (List Byte) × MainLocals × World)
  | 0, _, _ => none
  | fuel + 1, m, w =>
    match get_line_from_file env fd (some m.error_num) w with
    | none => none
    | some r =>
      let error_num := r.error_num.getD m.error_num
      match r.line with
      | none => some ([], { m with error_num := error_num }, r.world)
      | some line =>
        let line_num := m.line_num + 1
        if strnlen line 81 = 81 then
          match main_loop_lines env fd fuel ⟨line_num, m.printed + 1, error_num⟩
              ((r.world.printf (.over_length line_num)).record .free) with
          | none => none
          | some (lines, m', w') => some (line :: lines, m', w')
        else
          match main_loop_lines env fd fuel ⟨line_num, m.printed, error_num⟩
              (r.world.record .free) with
          | none => none
          | some (lines, m', w') => some (line :: lines, m', w')

/-- Whether a `realloc` or an `lseek` succeeded; `none` for the other
operations. -/
def Event.succeeded : Event → Option Bool
  | .realloc _ ok => some ok
  | .lseek _ _ ok => some ok
  | _ => none

/-! ## The scan -/

theorem line_end_le (l : List Byte) : line_end l ≤ l.length := by
  induction l with
  | nil => simp [line_end]
  | cons b l ih => by_cases h : b = NEW_LINE <;> simp [line_end, h]; omega

theorem line_end_take (l : List Byte) (m : Nat) :
    line_end (l.take m) = min m (line_end l) := by
  induction l generalizing m with
  | nil => simp [line_end]
  | cons b l ih =>
    cases m with
    | zero => simp [line_end]
    | succ m =>
      by_cases h : b = NEW_LINE
      · simp [line_end, h]
      · simp [line_end, h, ih]; omega

theorem find_new_line_eq (buf : List Byte) (n i : Nat) :
    find_new_line buf n i =
      if line_end ((buf.drop i).take n) < ((buf.drop i).take n).length then
        some (i + line_end ((buf.drop i).take n)) else none := by
  induction n generalizing i with
  | zero => simp [find_new_line, line_end]
  | succ n ih =>
    rw [find_new_line]
    cases hb : buf[i]? with
    | none =>
      have hd : buf.drop i = [] := by
        rw [List.drop_eq_nil_iff]
        exact List.getElem?_eq_none_iff.mp hb
      have hd1 : buf.drop (i + 1) = [] := by
        rw [List.drop_eq_nil_iff] at hd ⊢; omega
      simp [ih, hd, hd1, line_end]
    | some b =>
      have hlt : i < buf.length := by
        by_contra hc
        rw [List.getElem?_eq_none (by omega)] at hb
        cases hb
      have hb2 : buf[i] = b := by
        rw [List.getElem?_eq_getElem hlt] at hb
        exact Option.some.inj hb
      have hd : buf.drop i = b :: buf.drop (i + 1) := by
        rw [← hb2]; exact List.drop_eq_getElem_cons hlt
      by_cases h : b = NEW_LINE
      · simp [hd, h, line_end]
      · have h2 : ¬ (some b = some NEW_LINE) := by simpa using h
        simp only [hd, List.take_succ_cons, line_end, h, if_false, h2, ih, List.length_cons]
        generalize line_end ((buf.drop (i + 1)).take n) = e
        generalize ((buf.drop (i + 1)).take n).length = d
        by_cases hc : e < d
        · have hc2 : e + 1 < d + 1 := by omega
          rw [if_pos hc, if_pos hc2]; congr 1; omega
        · have hc2 : ¬ (e + 1 < d + 1) := by omega
          rw [if_neg hc, if_neg hc2]

/-! ## The system calls -/

theorem length_resized (env : Env) (buf : List Byte) (size : Nat) :
    (resized env buf size).length = size := by
  simp [resized]; omega

theorem take_resized (env : Env) (buf : List Byte) (size k : Nat)
    (hk : k ≤ size) (hb : k ≤ buf.length) :
    (resized env buf size).take k = buf.take k := by
  unfold resized
  rw [List.take_append_of_le_length (by simp; omega), List.take_take]
  congr 1; omega

theorem resized_of_le (env : Env) (buf : List Byte) (size : Nat) (h : size ≤ buf.length) :
    resized env buf size = buf.take size := by
  unfold resized
  have : size - buf.length = 0 := by omega
  simp [this]

theorem sys_realloc_ok (env : Env) (w : World) (buf : List Byte) (size : Nat)
    (h : env.alloc_ok w.trace.length = true) :
    sys_realloc env w buf size = (some (resized env buf size), w.record (.realloc size true)) := by
  simp [sys_realloc, h]

theorem length_write_at (buf : List Byte) (off : Nat) (bytes : List Byte)
    (h : off + bytes.length ≤ buf.length) : (write_at buf off bytes).length = buf.length := by
  simp [write_at]; omega

theorem take_write_at (buf : List Byte) (off : Nat) (bytes : List Byte)
    (h : off ≤ buf.length) :
    (write_at buf off bytes).take (off + bytes.length) = buf.take off ++ bytes := by
  unfold write_at
  rw [List.take_append_of_le_length (by simp [h])]
  rw [List.take_of_length_le (by simp [h])]

theorem write_at_nil (buf : List Byte) (off : Nat) : write_at buf off [] = buf := by
  simp [write_at]

/-- A `read` that does not fail on an open descriptor delivers between one
byte and `count` bytes of what remains behind the cursor, or nothing at the
end of the file. -/
theorem sys_read_ok (env : Env) (w : World) (fd : Int) (buf : List Byte) (off count : Nat)
    (file : OpenFile) (hfd : w.fds fd = some file)
    (hr : env.read_outcome w.trace.length ≠ .fail) (hc : 0 < count) :
    ∃ n, 0 < n ∧ n ≤ count ∧
      sys_read env w fd buf off count =
        ((((file.content.drop file.pos).take n).length : Int),
          write_at buf off ((file.content.drop file.pos).take n),
          (w.set_pos fd file (file.pos + ((file.content.drop file.pos).take n).length)).record
            (.read fd buf.length off count ((file.content.drop file.pos).take n).length)) := by
  unfold sys_read
  rw [hfd]
  cases ho : env.read_outcome w.trace.length with
  | fail => exact absurd ho hr
  | full => exact ⟨count, hc, le_refl _, rfl⟩
  | short k => exact ⟨min count (k + 1), by omega, by omega, rfl⟩

/-! ## One call without failure -/

theorem take_length_take (l : List Byte) (n : Nat) : l.take (l.take n).length = l.take n := by
  rw [List.take_eq_take]; simp

theorem read_loop_spec (env : Env) (hr : ∀ t, env.read_outcome t ≠ .fail) (fd : Int)
    (f : List Byte) (p0 : Nat) (rest : List Byte) (hrs : f.drop p0 = rest) :
    ∀ (fuel : Nat) (s : Locals) (w : World),
      w.fds fd = some ⟨f, p0 + s.curr_data_len⟩ →
      s.curr_data_len ≤ s.curr_buf_size →
      s.buf.length = s.curr_buf_size →
      s.buf.take s.curr_data_len = rest.take s.curr_data_len →
      s.curr_data_len ≤ rest.length →
      s.end_of_file_reached_or_error = false →
      s.curr_buf_size - s.curr_data_len ≤ fuel →
      if rest.length = 0 ∧ 0 < s.curr_buf_size then
        ∃ w', read_loop env fd fuel s w = some (none, w') ∧
          w'.fds = w.fds ∧ w'.out = w.out ∧ w'.fs = w.fs
      else
        ∃ buf' w', read_loop env fd fuel s w =
            some (some ⟨buf', s.curr_buf_size, min s.curr_buf_size rest.length,
              decide (rest.length < s.curr_buf_size)⟩, w') ∧
          buf'.length = s.curr_buf_size ∧
          buf'.take (min s.curr_buf_size rest.length) =
            rest.take (min s.curr_buf_size rest.length) ∧
          w'.fds =
            Function.update w.fds fd (some ⟨f, p0 + min s.curr_buf_size rest.length⟩) ∧
          w'.out = w.out ∧ w'.fs = w.fs := by
  have hexit : ∀ (fuel : Nat) (buf : List Byte) (len : Nat) (w : World),
      w.fds fd = some ⟨f, p0 + len⟩ → buf.length = len →
      buf.take len = rest.take len → len ≤ rest.length →
      if rest.length = 0 ∧ 0 < len then
        ∃ w', read_loop env fd fuel ⟨buf, len, len, false⟩ w = some (none, w') ∧
          w'.fds = w.fds ∧ w'.out = w.out ∧ w'.fs = w.fs
      else
        ∃ buf' w', read_loop env fd fuel ⟨buf, len, len, false⟩ w =
            some (some ⟨buf', len, min len rest.length,
              decide (rest.length < len)⟩, w') ∧
          buf'.length = len ∧
          buf'.take (min len rest.length) = rest.take (min len rest.length) ∧
          w'.fds = Function.update w.fds fd (some ⟨f, p0 + min len rest.length⟩) ∧
          w'.out = w.out ∧ w'.fs = w.fs := by
    intro fuel buf len w hfd hlen htake hrest
    have hm : min len rest.length = len := Nat.min_eq_left hrest
    have hd : decide (rest.length < len) = false := by
      rw [decide_eq_false_iff_not]; omega
    rw [if_neg (by omega), hm, hd]
    refine ⟨buf, w, ?_, hlen, htake, ?_, rfl, rfl⟩
    · cases fuel <;> simp [read_loop]
    · rw [← hfd, Function.update_eq_self]
  intro fuel
  induction fuel with
  | zero =>
    intro s w hfd hle hlen htake hrest hflag hfuel
    obtain ⟨buf, cap, len, flag⟩ := s
    simp only at hfd hle hlen htake hrest hflag hfuel ⊢
    have hfull : len = cap := by omega
    subst hfull hflag
    exact hexit 0 buf len w hfd hlen htake hrest
  | succ fuel ih =>
    intro s w hfd hle hlen htake hrest hflag hfuel
    obtain ⟨buf, cap, len, flag⟩ := s
    simp only at hfd hle hlen htake hrest hflag hfuel ⊢
    subst hflag
    by_cases hfull : len = cap
    · subst hfull
      exact hexit (fuel + 1) buf len w hfd hlen htake hrest
    · rw [read_loop]
      simp only [hfull, if_false]
      obtain ⟨n, hn0, hn, hread⟩ :=
        sys_read_ok env w fd buf len (cap - len) ⟨f, p0 + len⟩ hfd (hr _) (by omega)
      simp only at hread
      rw [hread]
      have hdd : f.drop (p0 + len) = rest.drop len := by
        rw [← hrs, List.drop_drop]
      rw [hdd]
      have hbt : ∀ bytes, bytes = (rest.drop len).take n →
          bytes.length = min n (rest.length - len) ∧
          rest.take len ++ bytes = rest.take (len + bytes.length) := by
        intro bytes hb
        subst hb
        refine ⟨by simp, ?_⟩
        rw [List.take_add, take_length_take]
      generalize (rest.drop len).take n = bytes at hbt ⊢
      obtain ⟨hk, hcat⟩ := hbt bytes rfl
      by_cases hz : bytes.length = 0
      · -- end of file
        have hbn : bytes = [] := List.length_eq_zero.mp hz
        subst hbn
        have hrl : rest.length = len := by simp at hk; omega
        by_cases hl0 : len = 0
        · subst hl0
          have hc : rest.length = 0 ∧ 0 < cap := ⟨hrl, by omega⟩
          rw [if_pos hc]
          simp only [List.length_nil, Nat.cast_zero, and_self, if_true]
          refine ⟨_, rfl, ?_, rfl, rfl⟩
          simp only [sys_free, World.record, World.set_pos]
          rw [← hfd]; simp
        · have hc : ¬ (rest.length = 0 ∧ 0 < cap) := by omega
          rw [if_neg hc]
          have hm : min cap rest.length = len := by omega
          have hd : decide (rest.length < cap) = true := by
            rw [decide_eq_true_iff]; omega
          rw [hm, hd]
          simp only [List.length_nil, Nat.cast_zero, hl0, and_false, if_false, le_refl, if_true,
            write_at_nil]
          refine ⟨buf, _, rfl, hlen, htake, ?_, rfl, rfl⟩
          simp [World.record, World.set_pos]
      · -- some bytes were read
        have hpos : ¬ ((bytes.length : Int) = 0 ∧ len = 0) := by omega
        have hpos2 : ¬ ((bytes.length : Int) ≤ 0) := by omega
        simp only [hpos, hpos2, if_false]
        have hstep := ih ⟨write_at buf len bytes, cap, len + (bytes.length : Int).toNat, false⟩
          ((w.set_pos fd ⟨f, p0 + len⟩ (p0 + len + bytes.length)).record
            (.read fd buf.length len (cap - len) bytes.length))
        simp only [Int.toNat_ofNat] at hstep ⊢
        have h1 := hstep (by simp [World.record, World.set_pos]; omega) (by omega)
          (by rw [length_write_at _ _ _ (by omega)]; exact hlen)
          (by rw [take_write_at _ _ _ (by omega), htake, hcat])
          (by omega) trivial (by omega)
        have hcne : ¬ (rest.length = 0 ∧ 0 < cap) := by omega
        rw [if_neg hcne] at h1 ⊢
        obtain ⟨buf', w', he, hl', ht', hf', ho', hs'⟩ := h1
        refine ⟨buf', w', he, hl', ht', ?_, ho', hs'⟩
        rw [hf']
        simp [World.record, World.set_pos]

theorem find_new_line_of_take (buf rest : List Byte) (m : Nat) (hm : m ≤ rest.length)
    (ht : buf.take m = rest.take m) :
    find_new_line buf m 0 = if line_end rest < m then some (line_end rest) else none := by
  rw [find_new_line_eq, List.drop_zero, ht, line_end_take, List.length_take,
    Nat.min_eq_left hm]
  by_cases h : line_end rest < m
  · rw [if_pos h, if_pos (by omega), Nat.min_eq_right (by omega), Nat.zero_add]
  · rw [if_neg h, if_neg (by omega)]

theorem take_set_succ (buf : List Byte) (i : Nat) (b : Byte) (h : i < buf.length) :
    (buf.set i b).take (i + 1) = buf.take i ++ [b] := by
  rw [List.set_eq_take_append_cons_drop, if_pos h]
  have hl : (buf.take i ++ [b]).length = i + 1 := by simp; omega
  have := @List.take_left' _ (buf.take i ++ [b]) (buf.drop (i + 1)) (i + 1) hl
  simpa using this

theorem sys_lseek_eq (env : Env) (w : World) (fd : Int) (delta : Int) (file : OpenFile)
    (sk : Bool) (hfd : w.fds fd = some file) (hs : env.seek_ok w.trace.length = sk)
    (hpos : 0 ≤ (file.pos : Int) + delta) :
    sys_lseek env w fd delta =
      if sk then
        (((file.pos : Int) + delta),
          (w.set_pos fd file ((file.pos : Int) + delta).toNat).record (.lseek fd delta true))
      else (-1, w.record (.lseek fd delta false)) := by
  unfold sys_lseek
  rw [hfd]
  cases sk <;> simp [hs, hpos]

/-- The outer loop when no `read` fails and every `realloc` succeeds, with
every `lseek` succeeding (`sk = true`) or every `lseek` failing
(`sk = false`).  Here `rest` is what lies behind the cursor at the start of
the call and `c` is the number of bytes buffered so far. -/
theorem get_line_loop_spec (env : Env) (hr : ∀ t, env.read_outcome t ≠ .fail)
    (ha : ∀ t, env.alloc_ok t = true) (sk : Bool) (hs : ∀ t, env.seek_ok t = sk) (fd : Int)
    (f : List Byte) (p0 : Nat) (rest : List Byte) (hrs : f.drop p0 = rest) :
    ∀ (fuel : Nat) (buf : List Byte) (c : Nat) (w : World),
      w.fds fd = some ⟨f, p0 + c⟩ → buf.length = c → buf.take c = rest.take c →
      c ≤ rest.length → rest.length - c < fuel →
      ∃ ret err w', get_line_loop env fd fuel ⟨buf, c, c, false⟩ w = some (ret, err, w') ∧
        w'.out = w.out ∧ w'.fs = w.fs ∧
        (rest.length = 0 → ret = none ∧ err = NO_ERROR ∧ w'.fds = w.fds) ∧
        (line_end rest < rest.length → sk = true →
          ret = some (rest.take (line_end rest) ++ [0]) ∧ err = NO_ERROR ∧
          w'.fds = Function.update w.fds fd (some ⟨f, p0 + line_end rest + 1⟩)) ∧
        (line_end rest < rest.length → sk = false →
          ret = none ∧ err = FILE_LSEEK_ERROR) ∧
        (0 < rest.length → line_end rest = rest.length →
          ret = some (rest ++ [0]) ∧ err = NO_ERROR ∧
          w'.fds = Function.update w.fds fd (some ⟨f, p0 + rest.length⟩)) := by
  intro fuel
  induction fuel with
  | zero => intro buf c w _ _ _ _ h; omega
  | succ fuel ih =>
    intro buf c w hfd hlen htake hc hfuel
    rw [get_line_loop, sys_realloc_ok env w _ _ (ha _)]
    simp only
    have hin := read_loop_spec env hr fd f p0 rest hrs (c + BUF_SIZE_INCREMENT - c)
      ⟨resized env buf (c + BUF_SIZE_INCREMENT), c + BUF_SIZE_INCREMENT, c, false⟩
      (w.record (.realloc (c + BUF_SIZE_INCREMENT) true))
      (by simpa [World.record] using hfd) (by simp)
      (length_resized _ _ _)
      (by
        simp only
        rw [take_resized _ _ _ _ (by omega) (by omega), htake])
      hc rfl (le_refl _)
    simp only at hin
    have hcap : 0 < c + BUF_SIZE_INCREMENT := by simp [BUF_SIZE_INCREMENT]
    by_cases h0 : rest.length = 0
    · -- nothing behind the cursor
      rw [if_pos ⟨h0, hcap⟩] at hin
      obtain ⟨w', he, hf', ho', hs'⟩ := hin
      rw [he]
      refine ⟨none, NO_ERROR, w', rfl, ho', hs', ?_, ?_, ?_, ?_⟩
      · intro _; exact ⟨rfl, rfl, hf'⟩
      · intro h; omega
      · intro h; omega
      · intro h; omega
    · rw [if_neg (by omega)] at hin
      obtain ⟨buf2, w2, he, hl2, ht2, hf2, ho2, hs2⟩ := hin
      rw [he]
      simp only
      have hfd2 : w2.fds fd = some ⟨f, p0 + min (c + BUF_SIZE_INCREMENT) rest.length⟩ := by
        rw [hf2]; simp
      generalize hm : min (c + BUF_SIZE_INCREMENT) rest.length = m at *
      have hmle : m ≤ rest.length := by omega
      have hmcap : m ≤ c + BUF_SIZE_INCREMENT := by omega
      rw [find_new_line_of_take buf2 rest m hmle ht2]
      by_cases hfound : line_end rest < m
      · -- a newline in the buffer
        rw [if_pos hfound]
        simp only
        rw [sys_realloc_ok env _ _ _ (ha _)]
        simp only
        have hi2 : line_end rest < buf2.length := by omega
        have hbuf : resized env (buf2.set (line_end rest) 0) (line_end rest + 1) =
            rest.take (line_end rest) ++ [0] := by
          rw [resized_of_le _ _ _ (by simp; omega), take_set_succ _ _ _ hi2]
          congr 1
          have := congrArg (List.take (line_end rest)) ht2
          rw [List.take_take, List.take_take, Nat.min_eq_left (by omega)] at this
          exact this
        rw [hbuf]
        rw [sys_lseek_eq env _ fd _ ⟨f, p0 + m⟩ sk (by simpa [World.record] using hfd2) (hs _)
          (by simp only; omega)]
        cases sk with
        | true =>
          simp only [if_true]
          have hnn : ¬ (((p0 + m : Nat) : Int) + ((line_end rest : Int) + 1 - (m : Int)) < 0) := by
            omega
          rw [if_neg hnn]
          refine ⟨_, _, _, rfl, ?_, ?_, ?_, ?_, ?_, ?_⟩
          · simpa [World.record, World.set_pos] using ho2
          · simpa [World.record, World.set_pos] using hs2
          · intro h; omega
          · intro _ _
            refine ⟨rfl, rfl, ?_⟩
            have hx : (((p0 + m : Nat) : Int) + ((line_end rest : Int) + 1 - (m : Int))).toNat =
                p0 + line_end rest + 1 := by omega
            simp only [World.record, World.set_pos]
            rw [hx, hf2, Function.update_idem]
            rfl
          · intro _ h; cases h
          · intro _ h; omega
        | false =>
          simp only [Bool.false_eq_true, if_false]
          rw [if_pos (by decide)]
          refine ⟨_, _, _, rfl, ?_, ?_, ?_, ?_, ?_, ?_⟩
          · simpa [sys_free, World.record, World.set_pos] using ho2
          · simpa [sys_free, World.record, World.set_pos] using hs2
          · intro h; omega
          · intro _ h; cases h
          · intro _ _; exact ⟨rfl, rfl⟩
          · intro _ h; omega
      · rw [if_neg hfound]
        simp only
        by_cases hend : rest.length < c + BUF_SIZE_INCREMENT
        · -- the end of the file was reached
          have hmr : m = rest.length := by omega
          have hle := line_end_le rest
          have hd : decide (rest.length < c + BUF_SIZE_INCREMENT) = true := by
            rw [decide_eq_true_iff]; exact hend
          rw [hd]
          simp only [if_true]
          rw [sys_realloc_ok env _ _ _ (ha _)]
          simp only
          have hbuf : (resized env buf2 (m + 1)).set m 0 = rest ++ [0] := by
            rw [resized_of_le _ _ _ (by omega), ← List.set_take,
              take_set_succ _ _ _ (by omega), ht2, hmr, List.take_length]
          rw [hbuf]
          refine ⟨_, _, _, rfl, ?_, ?_, ?_, ?_, ?_, ?_⟩
          · simpa [World.record] using ho2
          · simpa [World.record] using hs2
          · intro h; omega
          · intro h; omega
          · intro h; omega
          · intro _ _
            refine ⟨rfl, rfl, ?_⟩
            simp only [World.record]
            rw [hf2, hmr]
            rfl
        · -- the buffer is full: grow it and read on
          have hmc : m = c + BUF_SIZE_INCREMENT := by omega
          have hd : decide (rest.length < c + BUF_SIZE_INCREMENT) = false := by
            rw [decide_eq_false_iff_not]; exact hend
          rw [hd]
          simp only [Bool.false_eq_true, if_false]
          rw [hmc] at ht2 hfd2 hf2
          have hnext := ih buf2 (c + BUF_SIZE_INCREMENT)
            (w2.record (.scan buf2.length (c + BUF_SIZE_INCREMENT)))
            (by simpa [World.record] using hfd2) hl2 ht2 (by omega)
            (by simp only [BUF_SIZE_INCREMENT] at *; omega)
          rw [hmc]
          obtain ⟨ret, err, w', he', ho', hs', h1, h2, h3, h4⟩ := hnext
          refine ⟨ret, err, w', he', ?_, ?_, ?_, ?_, h3, ?_⟩
          · rw [ho']; simpa [World.record] using ho2
          · rw [hs']; simpa [World.record] using hs2
          · intro h; omega
          · intro ha hb
            obtain ⟨r1, r2, r3⟩ := h2 ha hb
            refine ⟨r1, r2, ?_⟩
            rw [r3]; simp only [World.record]; rw [hf2, Function.update_idem]; rfl
          · intro ha hb
            obtain ⟨r1, r2, r3⟩ := h4 ha hb
            refine ⟨r1, r2, ?_⟩
            rw [r3]; simp only [World.record]; rw [hf2, Function.update_idem]; rfl

/-- One call on an open descriptor when no `read` fails and every `realloc`
succeeds, with every `lseek` succeeding or every `lseek` failing. -/
theorem get_line_from_file_spec (env : Env) (hr : ∀ t, env.read_outcome t ≠ .fail)
    (ha : ∀ t, env.alloc_ok t = true) (sk : Bool) (hs : ∀ t, env.seek_ok t = sk) (fd : Int)
    (hfd0 : 0 ≤ fd) (e : Int) (w : World) (f : List Byte) (p : Nat)
    (hfd : w.fds fd = some ⟨f, p⟩) :
    ∃ ret err w', get_line_from_file env fd (some e) w = some ⟨ret, some err, w'⟩ ∧
      w'.out = w.out ∧ w'.fs = w.fs ∧
      ((f.drop p).length = 0 → ret = none ∧ err = NO_ERROR ∧ w'.fds = w.fds) ∧
      (line_end (f.drop p) < (f.drop p).length → sk = true →
        ret = some ((f.drop p).take (line_end (f.drop p)) ++ [0]) ∧ err = NO_ERROR ∧
        w'.fds = Function.update w.fds fd (some ⟨f, p + line_end (f.drop p) + 1⟩)) ∧
      (line_end (f.drop p) < (f.drop p).length → sk = false →
        ret = none ∧ err = FILE_LSEEK_ERROR) ∧
      (0 < (f.drop p).length → line_end (f.drop p) = (f.drop p).length →
        ret = some (f.drop p ++ [0]) ∧ err = NO_ERROR ∧
        w'.fds = Function.update w.fds fd (some ⟨f, p + (f.drop p).length⟩)) := by
  have hloop := get_line_loop_spec env hr ha sk hs fd f p (f.drop p) rfl
    (w.remaining fd + 1) [] 0 w (by simpa using hfd) rfl rfl (Nat.zero_le _)
    (by simp [World.remaining, hfd])
  obtain ⟨ret, err, w', he, ho, hfs, h1, h2, h3, h4⟩ := hloop
  refine ⟨ret, err, w', ?_, ho, hfs, h1, h2, h3, h4⟩
  unfold get_line_from_file
  simp only
  rw [if_neg (by omega), he]

/-- One call on an open descriptor when nothing fails: the line returned and
the cursor afterwards. -/
theorem get_line_from_file_ok (env : Env) (henv : env.no_failure) (fd : Int)
    (hfd0 : 0 ≤ fd) (e : Int) (w : World) (f : List Byte) (p : Nat)
    (hfd : w.fds fd = some ⟨f, p⟩) :
    ∃ w', get_line_from_file env fd (some e) w =
        some ⟨if f.drop p = [] then none
          else some ((f.drop p).take (line_end (f.drop p)) ++ [0]), some NO_ERROR, w'⟩ ∧
      w'.fds = Function.update w.fds fd
        (some ⟨f, p + min (line_end (f.drop p) + 1) (f.drop p).length⟩) ∧
      w'.out = w.out ∧ w'.fs = w.fs := by
  obtain ⟨hr, ha, hs⟩ := henv
  obtain ⟨ret, err, w', he, ho, hfs, h1, h2, _, h4⟩ :=
    get_line_from_file_spec env hr ha true hs fd hfd0 e w f p hfd
  refine ⟨w', ?_, ?_, ho, hfs⟩
  · rw [he]
    have hle := line_end_le (f.drop p)
    by_cases h0 : (f.drop p).length = 0
    · obtain ⟨r1, r2, _⟩ := h1 h0
      rw [if_pos (List.length_eq_zero.mp h0), r1, r2]
    · rw [if_neg (fun h => h0 (by rw [h]; rfl))]
      by_cases hn : line_end (f.drop p) < (f.drop p).length
      · obtain ⟨r1, r2, _⟩ := h2 hn rfl
        rw [r1, r2]
      · have hq : line_end (f.drop p) = (f.drop p).length := by omega
        obtain ⟨r1, r2, _⟩ := h4 (by omega) hq
        rw [r1, r2, hq, List.take_length]
  · have hle := line_end_le (f.drop p)
    by_cases h0 : (f.drop p).length = 0
    · obtain ⟨_, _, r3⟩ := h1 h0
      rw [r3, h0, Nat.min_zero, Nat.add_zero, ← hfd, Function.update_eq_self]
    · by_cases hn : line_end (f.drop p) < (f.drop p).length
      · obtain ⟨_, _, r3⟩ := h2 hn rfl
        rw [r3, Nat.min_eq_left (by omega), Nat.add_assoc]
      · have hq : line_end (f.drop p) = (f.drop p).length := by omega
        obtain ⟨_, _, r3⟩ := h4 (by omega) hq
        rw [r3, Nat.min_eq_right (by omega)]

/-! ## The first newline -/

theorem getElem?_line_end (l : List Byte) (h : line_end l < l.length) :
    l[line_end l]? = some NEW_LINE := by
  induction l with
  | nil => simp at h
  | cons b l ih =>
    by_cases hb : b = NEW_LINE
    · simp [line_end, hb]
    · simp only [line_end, hb, if_false, List.length_cons] at h ⊢
      rw [List.getElem?_cons_succ]
      exact ih (by omega)

theorem getElem?_ne_of_lt_line_end (l : List Byte) (j : Nat) (h : j < line_end l) :
    l[j]? ≠ some NEW_LINE := by
  induction l generalizing j with
  | nil => simp [line_end] at h
  | cons b l ih =>
    by_cases hb : b = NEW_LINE
    · simp [line_end, hb] at h
    · simp only [line_end, hb, if_false] at h
      cases j with
      | zero => simpa using hb
      | succ j => rw [List.getElem?_cons_succ]; exact ih j (by omega)

theorem ne_of_mem_take_line_end (l : List Byte) (b : Byte)
    (h : b ∈ l.take (line_end l)) : b ≠ NEW_LINE := by
  induction l with
  | nil => simp [line_end] at h
  | cons a l ih =>
    by_cases ha : a = NEW_LINE
    · simp [line_end, ha] at h
    · simp only [line_end, ha, if_false, List.take_succ_cons, List.mem_cons] at h
      rcases h with h | h
      · rw [h]; exact ha
      · exact ih h

theorem line_end_eq_of_first (l : List Byte) (i : Nat) (hi : i < l.length)
    (hnl : l[i]? = some NEW_LINE) (hbefore : ∀ j, j < i → l[j]? ≠ some NEW_LINE) :
    line_end l = i := by
  have hle := line_end_le l
  rcases Nat.lt_trichotomy (line_end l) i with h | h | h
  · exact absurd (getElem?_line_end l (by omega)) (hbefore _ h)
  · exact h
  · exact absurd hnl (getElem?_ne_of_lt_line_end l i h)

theorem line_end_eq_length_of_none (l : List Byte)
    (hnone : ∀ j, j < l.length → l[j]? ≠ some NEW_LINE) : line_end l = l.length := by
  have hle := line_end_le l
  by_contra hne
  exact hnone _ (by omega) (getElem?_line_end l (by omega))

theorem getElem?_drop_add (f : List Byte) (p j : Nat) : (f.drop p)[j]? = f[p + j]? := by
  simp

/-! ## C1 and C2: the line returned and the cursor afterwards -/

/-- C1: for every file content `f` and cursor `p < length f`, on an open
descriptor and when no `read`, `realloc` or `lseek` fails, one call of
`get_line_from_file` returns a buffer `f[p .. p+i) ++ [0]`, where `p + i` is
the position of the first newline at or after `p`, or the length of `f` when
there is none; the bytes before the sentinel hold no newline. -/
theorem C1_returned_line_is_file_segment (env : Env) (henv : env.no_failure) (fd : Int)
    (hfd0 : 0 ≤ fd) (e : Int) (w : World) (f : List Byte) (p : Nat)
    (hfd : w.fds fd = some ⟨f, p⟩) (hp : p < f.length) :
    ∃ (i : Nat) (r : Ret), get_line_from_file env fd (some e) w = some r ∧
      r.line = some ((f.drop p).take i ++ [0]) ∧
      ((p + i < f.length ∧ f[p + i]? = some NEW_LINE) ∨ p + i = f.length) ∧
      (∀ j, p ≤ j → j < p + i → f[j]? ≠ some NEW_LINE) ∧
      (∀ b ∈ (f.drop p).take i, b ≠ NEW_LINE) := by
  obtain ⟨w', he, _, _, _⟩ := get_line_from_file_ok env henv fd hfd0 e w f p hfd
  have hne : f.drop p ≠ [] := by
    intro h
    have := congrArg List.length h
    simp at this; omega
  rw [if_neg hne] at he
  have hle := line_end_le (f.drop p)
  have hlen : (f.drop p).length = f.length - p := by simp
  refine ⟨line_end (f.drop p), _, he, rfl, ?_, ?_, ?_⟩
  · by_cases hn : line_end (f.drop p) < (f.drop p).length
    · left
      refine ⟨by omega, ?_⟩
      rw [← getElem?_drop_add]
      exact getElem?_line_end _ hn
    · right; omega
  · intro j hj1 hj2
    have := getElem?_ne_of_lt_line_end (f.drop p) (j - p) (by omega)
    rw [getElem?_drop_add] at this
    have hpj : p + (j - p) = j := by omega
    rw [hpj] at this
    exact this
  · intro b hb
    exact ne_of_mem_take_line_end _ b hb

/-- C1 at the file `ab\ncd` read from the start through descriptor 3. -/
theorem C1_returned_line_is_file_segment_witness :
    (Env.ideal 0 3).no_failure ∧ (0 : Int) ≤ 3 ∧
    (World.single 3 [97, 98, 10, 99, 100] 0).fds 3 = some ⟨[97, 98, 10, 99, 100], 0⟩ ∧
    0 < ([97, 98, 10, 99, 100] : List Byte).length ∧
    ∃ (i : Nat) (r : Ret),
      get_line_from_file (Env.ideal 0 3) 3 (some 0) (World.single 3 [97, 98, 10, 99, 100] 0)
        = some r ∧
      r.line = some ((([97, 98, 10, 99, 100] : List Byte).drop 0).take i ++ [0]) ∧
      ((0 + i < ([97, 98, 10, 99, 100] : List Byte).length ∧
          ([97, 98, 10, 99, 100] : List Byte)[0 + i]? = some NEW_LINE) ∨
        0 + i = ([97, 98, 10, 99, 100] : List Byte).length) ∧
      (∀ j, 0 ≤ j → j < 0 + i → ([97, 98, 10, 99, 100] : List Byte)[j]? ≠ some NEW_LINE) ∧
      (∀ b ∈ (([97, 98, 10, 99, 100] : List Byte).drop 0).take i, b ≠ NEW_LINE) :=
  ⟨⟨fun _ => by simp [Env.ideal], fun _ => rfl, fun _ => rfl⟩, by decide, rfl, by decide,
    C1_returned_line_is_file_segment (Env.ideal 0 3)
      ⟨fun _ => by simp [Env.ideal], fun _ => rfl, fun _ => rfl⟩ 3 (by decide) 0
      (World.single 3 [97, 98, 10, 99, 100] 0) [97, 98, 10, 99, 100] 0 rfl (by decide)⟩

/-- C2: for every file content `f` and cursor `p < length f`, when nothing
fails a call returns a line and leaves the cursor at `p + i + 1` when the
first newline at or after `p` is at `p + i`, and at `length f` when there is
no newline at or after `p`; this holds for every way the reads are split,
hence however many bytes were read beyond the newline. -/
theorem C2_cursor_after_line (env : Env) (henv : env.no_failure) (fd : Int)
    (hfd0 : 0 ≤ fd) (e : Int) (w : World) (f : List Byte) (p : Nat)
    (hfd : w.fds fd = some ⟨f, p⟩) (hp : p < f.length) :
    ∃ r : Ret, get_line_from_file env fd (some e) w = some r ∧ r.line ≠ none ∧
      (∀ i, p + i < f.length → f[p + i]? = some NEW_LINE →
        (∀ j, p ≤ j → j < p + i → f[j]? ≠ some NEW_LINE) →
        r.world.fds fd = some ⟨f, p + i + 1⟩) ∧
      ((∀ j, p ≤ j → j < f.length → f[j]? ≠ some NEW_LINE) →
        r.world.fds fd = some ⟨f, f.length⟩) := by
  obtain ⟨w', he, hf, _, _⟩ := get_line_from_file_ok env henv fd hfd0 e w f p hfd
  have hne : f.drop p ≠ [] := by
    intro h
    have := congrArg List.length h
    simp at this; omega
  rw [if_neg hne] at he
  have hlen : (f.drop p).length = f.length - p := by simp
  refine ⟨_, he, by simp, ?_, ?_⟩
  · intro i hi hnl hbefore
    have hq : line_end (f.drop p) = i := by
      apply line_end_eq_of_first
      · omega
      · rw [getElem?_drop_add]; exact hnl
      · intro j hj
        rw [getElem?_drop_add]
        exact hbefore _ (by omega) (by omega)
    simp only [hf, hq, Function.update_same]
    rw [Nat.min_eq_left (by omega), Nat.add_assoc]
  · intro hnone
    have hq : line_end (f.drop p) = (f.drop p).length := by
      apply line_end_eq_length_of_none
      intro j hj
      rw [getElem?_drop_add]
      exact hnone _ (by omega) (by omega)
    simp only [hf, hq, Function.update_same]
    rw [Nat.min_eq_right (by omega), hlen]
    congr 2
    omega

/-- C2 at the file `ab\ncd` read from the start through descriptor 3 with
reads of at most four bytes. -/
theorem C2_cursor_after_line_witness :
    ∃ r : Ret, get_line_from_file ⟨fun _ => .short 3, fun _ => true, fun _ => true, fun _ => 0, 3⟩
        3 (some 0) (World.single 3 [97, 98, 10, 99, 100] 0) = some r ∧ r.line ≠ none ∧
      (∀ i, 0 + i < ([97, 98, 10, 99, 100] : List Byte).length →
        ([97, 98, 10, 99, 100] : List Byte)[0 + i]? = some NEW_LINE →
        (∀ j, 0 ≤ j → j < 0 + i → ([97, 98, 10, 99, 100] : List Byte)[j]? ≠ some NEW_LINE) →
        r.world.fds 3 = some ⟨[97, 98, 10, 99, 100], 0 + i + 1⟩) ∧
      ((∀ j, 0 ≤ j → j < ([97, 98, 10, 99, 100] : List Byte).length →
          ([97, 98, 10, 99, 100] : List Byte)[j]? ≠ some NEW_LINE) →
        r.world.fds 3 = some ⟨[97, 98, 10, 99, 100], ([97, 98, 10, 99, 100] : List Byte).length⟩) :=
  C2_cursor_after_line ⟨fun _ => .short 3, fun _ => true, fun _ => true, fun _ => 0, 3⟩
    ⟨fun _ => by simp, fun _ => rfl, fun _ => rfl⟩ 3 (by decide) 0
    (World.single 3 [97, 98, 10, 99, 100] 0) [97, 98, 10, 99, 100] 0 rfl (by decide)

/-! ## Logical lines -/

theorem logical_lines_eq_nil (l : List Byte) : logical_lines l = [] ↔ l = [] := by
  cases l with
  | nil => simp [logical_lines]
  | cons b r =>
    by_cases hb : b = NEW_LINE
    · simp [logical_lines, hb]
    · simp only [logical_lines, hb, if_false]
      cases logical_lines r <;> simp

theorem logical_lines_cons_line (rest : List Byte) (h : rest ≠ []) :
    logical_lines rest =
      rest.take (line_end rest) :: logical_lines (rest.drop (line_end rest + 1)) := by
  induction rest with
  | nil => exact absurd rfl h
  | cons b r ih =>
    by_cases hb : b = NEW_LINE
    · simp [logical_lines, line_end, hb]
    · simp only [logical_lines, line_end, hb, if_false, List.take_succ_cons, List.drop_succ_cons]
      by_cases hr : r = []
      · subst hr
        simp [logical_lines, line_end]
      · rw [ih hr]

theorem length_logical_lines (f : List Byte) :
    (logical_lines f).length =
      f.count NEW_LINE + (if f ≠ [] ∧ f.getLast? ≠ some NEW_LINE then 1 else 0) := by
  induction f with
  | nil => simp [logical_lines]
  | cons b r ih =>
    by_cases hr : r = []
    · subst hr
      by_cases hb : b = NEW_LINE
      · simp [logical_lines, hb]
      · have hb2 : ¬ (NEW_LINE = b) := fun h => hb h.symm
        simp [logical_lines, hb, hb2, List.count_cons]
    · have hlast : (b :: r).getLast? = r.getLast? := by
        cases r with
        | nil => exact absurd rfl hr
        | cons a t => simp [List.getLast?_cons_cons]
      have hc : ((b :: r) ≠ [] ∧ (b :: r).getLast? ≠ some NEW_LINE) ↔
          (r ≠ [] ∧ r.getLast? ≠ some NEW_LINE) := by
        rw [hlast]; simp [hr]
      by_cases hb : b = NEW_LINE
      · subst hb
        simp only [logical_lines, if_true, List.length_cons, ih, List.count_cons_self]
        rw [if_congr hc rfl rfl]
        omega
      · have hb2 : ¬ (NEW_LINE = b) := fun h => hb h.symm
        simp only [logical_lines, hb, if_false]
        have hne : logical_lines r ≠ [] := fun h => hr ((logical_lines_eq_nil r).mp h)
        cases hl : logical_lines r with
        | nil => exact absurd hl hne
        | cons l ls =>
          rw [hl] at ih
          simp only [List.length_cons] at ih ⊢
          rw [ih, if_congr hc rfl rfl, List.count_cons_of_ne hb2]

theorem join_logical_lines (f : List Byte) :
    join_lines (logical_lines f) ++ (if f.getLast? = some NEW_LINE then [NEW_LINE] else []) =
      f := by
  induction f with
  | nil => simp [logical_lines, join_lines]
  | cons b r ih =>
    by_cases hr : r = []
    · subst hr
      by_cases hb : b = NEW_LINE
      · simp [logical_lines, join_lines, hb]
      · simp [logical_lines, join_lines, hb]
    · have hlast : (b :: r).getLast? = r.getLast? := by
        cases r with
        | nil => exact absurd rfl hr
        | cons a t => simp [List.getLast?_cons_cons]
      have hne : logical_lines r ≠ [] := fun h => hr ((logical_lines_eq_nil r).mp h)
      rw [hlast]
      cases hl : logical_lines r with
      | nil => exact absurd hl hne
      | cons l ls =>
        rw [hl] at ih
        by_cases hb : b = NEW_LINE
        · simp only [logical_lines, hb, if_true, hl, join_lines, List.nil_append,
            List.cons_append]
          rw [ih]
        · simp only [logical_lines, hb, if_false, hl]
          cases ls with
          | nil =>
            simp only [join_lines, List.cons_append] at ih ⊢
            rw [ih]
          | cons l2 ls2 =>
            simp only [join_lines, List.cons_append] at ih ⊢
            rw [ih]

theorem length_logical_lines_le (f : List Byte) : (logical_lines f).length ≤ f.length := by
  induction f with
  | nil => simp [logical_lines]
  | cons b r ih =>
    by_cases hb : b = NEW_LINE
    · simp only [logical_lines, hb, if_true, List.length_cons]; omega
    · simp only [logical_lines, hb, if_false]
      cases hl : logical_lines r with
      | nil => simp
      | cons l ls =>
        rw [hl] at ih
        simp only [List.length_cons] at ih ⊢
        omega

theorem drop_min_length (l : List Byte) (k : Nat) : l.drop (min k l.length) = l.drop k := by
  by_cases h : k ≤ l.length
  · rw [Nat.min_eq_left h]
  · rw [Nat.min_eq_right (by omega), List.drop_length, List.drop_of_length_le (by omega)]

theorem add_min_add_length_drop (rest : List Byte) (p k : Nat) :
    p + min k rest.length + (rest.drop k).length = p + rest.length := by
  rw [List.length_drop]; omega

/-! ## All the lines of a file -/

/-- Repeated calls without failure return the logical lines of what lies
behind the cursor, each followed by the sentinel, and leave the cursor at the
end of the file; `fuel` calls are enough when there are fewer than `fuel`
lines. -/
theorem read_lines_spec (env : Env) (henv : env.no_failure) (fd : Int) (hfd0 : 0 ≤ fd)
    (f : List Byte) :
    ∀ (fuel : Nat) (w : World) (p : Nat), w.fds fd = some ⟨f, p⟩ →
      (logical_lines (f.drop p)).length < fuel →
      ∃ w', read_lines env fd fuel w =
          some ((logical_lines (f.drop p)).map (fun l => l ++ [0]), some NO_ERROR, w') ∧
        w'.fds = Function.update w.fds fd (some ⟨f, p + (f.drop p).length⟩) ∧
        w'.out = w.out ∧ w'.fs = w.fs := by
  intro fuel
  induction fuel with
  | zero => intro w p _ h; omega
  | succ fuel ih =>
    intro w p hfd hfuel
    obtain ⟨w1, he, hf1, ho1, hs1⟩ := get_line_from_file_ok env henv fd hfd0 0 w f p hfd
    rw [read_lines, he]
    by_cases h0 : f.drop p = []
    · simp only [h0, if_true, logical_lines, List.map_nil]
      refine ⟨w1, rfl, ?_, ho1, hs1⟩
      rw [hf1, h0]
      simp
    · simp only [h0, if_false]
      have hcons := logical_lines_cons_line (f.drop p) h0
      have hfd1 : w1.fds fd =
          some ⟨f, p + min (line_end (f.drop p) + 1) (f.drop p).length⟩ := by
        rw [hf1]; simp
      have hdrop : f.drop (p + min (line_end (f.drop p) + 1) (f.drop p).length) =
          (f.drop p).drop (line_end (f.drop p) + 1) := by
        rw [← drop_min_length (f.drop p), List.drop_drop]
      have hnext := ih w1 _ hfd1 (by
        rw [hdrop]
        rw [hcons] at hfuel
        simp only [List.length_cons] at hfuel
        omega)
      obtain ⟨w2, he2, hf2, ho2, hs2⟩ := hnext
      rw [he2]
      simp only
      refine ⟨w2, ?_, ?_, by rw [ho2, ho1], by rw [hs2, hs1]⟩
      · rw [hdrop]
        conv_rhs => rw [hcons]
        simp
      · rw [hf2, hf1, Function.update_idem, hdrop, add_min_add_length_drop]

/-! ## C3 and C4: the number of lines and the round trip -/

/-- C3: for every file content `f` read from cursor 0 without failure, the
number of lines that repeated calls of `get_line_from_file` return before the
first `NULL` is the number of newline bytes of `f`, plus one when `f` is not
empty and does not end with a newline; `length f + 1` calls are enough, and
an empty file yields no line. -/
theorem C3_number_of_lines (env : Env) (henv : env.no_failure) (fd : Int) (hfd0 : 0 ≤ fd)
    (w : World) (f : List Byte) (hfd : w.fds fd = some ⟨f, 0⟩) (fuel : Nat)
    (hfuel : f.length < fuel) :
    ∃ lines e w', read_lines env fd fuel w = some (lines, e, w') ∧
      lines.length =
        f.count NEW_LINE + (if f ≠ [] ∧ f.getLast? ≠ some NEW_LINE then 1 else 0) ∧
      (f = [] → lines = []) := by
  have hb := length_logical_lines_le f
  obtain ⟨w', he, _, _, _⟩ :=
    read_lines_spec env henv fd hfd0 f fuel w 0 hfd (by rw [List.drop_zero]; omega)
  rw [List.drop_zero] at he
  refine ⟨_, _, w', he, ?_, ?_⟩
  · rw [List.length_map, length_logical_lines]
  · intro h; subst h; rfl

/-- C3 at the file `ab\n\ncd`: two newlines and an unterminated last line. -/
theorem C3_number_of_lines_witness :
    (Env.ideal 0 3).no_failure ∧ (0 : Int) ≤ 3 ∧
    ([97, 98, 10, 10, 99, 100] : List Byte).length < 7 ∧
    ∃ lines e w', read_lines (Env.ideal 0 3) 3 7 (World.single 3 [97, 98, 10, 10, 99, 100] 0) =
        some (lines, e, w') ∧
      lines.length =
        ([97, 98, 10, 10, 99, 100] : List Byte).count NEW_LINE +
          (if ([97, 98, 10, 10, 99, 100] : List Byte) ≠ [] ∧
              ([97, 98, 10, 10, 99, 100] : List Byte).getLast? ≠ some NEW_LINE then 1 else 0) ∧
      (([97, 98, 10, 10, 99, 100] : List Byte) = [] → lines = []) :=
  ⟨⟨fun _ => by simp [Env.ideal], fun _ => rfl, fun _ => rfl⟩, by decide, by decide,
    C3_number_of_lines (Env.ideal 0 3)
      ⟨fun _ => by simp [Env.ideal], fun _ => rfl, fun _ => rfl⟩ 3 (by decide)
      (World.single 3 [97, 98, 10, 10, 99, 100] 0) [97, 98, 10, 10, 99, 100] rfl 7 (by decide)⟩

theorem map_dropLast_map_sentinel (ls : List (List Byte)) :
    (ls.map (fun l => l ++ [0])).map List.dropLast = ls := by
  induction ls with
  | nil => rfl
  | cons l ls ih => simp [ih]

/-- C4: for every file content `f` read from cursor 0 without failure, the
returned lines with their sentinels stripped, joined with one newline between
consecutive lines and followed by one newline exactly when `f` ends with a
newline, give back `f`. -/
theorem C4_round_trip (env : Env) (henv : env.no_failure) (fd : Int) (hfd0 : 0 ≤ fd)
    (w : World) (f : List Byte) (hfd : w.fds fd = some ⟨f, 0⟩) (fuel : Nat)
    (hfuel : f.length < fuel) :
    ∃ lines e w', read_lines env fd fuel w = some (lines, e, w') ∧
      join_lines (lines.map List.dropLast) ++
        (if f.getLast? = some NEW_LINE then [NEW_LINE] else []) = f := by
  have hb := length_logical_lines_le f
  obtain ⟨w', he, _, _, _⟩ :=
    read_lines_spec env henv fd hfd0 f fuel w 0 hfd (by rw [List.drop_zero]; omega)
  rw [List.drop_zero] at he
  refine ⟨_, _, w', he, ?_⟩
  rw [map_dropLast_map_sentinel, join_logical_lines]

/-- C4 at the file `ab\n\ncd\n` read with reads of one byte. -/
theorem C4_round_trip_witness :
    ([97, 98, 10, 10, 99, 100, 10] : List Byte).length < 8 ∧
    ∃ lines e w',
      read_lines ⟨fun _ => .short 0, fun _ => true, fun _ => true, fun _ => 0, 3⟩ 3 8
          (World.single 3 [97, 98, 10, 10, 99, 100, 10] 0) = some (lines, e, w') ∧
      join_lines (lines.map List.dropLast) ++
        (if ([97, 98, 10, 10, 99, 100, 10] : List Byte).getLast? = some NEW_LINE
          then [NEW_LINE] else []) = [97, 98, 10, 10, 99, 100, 10] :=
  ⟨by decide,
    C4_round_trip ⟨fun _ => .short 0, fun _ => true, fun _ => true, fun _ => 0, 3⟩
      ⟨fun _ => by simp, fun _ => rfl, fun _ => rfl⟩ 3 (by decide)
      (World.single 3 [97, 98, 10, 10, 99, 100, 10] 0) [97, 98, 10, 10, 99, 100, 10] rfl 8
      (by decide)⟩

/-! ## The driver -/

theorem strnlen_append_sentinel (l : List Byte) (h : ∀ b ∈ l, b ≠ 0) (n : Nat) :
    strnlen (l ++ [0]) n = min l.length n := by
  induction l generalizing n with
  | nil => cases n <;> simp [strnlen]
  | cons a l ih =>
    cases n with
    | zero => simp [strnlen]
    | succ n =>
      have ha : a ≠ 0 := h a (List.mem_cons_self _ _)
      have hih := ih (fun b hb => h b (List.mem_cons_of_mem _ hb)) n
      rw [List.cons_append, strnlen, if_neg ha, hih, List.length_cons]
      omega

theorem lt_of_mem_over_length_lines (ls : List (List Byte)) (n N : Nat)
    (h : N ∈ over_length_lines n ls) : n < N := by
  induction ls generalizing n with
  | nil => simp [over_length_lines] at h
  | cons l ls ih =>
    rw [over_length_lines] at h
    split at h
    · rcases List.mem_cons.mp h with h | h
      · omega
      · have := ih _ h; omega
    · have := ih _ h; omega

theorem pairwise_over_length_lines (ls : List (List Byte)) (n : Nat) :
    (over_length_lines n ls).Pairwise (fun a b => a < b) := by
  induction ls generalizing n with
  | nil => simp [over_length_lines]
  | cons l ls ih =>
    rw [over_length_lines]
    split
    · rw [List.pairwise_cons]
      exact ⟨fun N hN => lt_of_mem_over_length_lines ls (n + 1) N hN, ih _⟩
    · exact ih _

theorem mem_over_length_lines (ls : List (List Byte)) (n N : Nat) :
    N ∈ over_length_lines n ls ↔
      n < N ∧ ∃ l, ls[N - n - 1]? = some l ∧ 80 < l.length := by
  induction ls generalizing n with
  | nil => simp [over_length_lines]
  | cons l ls ih =>
    have hstep : ∀ N, n + 1 < N → (l :: ls)[N - n - 1]? = ls[N - (n + 1) - 1]? := by
      intro N hN
      have : N - n - 1 = (N - (n + 1) - 1) + 1 := by omega
      rw [this, List.getElem?_cons_succ]
    rw [over_length_lines]
    by_cases hl : 80 < l.length
    · rw [if_pos hl, List.mem_cons, ih]
      constructor
      · rintro (h | ⟨h1, l', h2, h3⟩)
        · subst h
          exact ⟨by omega, l, by simp, hl⟩
        · exact ⟨by omega, l', by rw [hstep N h1]; exact h2, h3⟩
      · rintro ⟨h1, l', h2, h3⟩
        by_cases hN : N = n + 1
        · left; exact hN
        · right
          have h1' : n + 1 < N := by omega
          exact ⟨h1', l', by rw [← hstep N h1']; exact h2, h3⟩
    · rw [if_neg hl, ih]
      constructor
      · rintro ⟨h1, l', h2, h3⟩
        exact ⟨by omega, l', by rw [hstep N h1]; exact h2, h3⟩
      · rintro ⟨h1, l', h2, h3⟩
        by_cases hN : N = n + 1
        · subst hN
          simp at h2
          subst h2
          exact absurd h3 hl
        · have h1' : n + 1 < N := by omega
          exact ⟨h1', l', by rw [← hstep N h1']; exact h2, h3⟩

/-- The loop of `main` on a file without 0 byte, when nothing fails: it
counts the logical lines behind the cursor and reports those of more than 80
bytes, in order. -/
theorem main_loop_spec (env : Env) (henv : env.no_failure) (fd : Int) (hfd0 : 0 ≤ fd)
    (f : List Byte) (hnul : ∀ b ∈ f, b ≠ 0) :
    ∀ (fuel : Nat) (w : World) (p : Nat) (m : MainLocals), w.fds fd = some ⟨f, p⟩ →
      (logical_lines (f.drop p)).length < fuel →
      ∃ w', main_loop env fd fuel m w =
          some (⟨m.line_num + (logical_lines (f.drop p)).length,
            m.printed + (over_length_lines m.line_num (logical_lines (f.drop p))).length,
            NO_ERROR⟩, w') ∧
        w'.out = w.out ++
          (over_length_lines m.line_num (logical_lines (f.drop p))).map Msg.over_length ∧
        w'.fs = w.fs := by
  intro fuel
  induction fuel with
  | zero => intro w p m _ h; omega
  | succ fuel ih =>
    intro w p m hfd hfuel
    obtain ⟨w1, he, hf1, ho1, hs1⟩ :=
      get_line_from_file_ok env henv fd hfd0 m.error_num w f p hfd
    rw [main_loop, he]
    by_cases h0 : f.drop p = []
    · simp only [h0, if_true, logical_lines, over_length_lines, List.map_nil, List.length_nil,
        Nat.add_zero, List.append_nil, Option.getD_some]
      exact ⟨w1, rfl, ho1, hs1⟩
    · simp only [h0, if_false, Option.getD_some]
      have hcons := logical_lines_cons_line (f.drop p) h0
      have hfd1 : w1.fds fd =
          some ⟨f, p + min (line_end (f.drop p) + 1) (f.drop p).length⟩ := by
        rw [hf1]; simp
      have hdrop : f.drop (p + min (line_end (f.drop p) + 1) (f.drop p).length) =
          (f.drop p).drop (line_end (f.drop p) + 1) := by
        rw [← drop_min_length (f.drop p), List.drop_drop]
      have hfuel' : (logical_lines
          (f.drop (p + min (line_end (f.drop p) + 1) (f.drop p).length))).length < fuel := by
        rw [hdrop]
        rw [hcons] at hfuel
        simp only [List.length_cons] at hfuel
        omega
      have hz : ∀ b ∈ (f.drop p).take (line_end (f.drop p)), b ≠ 0 := fun b hb =>
        hnul b (List.mem_of_mem_drop (List.mem_of_mem_take hb))
      have hlen : strnlen ((f.drop p).take (line_end (f.drop p)) ++ [0]) 81 = 81 ↔
          80 < ((f.drop p).take (line_end (f.drop p))).length := by
        rw [strnlen_append_sentinel _ hz]; omega
      rw [hcons]
      simp only [over_length_lines, List.length_cons]
      by_cases hlong : 80 < ((f.drop p).take (line_end (f.drop p))).length
      · rw [if_pos (hlen.mpr hlong), if_pos hlong]
        obtain ⟨w2, he2, ho2, hs2⟩ := ih
          ((w1.printf (.over_length (m.line_num + 1))).record .free) _
          ⟨m.line_num + 1, m.printed + 1, NO_ERROR⟩ (by simpa [World.record, World.printf] using hfd1) hfuel'
        rw [hdrop] at he2 ho2
        simp only at he2 ho2
        rw [he2]
        refine ⟨w2, ?_, ?_, ?_⟩
        · simp only [List.length_cons]
          congr 3 <;> omega
        · rw [ho2]
          simp [World.record, World.printf, ho1]
        · rw [hs2]
          simp [World.record, World.printf, hs1]
      · rw [if_neg (fun h => hlong (hlen.mp h)), if_neg hlong]
        obtain ⟨w2, he2, ho2, hs2⟩ := ih (w1.record .free) _
          ⟨m.line_num + 1, m.printed, NO_ERROR⟩ (by simpa [World.record] using hfd1) hfuel'
        rw [hdrop] at he2 ho2
        simp only at he2 ho2
        rw [he2]
        refine ⟨w2, ?_, ?_, ?_⟩
        · congr 3; omega
        · rw [ho2]
          simp [World.record, ho1]
        · rw [hs2]
          simp [World.record, hs1]

/-- The whole run of `main` on a file without 0 byte, when nothing fails. -/
theorem main_spec (env : Env) (henv : env.no_failure) (w : World) (prog path : String)
    (f : List Byte) (hfs : w.fs path = some f) (hnul : ∀ b ∈ f, b ≠ 0) (fuel : Nat)
    (hfuel : (logical_lines f).length < fuel) :
    ∃ w', main env fuel [prog, path] w = some (0, w') ∧
      w'.out = w.out ++ [Msg.blank] ++
        (over_length_lines 0 (logical_lines f)).map Msg.over_length ++
        [if (over_length_lines 0 (logical_lines f)).length = 0 then Msg.no_lines
          else Msg.total (over_length_lines 0 (logical_lines f)).length] := by
  unfold main
  simp only [sys_open, hfs]
  have hfd0 : ¬ ((env.open_fd : Int) < 0) := by omega
  rw [if_neg hfd0]
  obtain ⟨w2, he, ho, _⟩ := main_loop_spec env henv (env.open_fd : Int) (by omega) f hnul fuel
    (World.printf
      { w with fds := Function.update w.fds (env.open_fd : Int) (some ⟨f, 0⟩),
               trace := .opened path env.open_fd :: w.trace } .blank) 0 ⟨0, 0, 0⟩
    (by simp [World.printf]) (by rw [List.drop_zero]; exact hfuel)
  rw [List.drop_zero] at he ho
  simp only [Nat.zero_add] at he ho
  rw [he]
  simp only
  refine ⟨_, rfl, ?_⟩
  generalize over_length_lines 0 (logical_lines f) = Ns at *
  by_cases hN : Ns.length = 0
  · simp [hN, NO_ERROR, sys_close, World.printf, ho]
  · simp [hN, NO_ERROR, sys_close, World.printf, ho]

/-! ## C5: the report of `main` -/

set_option maxRecDepth 100000

/-- C5: on a file without 0 byte and without failure, `main` ends with status
0 after printing a blank line, then the over-length message for exactly the
numbers `N` such that the `N`-th logical line (counted from 1) has more than
80 bytes, in increasing order of `N`, then the summary with the number `K` of
these lines, or the message `No lines` when `K = 0`. -/
theorem C5_main_reports_over_length_lines (env : Env) (henv : env.no_failure) (w : World)
    (prog path : String) (f : List Byte) (hfs : w.fs path = some f)
    (hnul : ∀ b ∈ f, b ≠ 0) (fuel : Nat) (hfuel : f.length < fuel) :
    ∃ (Ns : List Nat) (w' : World), main env fuel [prog, path] w = some (0, w') ∧
      w'.out = w.out ++ [Msg.blank] ++ Ns.map Msg.over_length ++
        [if Ns.length = 0 then Msg.no_lines else Msg.total Ns.length] ∧
      Ns.Pairwise (fun a b => a < b) ∧
      (∀ N, N ∈ Ns ↔ 1 ≤ N ∧ ∃ l, (logical_lines f)[N - 1]? = some l ∧ 80 < l.length) := by
  have hb := length_logical_lines_le f
  obtain ⟨w', he, ho⟩ := main_spec env henv w prog path f hfs hnul fuel (by omega)
  refine ⟨over_length_lines 0 (logical_lines f), w', he, ho,
    pairwise_over_length_lines _ _, ?_⟩
  intro N
  rw [mem_over_length_lines]
  simp only [Nat.sub_zero]
  constructor
  · rintro ⟨h1, h2⟩; exact ⟨h1, h2⟩
  · rintro ⟨h1, h2⟩; exact ⟨h1, h2⟩

/-- Scenario A: the lines of 81 and of 200 bytes, and only these, are over-length. -/
theorem over_length_lines_scenario_A :
    over_length_lines 0 (logical_lines scenario_A) = [3, 4] := by
  decide

theorem scenario_A_no_nul : ∀ b ∈ scenario_A, b ≠ 0 := by
  decide

/-- Scenario A of the specification: `main` reports the lines 3 and 4 and a
total of 2. -/
theorem main_scenario_A (env : Env) (henv : env.no_failure) (prog path : String) (fuel : Nat)
    (hfuel : 4 < fuel) :
    ∃ w', main env fuel [prog, path] (World.with_file path scenario_A) = some (0, w') ∧
      w'.out = [Msg.blank, Msg.over_length 3, Msg.over_length 4, Msg.total 2] := by
  have hl : (logical_lines scenario_A).length = 4 := by
    rw [length_logical_lines]; decide
  obtain ⟨w', he, ho⟩ := main_spec env henv (World.with_file path scenario_A) prog path
    scenario_A (by simp [World.with_file]) scenario_A_no_nul fuel (by omega)
  refine ⟨w', he, ?_⟩
  rw [ho, over_length_lines_scenario_A]
  rfl

/-- C5 at scenario A: the report that the theorem describes is the lines 3
and 4 and a total of 2. -/
theorem C5_main_reports_over_length_lines_witness :
    (Env.ideal 0 3).no_failure ∧
    (World.with_file "a.txt" scenario_A).fs "a.txt" = some scenario_A ∧
    (∀ b ∈ scenario_A, b ≠ 0) ∧ scenario_A.length < 376 ∧
    ∃ w' : World,
      main (Env.ideal 0 3) 376 ["prog", "a.txt"] (World.with_file "a.txt" scenario_A) =
        some (0, w') ∧
      w'.out = [Msg.blank, Msg.over_length 3, Msg.over_length 4, Msg.total 2] := by
  refine ⟨⟨fun _ => by simp [Env.ideal], fun _ => rfl, fun _ => rfl⟩, by simp [World.with_file],
    scenario_A_no_nul, by decide, ?_⟩
  obtain ⟨Ns, w', he, ho, hp, hmem⟩ := C5_main_reports_over_length_lines (Env.ideal 0 3)
    ⟨fun _ => by simp [Env.ideal], fun _ => rfl, fun _ => rfl⟩
    (World.with_file "a.txt" scenario_A) "prog" "a.txt" scenario_A (by simp [World.with_file])
    scenario_A_no_nul 376 (by decide)
  have hNs : Ns = [3, 4] := by
    have hperm : Ns.Perm [3, 4] := by
      rw [List.perm_ext_iff_of_nodup hp.nodup (by decide)]
      intro N
      rw [hmem N, ← over_length_lines_scenario_A, mem_over_length_lines]
      simp only [Nat.sub_zero]
      constructor
      · rintro ⟨h1, h2⟩; exact ⟨h1, h2⟩
      · rintro ⟨h1, h2⟩; exact ⟨h1, h2⟩
    exact List.eq_of_perm_of_sorted hperm hp (by decide)
  subst hNs
  exact ⟨w', he, by rw [ho]; rfl⟩

/-! ## C6: the end of the input -/

/-- A call at or beyond the end of the file, when no `realloc` and no `read`
fails. -/
theorem get_line_from_file_at_end (env : Env) (hr : ∀ t, env.read_outcome t ≠ .fail)
    (ha : ∀ t, env.alloc_ok t = true) (fd : Int) (hfd0 : 0 ≤ fd) (e : Int) (w : World)
    (f : List Byte) (p : Nat) (hfd : w.fds fd = some ⟨f, p⟩) (hp : f.length ≤ p) :
    ∃ w', get_line_from_file env fd (some e) w = some ⟨none, some NO_ERROR, w'⟩ ∧
      w'.fds = w.fds ∧ w'.out = w.out ∧ w'.fs = w.fs := by
  have hrest : (f.drop p).length = 0 := by simp; omega
  have hin := read_loop_spec env hr fd f p (f.drop p) rfl (0 + BUF_SIZE_INCREMENT - 0)
    ⟨resized env [] (0 + BUF_SIZE_INCREMENT), 0 + BUF_SIZE_INCREMENT, 0, false⟩
    (w.record (.realloc (0 + BUF_SIZE_INCREMENT) true))
    (by simpa [World.record] using hfd) (by simp) (length_resized _ _ _) (by simp)
    (Nat.zero_le _) rfl (le_refl _)
  simp only at hin
  rw [if_pos ⟨hrest, by simp [BUF_SIZE_INCREMENT]⟩] at hin
  obtain ⟨w', he, hf', ho', hs'⟩ := hin
  refine ⟨w', ?_, hf', ho', hs'⟩
  unfold get_line_from_file
  simp only
  have hrem : w.remaining fd = 0 := by simp [World.remaining, hfd]; omega
  rw [if_neg (by omega), hrem, get_line_loop, sys_realloc_ok env w _ _ (ha _)]
  simp only
  rw [he]

/-- C6, as amended: on an open descriptor whose cursor is at `length f`, a
call in which no `realloc` and no `read` fails returns `NULL` with
`*error_num = NO_ERROR` and leaves the cursor at `length f`; and when nothing
fails, a call with the cursor inside the file returns `NULL` only when the
cursor was at `length f`. -/
theorem C6_end_of_input (env : Env) (hr : ∀ t, env.read_outcome t ≠ .fail)
    (ha : ∀ t, env.alloc_ok t = true) (fd : Int) (hfd0 : 0 ≤ fd) (e : Int) (w : World)
    (f : List Byte) (p : Nat) (hfd : w.fds fd = some ⟨f, p⟩) (hp : p ≤ f.length) :
    (p = f.length →
      ∃ r : Ret, get_line_from_file env fd (some e) w = some r ∧ r.line = none ∧
        r.error_num = some NO_ERROR ∧ r.world.fds fd = some ⟨f, f.length⟩) ∧
    ((∀ t, env.seek_ok t = true) →
      ∃ r : Ret, get_line_from_file env fd (some e) w = some r ∧
        (r.line = none → p = f.length)) := by
  constructor
  · intro hpe
    obtain ⟨w', he, hf', _, _⟩ :=
      get_line_from_file_at_end env hr ha fd hfd0 e w f p hfd (by omega)
    refine ⟨_, he, rfl, rfl, ?_⟩
    simp only [hf', hfd, hpe]
  · intro hs
    obtain ⟨w', he, _, _, _⟩ := get_line_from_file_ok env ⟨hr, ha, hs⟩ fd hfd0 e w f p hfd
    refine ⟨_, he, ?_⟩
    simp only
    intro hnone
    by_cases h0 : f.drop p = []
    · have := congrArg List.length h0
      simp at this
      omega
    · rw [if_neg h0] at hnone
      cases hnone

/-- C6, as amended, at the empty file. -/
theorem C6_end_of_input_witness :
    (0 : Int) ≤ 3 ∧ (World.single 3 [] 0).fds 3 = some ⟨[], 0⟩ ∧
    (0 ≤ ([] : List Byte).length) ∧
    ((0 = ([] : List Byte).length →
      ∃ r : Ret, get_line_from_file (Env.ideal 0 3) 3 (some 0) (World.single 3 [] 0) = some r ∧
        r.line = none ∧ r.error_num = some NO_ERROR ∧
        r.world.fds 3 = some ⟨[], ([] : List Byte).length⟩) ∧
    ((∀ t, (Env.ideal 0 3).seek_ok t = true) →
      ∃ r : Ret, get_line_from_file (Env.ideal 0 3) 3 (some 0) (World.single 3 [] 0) = some r ∧
        (r.line = none → 0 = ([] : List Byte).length))) :=
  ⟨by decide, rfl, by decide,
    C6_end_of_input (Env.ideal 0 3) (fun _ => by simp [Env.ideal]) (fun _ => rfl) 3
      (by decide) 0 (World.single 3 [] 0) [] 0 rfl (by decide)⟩

/-- C6 as stated fails when the allocation fails: on the empty file, with an
open descriptor and the cursor at the end, a call in which `realloc` fails
returns `NULL` with `*error_num = NO_MEMORY`, not `NO_ERROR`. -/
theorem C6_counterexample_alloc_failure :
    (World.single 3 [] 0).fds 3 = some ⟨[], ([] : List Byte).length⟩ ∧
    (get_line_from_file ⟨fun _ => .full, fun _ => false, fun _ => true, fun _ => 0, 3⟩ 3
        (some 0) (World.single 3 [] 0)).map (fun r => (r.line, r.error_num)) =
      some (none, some NO_MEMORY) ∧
    NO_MEMORY ≠ NO_ERROR := by
  decide

/-! ## C8: the call after a final unterminated line -/

/-- C8 fails on the code: on the file `ab`, the first `read` delivers the two
bytes and every later `read` fails.  The first call returns the unterminated
line `ab`; the following call, in which the read error persists, returns an
empty line with `*error_num = NO_ERROR` instead of `NULL`. -/
theorem C8_call_after_read_error_returns_empty_line :
    (get_line_from_file Env.read_error_after_first 3 (some 0) (World.single 3 [97, 98] 0)).bind
        (fun r1 =>
          (get_line_from_file Env.read_error_after_first 3 r1.error_num r1.world).map
            (fun r2 => (r1.line, r1.error_num, r2.line, r2.error_num))) =
      some (some [97, 98, 0], some NO_ERROR, some [0], some NO_ERROR) := by
  decide

/-! ## C9: a negative descriptor -/

/-- C9: for every `fd < 0` and a pointer `error_num` that is not `NULL`, the
call returns `NULL` with `*error_num = INVALID_FD = -1`; it performs no
operation on any descriptor (no `read`, no `lseek`: the trace is unchanged)
and leaves the descriptor table, hence every file content and cursor, and the
file system unchanged. -/
theorem C9_negative_descriptor (env : Env) (fd : Int) (hfd : fd < 0) (e : Int) (w : World) :
    ∃ r : Ret, get_line_from_file env fd (some e) w = some r ∧ r.line = none ∧
      r.error_num = some INVALID_FD ∧ INVALID_FD = -1 ∧
      r.world.trace = w.trace ∧ r.world.fds = w.fds ∧ r.world.fs = w.fs := by
  refine ⟨⟨none, some INVALID_FD, w.printf .fd_less_than_zero⟩, ?_, rfl, rfl, rfl, rfl, rfl, rfl⟩
  unfold get_line_from_file
  simp only
  rw [if_pos hfd]

/-- C9 at `fd = -1`. -/
theorem C9_negative_descriptor_witness :
    (-1 : Int) < 0 ∧
    ∃ r : Ret, get_line_from_file (Env.ideal 0 3) (-1) (some 0)
        (World.single 3 [97, 10] 0) = some r ∧ r.line = none ∧
      r.error_num = some INVALID_FD ∧ INVALID_FD = -1 ∧
      r.world.trace = (World.single 3 [97, 10] 0).trace ∧
      r.world.fds = (World.single 3 [97, 10] 0).fds ∧
      r.world.fs = (World.single 3 [97, 10] 0).fs :=
  ⟨by decide, C9_negative_descriptor (Env.ideal 0 3) (-1) (by decide) 0
    (World.single 3 [97, 10] 0)⟩


/-! ## One call in an arbitrary environment -/

/-- A `read` either fails and changes nothing but the trace, or delivers some
of the bytes behind the cursor: at least one when any is asked for and any
remains. -/
theorem sys_read_cases (env : Env) (w : World) (fd : Int) (buf : List Byte) (off count : Nat) :
    sys_read env w fd buf off count =
        (-1, buf, w.record (.read fd buf.length off count (-1))) ∨
    ∃ file n, w.fds fd = some file ∧ n ≤ count ∧ (0 < count → 0 < n) ∧
      sys_read env w fd buf off count =
        ((((file.content.drop file.pos).take n).length : Int),
          write_at buf off ((file.content.drop file.pos).take n),
          (w.set_pos fd file (file.pos + ((file.content.drop file.pos).take n).length)).record
            (.read fd buf.length off count ((file.content.drop file.pos).take n).length)) := by
  unfold sys_read
  cases hfd : w.fds fd with
  | none => left; rfl
  | some file =>
    cases ho : env.read_outcome w.trace.length with
    | fail => left; rfl
    | full => right; exact ⟨file, count, rfl, le_refl _, fun h => h, rfl⟩
    | short k => right; exact ⟨file, min count (k + 1), rfl, by omega, fun h => by omega, rfl⟩

/-- An `lseek` either fails, which the trace records, or succeeds and moves
the cursor. -/
theorem sys_lseek_cases (env : Env) (w : World) (fd : Int) (delta : Int) :
    (sys_lseek env w fd delta).1 < 0 ∧
        (sys_lseek env w fd delta).2 = w.record (.lseek fd delta false) ∨
    ∃ file, w.fds fd = some file ∧ 0 ≤ (sys_lseek env w fd delta).1 ∧
      (sys_lseek env w fd delta).2 =
        (w.set_pos fd file ((file.pos : Int) + delta).toNat).record (.lseek fd delta true) := by
  unfold sys_lseek
  cases hfd : w.fds fd with
  | none => left; exact ⟨by simp, rfl⟩
  | some file =>
    simp only
    by_cases hc : env.seek_ok w.trace.length = true ∧ 0 ≤ (file.pos : Int) + delta
    · rw [if_pos hc]
      right
      exact ⟨file, rfl, hc.2, rfl⟩
    · rw [if_neg hc]
      left
      exact ⟨by simp, rfl⟩

theorem failed_lseeks_record (w : World) (e : Event) :
    (w.record e).failed_lseeks = w.failed_lseeks + (if e.failed_lseek then 1 else 0) := by
  simp only [World.failed_lseeks, World.record, List.countP_cons]

theorem remaining_set_pos (w : World) (fd : Int) (file : OpenFile) (pos : Nat) :
    (w.set_pos fd file pos).remaining fd = file.content.length - pos := by
  simp [World.remaining, World.set_pos]


/-- The inner loop in an arbitrary environment: with fuel for
`curr_buf_size - curr_data_len` passes it ends; the buffer keeps its capacity,
the data stay inside it and come from the file, and the flag is set exactly
when the buffer is not full. -/
theorem read_loop_total (env : Env) (fd : Int) (P : Byte → Prop) :
    ∀ (fuel : Nat) (s : Locals) (w : World),
      s.buf.length = s.curr_buf_size → s.curr_data_len ≤ s.curr_buf_size →
      s.end_of_file_reached_or_error = false →
      (∀ b ∈ s.buf.take s.curr_data_len, P b) →
      (∀ file, w.fds fd = some file → ∀ b ∈ file.content, P b) →
      s.curr_buf_size - s.curr_data_len ≤ fuel →
      ∃ x w', read_loop env fd fuel s w = some (x, w') ∧
        w'.failed_lseeks = w.failed_lseeks ∧ w'.out = w.out ∧ w'.fs = w.fs ∧
        (∀ file, w'.fds fd = some file → ∀ b ∈ file.content, P b) ∧
        ∀ s', x = some s' →
          s'.curr_buf_size = s.curr_buf_size ∧ s'.buf.length = s.curr_buf_size ∧
          s.curr_data_len ≤ s'.curr_data_len ∧ s'.curr_data_len ≤ s.curr_buf_size ∧
          (s'.end_of_file_reached_or_error = false → s'.curr_data_len = s.curr_buf_size) ∧
          (s'.end_of_file_reached_or_error = true → s'.curr_data_len < s.curr_buf_size) ∧
          (∀ b ∈ s'.buf.take s'.curr_data_len, P b) ∧
          w'.remaining fd + (s'.curr_data_len - s.curr_data_len) ≤ w.remaining fd := by
  intro fuel
  induction fuel with
  | zero =>
    intro s w hlen hle hflag hdata hworld hfuel
    have hfull : s.curr_data_len = s.curr_buf_size := by omega
    rw [read_loop, if_pos hfull]
    refine ⟨some s, w, rfl, rfl, rfl, rfl, hworld, ?_⟩
    intro s' hs'
    cases hs'
    refine ⟨rfl, hlen, le_refl _, hle, fun _ => hfull, ?_, hdata, by omega⟩
    intro h; rw [hflag] at h; cases h
  | succ fuel ih =>
    intro s w hlen hle hflag hdata hworld hfuel
    rw [read_loop]
    by_cases hfull : s.curr_data_len = s.curr_buf_size
    · rw [if_pos hfull]
      refine ⟨some s, w, rfl, rfl, rfl, rfl, hworld, ?_⟩
      intro s' hs'
      cases hs'
      refine ⟨rfl, hlen, le_refl _, hle, fun _ => hfull, ?_, hdata, by omega⟩
      intro h; rw [hflag] at h; cases h
    · rw [if_neg hfull]
      simp only
      rcases sys_read_cases env w fd s.buf s.curr_data_len
        (s.curr_buf_size - s.curr_data_len) with hfail | ⟨file, n, hfd, hn, hn0, hread⟩
      · -- the read fails
        rw [hfail]
        simp only
        rw [if_neg (by omega), if_pos (by omega)]
        refine ⟨_, _, rfl, ?_, rfl, rfl, hworld, ?_⟩
        · simp [failed_lseeks_record, Event.failed_lseek]
        · intro s' hs'
          cases hs'
          refine ⟨rfl, hlen, le_refl _, hle, ?_, fun _ => by simp only; omega, hdata, ?_⟩
          · intro h; cases h
          · simp [World.remaining, World.record]
      · rw [hread]
        simp only
        have hbP : ∀ b ∈ (file.content.drop file.pos).take n, P b := fun b hb =>
          hworld file hfd b (List.mem_of_mem_drop (List.mem_of_mem_take hb))
        have hk : ((file.content.drop file.pos).take n).length =
            min n (file.content.length - file.pos) := by simp
        have hrem : w.remaining fd = file.content.length - file.pos := by
          simp [World.remaining, hfd]
        generalize (file.content.drop file.pos).take n = bytes at hbP hk ⊢
        have hworld1 : ∀ file',
            ((w.set_pos fd file (file.pos + bytes.length)).record
              (.read fd s.buf.length s.curr_data_len (s.curr_buf_size - s.curr_data_len)
                bytes.length)).fds fd = some file' → ∀ b ∈ file'.content, P b := by
          intro file' hf'
          simp only [World.record, World.set_pos, Function.update_same, Option.some.injEq]
            at hf'
          subst hf'
          exact hworld file hfd
        by_cases hz : bytes.length = 0
        · have hbn : bytes = [] := List.length_eq_zero.mp hz
          subst hbn
          by_cases hl0 : s.curr_data_len = 0
          · rw [if_pos ⟨by simp, hl0⟩]
            refine ⟨none, _, rfl, ?_, rfl, rfl, ?_, ?_⟩
            · simp [sys_free, World.record, Event.failed_lseek, World.failed_lseeks,
                World.set_pos]
            · intro file' hf'
              exact hworld1 file' (by simpa [sys_free, World.record] using hf')
            · intro s' hs'; cases hs'
          · rw [if_neg (by simp [hl0]), if_pos (by simp)]
            refine ⟨_, _, rfl, ?_, rfl, rfl, hworld1, ?_⟩
            · simp [World.record, Event.failed_lseek, World.failed_lseeks, World.set_pos]
            · intro s' hs'
              cases hs'
              refine ⟨rfl, ?_, le_refl _, hle, ?_, fun _ => by simp only; omega, ?_, ?_⟩
              · simp only [write_at_nil]; exact hlen
              · intro h; cases h
              · simp only [write_at_nil]; exact hdata
              · simp [World.remaining, World.record, World.set_pos, hfd]
        · rw [if_neg (by omega), if_neg (by omega)]
          have hkc : bytes.length ≤ s.curr_buf_size - s.curr_data_len := by omega
          obtain ⟨x, w', he, hfl, ho, hfs, hw', hs'⟩ := ih
            { s with buf := write_at s.buf s.curr_data_len bytes,
                     curr_data_len := s.curr_data_len + (bytes.length : Int).toNat }
            ((w.set_pos fd file (file.pos + bytes.length)).record
              (.read fd s.buf.length s.curr_data_len (s.curr_buf_size - s.curr_data_len)
                bytes.length))
            (by simp only; rw [length_write_at _ _ _ (by omega)]; exact hlen)
            (by simp only [Int.toNat_ofNat]; omega)
            hflag
            (by
              simp only [Int.toNat_ofNat]
              rw [take_write_at _ _ _ (by omega)]
              intro b hb
              rcases List.mem_append.mp hb with h | h
              · exact hdata b h
              · exact hbP b h)
            hworld1
            (by simp only [Int.toNat_ofNat]; omega)
          refine ⟨x, w', he, ?_, ?_, ?_, hw', ?_⟩
          · rw [hfl]
            simp [World.record, Event.failed_lseek, World.failed_lseeks, World.set_pos]
          · rw [ho]; rfl
          · rw [hfs]; rfl
          · intro s' hx
            obtain ⟨h1, h2, h3, h4, h5, h6, h7, h8⟩ := hs' s' hx
            simp only [Int.toNat_ofNat] at h1 h2 h3 h4 h5 h6 h8
            refine ⟨h1, h2, by omega, h4, h5, h6, h7, ?_⟩
            have hr1 : ((w.set_pos fd file (file.pos + bytes.length)).record
                (.read fd s.buf.length s.curr_data_len (s.curr_buf_size - s.curr_data_len)
                  bytes.length)).remaining fd =
                file.content.length - (file.pos + bytes.length) := by
              simp [World.remaining, World.record, World.set_pos]
            rw [hr1] at h8
            rw [hrem]
            omega


theorem find_new_line_lt (buf : List Byte) (n i : Nat) (h : find_new_line buf n 0 = some i) :
    i < n ∧ i < buf.length := by
  rw [find_new_line_eq, List.drop_zero] at h
  split at h
  · next hlt =>
    simp only [Nat.zero_add, Option.some.injEq] at h
    subst h
    rw [List.length_take] at hlt
    omega
  · cases h

/-- The outer loop in an arbitrary environment: with more fuel than bytes
remain behind the cursor it returns, and what it returns is one of: `NULL`
with `NO_MEMORY` or `NO_ERROR` and no failed `lseek`; `NULL` with
`FILE_LSEEK_ERROR` after one failed `lseek`; a buffer `bytes ++ [0]` with
`NO_ERROR` and no failed `lseek`, where `bytes` come from the file. -/
theorem get_line_loop_total (env : Env) (fd : Int) (P : Byte → Prop) :
    ∀ (fuel : Nat) (buf : List Byte) (c : Nat) (w : World),
      buf.length = c → (∀ b ∈ buf.take c, P b) →
      (∀ file, w.fds fd = some file → ∀ b ∈ file.content, P b) →
      w.remaining fd < fuel →
      ∃ ret err w', get_line_loop env fd fuel ⟨buf, c, c, false⟩ w = some (ret, err, w') ∧
        w'.out = w.out ∧ w'.fs = w.fs ∧
        ((ret = none ∧ (err = NO_MEMORY ∨ err = NO_ERROR) ∧
            w'.failed_lseeks = w.failed_lseeks) ∨
          (ret = none ∧ err = FILE_LSEEK_ERROR ∧ w'.failed_lseeks = w.failed_lseeks + 1) ∨
          (∃ bytes, ret = some (bytes ++ [0]) ∧ err = NO_ERROR ∧ (∀ b ∈ bytes, P b) ∧
            w'.failed_lseeks = w.failed_lseeks)) := by
  intro fuel
  induction fuel with
  | zero => intro buf c w _ _ _ h; omega
  | succ fuel ih =>
    intro buf c w hlen hdata hworld hfuel
    rw [get_line_loop]
    by_cases hal : env.alloc_ok w.trace.length = true
    swap
    · -- the buffer cannot grow
      have hre : sys_realloc env w buf (c + BUF_SIZE_INCREMENT) =
          (none, w.record (.realloc (c + BUF_SIZE_INCREMENT) false)) := by
        simp [sys_realloc, hal]
      rw [hre]
      refine ⟨_, _, _, rfl, rfl, rfl, Or.inl ⟨rfl, Or.inl rfl, ?_⟩⟩
      simp [sys_free, World.record, World.failed_lseeks, Event.failed_lseek]
    rw [sys_realloc_ok env w _ _ hal]
    simp only
    obtain ⟨x, w2, he, hfl2, ho2, hfs2, hw2, hs2⟩ := read_loop_total env fd P
      (c + BUF_SIZE_INCREMENT - c)
      ⟨resized env buf (c + BUF_SIZE_INCREMENT), c + BUF_SIZE_INCREMENT, c, false⟩
      (w.record (.realloc (c + BUF_SIZE_INCREMENT) true))
      (length_resized _ _ _) (by simp) rfl
      (by
        simp only
        rw [take_resized _ _ _ _ (by omega) (by omega)]
        exact hdata)
      hworld (le_refl _)
    rw [he]
    replace ho2 : w2.out = w.out := ho2
    replace hfs2 : w2.fs = w.fs := hfs2
    have hfl1 : (w.record (.realloc (c + BUF_SIZE_INCREMENT) true)).failed_lseeks =
        w.failed_lseeks := by
      simp [World.record, World.failed_lseeks, Event.failed_lseek]
    rw [hfl1] at hfl2
    cases x with
    | none =>
      exact ⟨_, _, _, rfl, ho2, hfs2, Or.inl ⟨rfl, Or.inr rfl, hfl2⟩⟩
    | some s2 =>
      obtain ⟨h1, h2, h3, h4, h5, h6, h7, h8⟩ := hs2 s2 rfl
      obtain ⟨buf2, cap2, len2, flag2⟩ := s2
      simp only at h1 h2 h3 h4 h5 h6 h7 h8 ⊢
      subst h1
      cases hfind : find_new_line buf2 len2 0 with
      | some i =>
        obtain ⟨hi1, hi2⟩ := find_new_line_lt buf2 len2 i hfind
        simp only
        by_cases hal2 : env.alloc_ok
            ((w2.record (.scan buf2.length len2)).record (.store buf2.length i)).trace.length
            = true
        swap
        · have hre : sys_realloc env
              ((w2.record (.scan buf2.length len2)).record (.store buf2.length i))
              (buf2.set i 0) (i + 1) =
              (none, ((w2.record (.scan buf2.length len2)).record
                (.store buf2.length i)).record (.realloc (i + 1) false)) := by
            simp [sys_realloc, hal2]
          rw [hre]
          refine ⟨_, _, _, rfl, ho2, hfs2, Or.inl ⟨rfl, Or.inl rfl, ?_⟩⟩
          rw [← hfl2]
          simp [sys_free, World.record, World.failed_lseeks, Event.failed_lseek]
        rw [sys_realloc_ok env _ _ _ hal2]
        simp only
        have hbuf : resized env (buf2.set i 0) (i + 1) = buf2.take i ++ [0] := by
          rw [resized_of_le _ _ _ (by simp; omega), take_set_succ _ _ _ hi2]
        rw [hbuf]
        generalize hw5 : (((w2.record (.scan buf2.length len2)).record
          (.store buf2.length i)).record (.realloc (i + 1) true)) = w5
        have hfl5 : w5.failed_lseeks = w.failed_lseeks := by
          rw [← hw5, ← hfl2]
          simp [World.record, World.failed_lseeks, Event.failed_lseek]
        have ho5 : w5.out = w.out := by rw [← hw5, ← ho2]; rfl
        have hfs5 : w5.fs = w.fs := by rw [← hw5, ← hfs2]; rfl
        rcases sys_lseek_cases env w5 fd (((i : Int) + 1) - (len2 : Int)) with
          ⟨hneg, hw6⟩ | ⟨file, _, hpos, hw6⟩
        · -- the cursor cannot be moved back
          rcases hsk : sys_lseek env w5 fd (((i : Int) + 1) - (len2 : Int)) with ⟨r, w6⟩
          rw [hsk] at hneg hw6
          simp only at hneg hw6 ⊢
          rw [if_pos hneg]
          subst hw6
          refine ⟨_, _, _, rfl, ho5, hfs5, Or.inr (Or.inl ⟨rfl, rfl, ?_⟩)⟩
          rw [← hfl5]
          simp [sys_free, World.record, World.failed_lseeks, Event.failed_lseek]
        · rcases hsk : sys_lseek env w5 fd (((i : Int) + 1) - (len2 : Int)) with ⟨r, w6⟩
          rw [hsk] at hpos hw6
          simp only at hpos hw6 ⊢
          rw [if_neg (by omega)]
          subst hw6
          refine ⟨_, _, _, rfl, ho5, hfs5, Or.inr (Or.inr ⟨buf2.take i, rfl, rfl, ?_, ?_⟩)⟩
          · intro b hb
            apply h7 b
            have : buf2.take i = (buf2.take len2).take i := by
              rw [List.take_take, Nat.min_eq_left (by omega)]
            rw [this] at hb
            exact List.mem_of_mem_take hb
          · rw [← hfl5]
            simp [World.record, World.set_pos, World.failed_lseeks, Event.failed_lseek]
      | none =>
        simp only
        cases flag2 with
        | true =>
          have hlt : len2 < buf2.length := by rw [h2]; exact h6 rfl
          simp only [if_true]
          by_cases hal2 : env.alloc_ok (w2.record (.scan buf2.length len2)).trace.length = true
          swap
          · have hre : sys_realloc env (w2.record (.scan buf2.length len2)) buf2 (len2 + 1) =
                (none, (w2.record (.scan buf2.length len2)).record
                  (.realloc (len2 + 1) false)) := by
              simp [sys_realloc, hal2]
            rw [hre]
            refine ⟨_, _, _, rfl, ho2, hfs2, Or.inl ⟨rfl, Or.inl rfl, ?_⟩⟩
            rw [← hfl2]
            simp [sys_free, World.record, World.failed_lseeks, Event.failed_lseek]
          rw [sys_realloc_ok env _ _ _ hal2]
          simp only
          have hbuf : (resized env buf2 (len2 + 1)).set len2 0 = buf2.take len2 ++ [0] := by
            rw [resized_of_le _ _ _ (by omega), ← List.set_take, take_set_succ _ _ _ hlt]
          rw [hbuf]
          refine ⟨_, _, _, rfl, ho2, hfs2, Or.inr (Or.inr ⟨buf2.take len2, rfl, rfl, h7, ?_⟩)⟩
          rw [← hfl2]
          simp [World.record, World.failed_lseeks, Event.failed_lseek]
        | false =>
          have hfull : len2 = c + BUF_SIZE_INCREMENT := h5 rfl
          subst hfull
          simp only [Bool.false_eq_true, if_false]
          have hrem : (w2.record (.scan buf2.length (c + BUF_SIZE_INCREMENT))).remaining fd <
              fuel := by
            have : (w2.record (.scan buf2.length (c + BUF_SIZE_INCREMENT))).remaining fd =
                w2.remaining fd := rfl
            rw [this]
            have hw1 : (w.record (.realloc (c + BUF_SIZE_INCREMENT) true)).remaining fd =
                w.remaining fd := rfl
            rw [hw1] at h8
            simp only [BUF_SIZE_INCREMENT] at h8 ⊢
            omega
          obtain ⟨ret, err, w', he', ho', hfs', hcase⟩ := ih buf2 (c + BUF_SIZE_INCREMENT)
            (w2.record (.scan buf2.length (c + BUF_SIZE_INCREMENT))) h2 h7
            (fun file hf => hw2 file hf) hrem
          have hfl3 : (w2.record (.scan buf2.length (c + BUF_SIZE_INCREMENT))).failed_lseeks =
              w.failed_lseeks := by
            rw [← hfl2]
            simp [World.record, World.failed_lseeks, Event.failed_lseek]
          rw [hfl3] at hcase
          exact ⟨ret, err, w', he', by rw [ho', ← ho2]; rfl, by rw [hfs', ← hfs2]; rfl, hcase⟩


/-- Every call with a pointer `error_num` that is not `NULL` returns, in every
environment, and what it returns is one of: `NULL` with `INVALID_FD`,
`NO_MEMORY` or `NO_ERROR` and no failed `lseek`; `NULL` with
`FILE_LSEEK_ERROR` after one failed `lseek`; a buffer `bytes ++ [0]` with
`NO_ERROR` and no failed `lseek`, where `bytes` come from the file. -/
theorem get_line_from_file_total (env : Env) (fd : Int) (P : Byte → Prop) (e : Int)
    (w : World) (hworld : ∀ file, w.fds fd = some file → ∀ b ∈ file.content, P b) :
    ∃ r : Ret, get_line_from_file env fd (some e) w = some r ∧ r.world.fs = w.fs ∧
      ((r.line = none ∧
          (r.error_num = some INVALID_FD ∨ r.error_num = some NO_MEMORY ∨
            r.error_num = some NO_ERROR) ∧
          r.world.failed_lseeks = w.failed_lseeks) ∨
        (r.line = none ∧ r.error_num = some FILE_LSEEK_ERROR ∧
          r.world.failed_lseeks = w.failed_lseeks + 1) ∨
        (∃ bytes, r.line = some (bytes ++ [0]) ∧ r.error_num = some NO_ERROR ∧
          (∀ b ∈ bytes, P b) ∧ r.world.failed_lseeks = w.failed_lseeks)) := by
  unfold get_line_from_file
  simp only
  by_cases hfd : fd < 0
  · rw [if_pos hfd]
    exact ⟨_, rfl, rfl, Or.inl ⟨rfl, Or.inl rfl, rfl⟩⟩
  · rw [if_neg hfd]
    obtain ⟨ret, err, w', he, _, hfs, hcase⟩ := get_line_loop_total env fd P
      (w.remaining fd + 1) [] 0 w rfl (by simp) hworld (Nat.lt_succ_self _)
    rw [he]
    refine ⟨_, rfl, hfs, ?_⟩
    rcases hcase with ⟨h1, h2 | h2, h3⟩ | ⟨h1, h2, h3⟩ | ⟨bytes, h1, h2, h3, h4⟩
    · exact Or.inl ⟨h1, Or.inr (Or.inl (by rw [h2])), h3⟩
    · exact Or.inl ⟨h1, Or.inr (Or.inr (by rw [h2])), h3⟩
    · exact Or.inr (Or.inl ⟨h1, by rw [h2], h3⟩)
    · exact Or.inr (Or.inr ⟨bytes, h1, by rw [h2], h3, h4⟩)

/-! ## C7: no 0 byte before the sentinel -/

/-- The inner loop in an arbitrary environment, on an open descriptor: the
data in the buffer stay a copy of the bytes of the file from the cursor of the
start of the call on, and the cursor stays right behind them. -/
theorem read_loop_prefix (env : Env) (fd : Int) (f : List Byte) (p0 : Nat) (rest : List Byte)
    (hrs : f.drop p0 = rest) :
    ∀ (fuel : Nat) (s : Locals) (w : World) (s' : Locals) (w' : World),
      w.fds fd = some ⟨f, p0 + s.curr_data_len⟩ →
      s.curr_data_len ≤ s.curr_buf_size → s.buf.length = s.curr_buf_size →
      s.buf.take s.curr_data_len = rest.take s.curr_data_len →
      s.curr_data_len ≤ rest.length →
      read_loop env fd fuel s w = some (some s', w') →
      s'.buf.take s'.curr_data_len = rest.take s'.curr_data_len ∧
        s'.curr_data_len ≤ rest.length ∧ w'.fds fd = some ⟨f, p0 + s'.curr_data_len⟩ := by
  intro fuel
  induction fuel with
  | zero =>
    intro s w s' w' hfd hle hlen htake hrest h
    rw [read_loop] at h
    split at h
    · simp only [Option.some.injEq, Prod.mk.injEq] at h
      obtain ⟨h1, h2⟩ := h
      subst h1 h2
      exact ⟨htake, hrest, hfd⟩
    · cases h
  | succ fuel ih =>
    intro s w s' w' hfd hle hlen htake hrest h
    rw [read_loop] at h
    by_cases hfull : s.curr_data_len = s.curr_buf_size
    · rw [if_pos hfull] at h
      simp only [Option.some.injEq, Prod.mk.injEq] at h
      obtain ⟨h1, h2⟩ := h
      subst h1 h2
      exact ⟨htake, hrest, hfd⟩
    · rw [if_neg hfull] at h
      simp only at h
      rcases sys_read_cases env w fd s.buf s.curr_data_len
        (s.curr_buf_size - s.curr_data_len) with hfail | ⟨file, n, hfd', hn, hn0, hread⟩
      · rw [hfail] at h
        simp only at h
        rw [if_neg (by omega), if_pos (by omega)] at h
        simp only [Option.some.injEq, Prod.mk.injEq] at h
        obtain ⟨h1, h2⟩ := h
        subst h1 h2
        exact ⟨htake, hrest, hfd⟩
      · rw [hfd] at hfd'
        cases hfd'
        rw [hread] at h
        simp only at h
        have hdd : f.drop (p0 + s.curr_data_len) = rest.drop s.curr_data_len := by
          rw [← hrs, List.drop_drop]
        rw [hdd] at h
        have hbt : ∀ bytes, bytes = (rest.drop s.curr_data_len).take n →
            bytes.length ≤ rest.length - s.curr_data_len ∧ bytes.length ≤ n ∧
            rest.take s.curr_data_len ++ bytes = rest.take (s.curr_data_len + bytes.length) := by
          intro bytes hb
          subst hb
          refine ⟨by simp, by simp, ?_⟩
          rw [List.take_add, take_length_take]
        generalize (rest.drop s.curr_data_len).take n = bytes at hbt h
        obtain ⟨hk, hkn, hcat⟩ := hbt bytes rfl
        by_cases hz : bytes.length = 0
        · have hbn : bytes = [] := List.length_eq_zero.mp hz
          subst hbn
          by_cases hl0 : s.curr_data_len = 0
          · rw [if_pos ⟨by simp, hl0⟩] at h
            cases h
          · rw [if_neg (by simp [hl0]), if_pos (by simp)] at h
            simp only [Option.some.injEq, Prod.mk.injEq] at h
            obtain ⟨h1, h2⟩ := h
            subst h1 h2
            simp only [write_at_nil]
            refine ⟨htake, hrest, ?_⟩
            simp [World.record, World.set_pos]
        · rw [if_neg (by omega), if_neg (by omega)] at h
          have := ih _ _ _ _ ?_ ?_ ?_ ?_ ?_ h
          · exact this
          · simp only [Int.toNat_ofNat, World.record, World.set_pos, Function.update_same]
            congr 2; omega
          · simp only [Int.toNat_ofNat]; omega
          · simp only; rw [length_write_at _ _ _ (by omega)]; exact hlen
          · simp only [Int.toNat_ofNat]
            rw [take_write_at _ _ _ (by omega), htake, hcat]
          · simp only [Int.toNat_ofNat]; omega

theorem take_prefix_take (l : List Byte) (m n : Nat) (h : m ≤ n) : l.take m <+: l.take n := by
  have : l.take m = (l.take n).take m := by rw [List.take_take, Nat.min_eq_left h]
  rw [this]
  exact List.take_prefix _ _

/-- The outer loop in an arbitrary environment, on an open descriptor: the
bytes of a returned buffer before its sentinel are a copy of the bytes of the
file from the cursor on, which ends at the latest before the first newline. -/
theorem get_line_loop_prefix (env : Env) (fd : Int) (f : List Byte) (p0 : Nat)
    (rest : List Byte) (hrs : f.drop p0 = rest) :
    ∀ (fuel : Nat) (buf : List Byte) (c : Nat) (w : World) (line : List Byte) (err : Int)
      (w' : World),
      w.fds fd = some ⟨f, p0 + c⟩ → buf.length = c → buf.take c = rest.take c →
      c ≤ rest.length → c ≤ line_end rest →
      get_line_loop env fd fuel ⟨buf, c, c, false⟩ w = some (some line, err, w') →
      ∃ bytes, line = bytes ++ [0] ∧ bytes <+: rest.take (line_end rest) := by
  intro fuel
  induction fuel with
  | zero => intro buf c w line err w' _ _ _ _ _ h; cases h
  | succ fuel ih =>
    intro buf c w line err w' hfd hlen htake hc hcl h
    rw [get_line_loop] at h
    by_cases hal : env.alloc_ok w.trace.length = true
    swap
    · have hre : sys_realloc env w buf (c + BUF_SIZE_INCREMENT) =
          (none, w.record (.realloc (c + BUF_SIZE_INCREMENT) false)) := by
        simp [sys_realloc, hal]
      rw [hre] at h
      cases h
    rw [sys_realloc_ok env w _ _ hal] at h
    simp only at h
    obtain ⟨x, w2, he, _, _, _, _, hs2⟩ := read_loop_total env fd (fun _ => True)
      (c + BUF_SIZE_INCREMENT - c)
      ⟨resized env buf (c + BUF_SIZE_INCREMENT), c + BUF_SIZE_INCREMENT, c, false⟩
      (w.record (.realloc (c + BUF_SIZE_INCREMENT) true))
      (length_resized _ _ _) (by simp) rfl (fun _ _ => trivial) (fun _ _ _ _ => trivial)
      (le_refl _)
    rw [he] at h
    cases x with
    | none => cases h
    | some s2 =>
      obtain ⟨h1, h2, h3, h4, h5, h6, _, _⟩ := hs2 s2 rfl
      obtain ⟨ht2, hm2, hfd2⟩ := read_loop_prefix env fd f p0 rest hrs _ _ _ _ _
        (by simpa [World.record] using hfd) (by simp) (length_resized _ _ _)
        (by
          simp only
          rw [take_resized _ _ _ _ (by omega) (by omega), htake])
        hc he
      obtain ⟨buf2, cap2, len2, flag2⟩ := s2
      simp only at h1 h2 h3 h4 h5 h6 ht2 hm2 hfd2 h
      subst h1
      rw [find_new_line_of_take buf2 rest len2 hm2 ht2] at h
      by_cases hfound : line_end rest < len2
      · rw [if_pos hfound] at h
        simp only at h
        by_cases hal2 : env.alloc_ok
            ((w2.record (.scan buf2.length len2)).record
              (.store buf2.length (line_end rest))).trace.length = true
        swap
        · have hre : sys_realloc env
              ((w2.record (.scan buf2.length len2)).record (.store buf2.length (line_end rest)))
              (buf2.set (line_end rest) 0) (line_end rest + 1) =
              (none, ((w2.record (.scan buf2.length len2)).record
                (.store buf2.length (line_end rest))).record
                  (.realloc (line_end rest + 1) false)) := by
            simp [sys_realloc, hal2]
          rw [hre] at h
          cases h
        rw [sys_realloc_ok env _ _ _ hal2] at h
        simp only at h
        have hbuf : resized env (buf2.set (line_end rest) 0) (line_end rest + 1) =
            rest.take (line_end rest) ++ [0] := by
          rw [resized_of_le _ _ _ (by simp; omega), take_set_succ _ _ _ (by omega)]
          congr 1
          have := congrArg (List.take (line_end rest)) ht2
          rw [List.take_take, List.take_take, Nat.min_eq_left (by omega)] at this
          exact this
        rw [hbuf] at h
        split at h
        · cases h
        · simp only [Option.some.injEq, Prod.mk.injEq] at h
          exact ⟨_, h.1.symm, List.prefix_refl _⟩
      · rw [if_neg hfound] at h
        simp only at h
        cases flag2 with
        | true =>
          have hlt : len2 < buf2.length := by rw [h2]; exact h6 rfl
          simp only [if_true] at h
          by_cases hal2 : env.alloc_ok (w2.record (.scan buf2.length len2)).trace.length = true
          swap
          · have hre : sys_realloc env (w2.record (.scan buf2.length len2)) buf2 (len2 + 1) =
                (none, (w2.record (.scan buf2.length len2)).record
                  (.realloc (len2 + 1) false)) := by
              simp [sys_realloc, hal2]
            rw [hre] at h
            cases h
          rw [sys_realloc_ok env _ _ _ hal2] at h
          simp only at h
          have hbuf : (resized env buf2 (len2 + 1)).set len2 0 = rest.take len2 ++ [0] := by
            rw [resized_of_le _ _ _ (by omega), ← List.set_take, take_set_succ _ _ _ hlt, ht2]
          rw [hbuf] at h
          simp only [Option.some.injEq, Prod.mk.injEq] at h
          exact ⟨_, h.1.symm, take_prefix_take _ _ _ (by omega)⟩
        | false =>
          have hfull : len2 = c + BUF_SIZE_INCREMENT := h5 rfl
          subst hfull
          simp only [Bool.false_eq_true, if_false] at h
          exact ih buf2 (c + BUF_SIZE_INCREMENT)
            (w2.record (.scan buf2.length (c + BUF_SIZE_INCREMENT))) line err w'
            (by simpa [World.record] using hfd2) h2 ht2 hm2 (by omega) h

/-- C7, as amended: in every environment, a buffer that a call of
`get_line_from_file` returns is `bytes ++ [0]`, where `bytes` is a copy of the
bytes of the file from the cursor on that ends at the latest before the first
newline (and is empty when the descriptor is not open).  So a byte before the
sentinel is 0 only where the file holds a 0 byte at that place, none of them
is 0 when the line of the file at the cursor holds no 0 byte, and when nothing
fails `bytes` is that whole line. -/
theorem C7_no_nul_before_sentinel (env : Env) (fd : Int) (e : Int) (w : World)
    (buf : List Byte)
    (hline : (get_line_from_file env fd (some e) w).bind (fun r => r.line) = some buf) :
    ∃ bytes, buf = bytes ++ [0] ∧ (w.fds fd = none → bytes = []) ∧
      ∀ f p, w.fds fd = some ⟨f, p⟩ →
        bytes <+: (f.drop p).take (line_end (f.drop p)) ∧
        (∀ j, bytes[j]? = some 0 → f[p + j]? = some 0) ∧
        ((∀ b ∈ (f.drop p).take (line_end (f.drop p)), b ≠ 0) → ∀ b ∈ bytes, b ≠ 0) ∧
        (env.no_failure → bytes = (f.drop p).take (line_end (f.drop p))) := by
  obtain ⟨r, he, _, hcase⟩ := get_line_from_file_total env fd (fun _ => w.fds fd ≠ none) e w
    (by intro file hf _ _; rw [hf]; simp)
  rw [he] at hline
  simp only [Option.some_bind] at hline
  have hb : ∃ bytes, r.line = some (bytes ++ [0]) ∧ ∀ b ∈ bytes, w.fds fd ≠ none := by
    rcases hcase with ⟨h1, _⟩ | ⟨h1, _⟩ | ⟨bytes, h1, _, h3, _⟩
    · rw [h1] at hline; cases hline
    · rw [h1] at hline; cases hline
    · exact ⟨bytes, h1, h3⟩
  obtain ⟨bytes, hr, hopen⟩ := hb
  rw [hr] at hline
  have hbuf : buf = bytes ++ [0] := (Option.some.inj hline).symm
  refine ⟨bytes, hbuf, ?_, ?_⟩
  · intro hnone
    rw [List.eq_nil_iff_forall_not_mem]
    intro b hb
    exact hopen b hb hnone
  · intro f p hfd
    have hfd0 : ¬ fd < 0 := by
      intro hneg
      unfold get_line_from_file at he
      simp only at he
      rw [if_pos hneg] at he
      cases he
      cases hr
    have hpre : bytes <+: (f.drop p).take (line_end (f.drop p)) := by
      unfold get_line_from_file at he
      simp only at he
      rw [if_neg hfd0] at he
      cases hg : get_line_loop env fd (w.remaining fd + 1) ⟨[], 0, 0, false⟩ w with
      | none => rw [hg] at he; cases he
      | some res =>
        obtain ⟨line, err, w1⟩ := res
        rw [hg] at he
        cases he
        simp only at hr
        subst hr
        obtain ⟨bytes', h1, h2⟩ := get_line_loop_prefix env fd f p (f.drop p) rfl
          (w.remaining fd + 1) [] 0 w (bytes ++ [0]) err w1 (by simpa using hfd) rfl rfl
          (Nat.zero_le _) (Nat.zero_le _) hg
        rw [List.append_cancel_right h1]
        exact h2
    obtain ⟨t, ht⟩ := hpre
    refine ⟨⟨t, ht⟩, ?_, ?_, ?_⟩
    · intro j hj
      have hjl : j < bytes.length := by
        by_contra hc
        rw [List.getElem?_eq_none (by omega)] at hj
        cases hj
      have h1 : (bytes ++ t)[j]? = some 0 := by
        rw [List.getElem?_append_left hjl]; exact hj
      rw [ht, List.getElem?_take] at h1
      split at h1
      · rw [List.getElem?_drop] at h1
        exact h1
      · cases h1
    · intro hno b hb
      apply hno b
      rw [← ht]
      exact List.mem_append_left _ hb
    · intro henv
      obtain ⟨w', he', _⟩ := get_line_from_file_ok env henv fd (by omega) e w f p hfd
      rw [he] at he'
      cases he'
      simp only at hr
      split at hr
      · cases hr
      · exact (List.append_cancel_right (Option.some.inj hr)).symm

/-- C7, as amended, at the file `a\n\0\n`, which holds a 0 byte after the
first line: the call at cursor 0 returns the buffer `a\0`. -/
theorem C7_no_nul_before_sentinel_witness :
    (get_line_from_file (Env.ideal 0 3) 3 (some 0) (World.single 3 [97, 10, 0, 10] 0)).bind
      (fun r => r.line) = some [97, 0] ∧
    ∃ bytes, ([97, 0] : List Byte) = bytes ++ [0] ∧
      ((World.single 3 [97, 10, 0, 10] 0).fds 3 = none → bytes = []) ∧
      ∀ f p, (World.single 3 [97, 10, 0, 10] 0).fds 3 = some ⟨f, p⟩ →
        bytes <+: (f.drop p).take (line_end (f.drop p)) ∧
        (∀ j, bytes[j]? = some 0 → f[p + j]? = some 0) ∧
        ((∀ b ∈ (f.drop p).take (line_end (f.drop p)), b ≠ 0) → ∀ b ∈ bytes, b ≠ 0) ∧
        ((Env.ideal 0 3).no_failure → bytes = (f.drop p).take (line_end (f.drop p))) :=
  ⟨by decide,
    C7_no_nul_before_sentinel (Env.ideal 0 3) 3 0 (World.single 3 [97, 10, 0, 10] 0) [97, 0]
      (by decide)⟩

/-- C7 as stated fails on a file with a 0 byte: from the file `\0\n` the call
returns the buffer `[0, 0]`, whose byte before the final sentinel is 0. -/
theorem C7_counterexample_nul_in_file :
    (get_line_from_file (Env.ideal 0 3) 3 (some 0) (World.single 3 [0, 10] 0)).bind
      (fun r => r.line) = some [0, 0] ∧
    (0 : Byte) ∈ ([0, 0] : List Byte).dropLast := by
  decide


/-! ## C10: a failed `lseek` -/

theorem line_end_lt_of_getElem? (l : List Byte) (i : Nat) (h : l[i]? = some NEW_LINE) :
    line_end l < l.length := by
  have hle := line_end_le l
  have hi : i < l.length := by
    by_contra hc
    rw [List.getElem?_eq_none (by omega)] at h
    cases h
  by_contra hc
  exact getElem?_ne_of_lt_line_end l i (by omega) h

/-- C10: in every environment a call returns, and when an `lseek` failed
during the call (which happens only after a newline was found) it returns
`NULL` with `*error_num = FILE_LSEEK_ERROR = -3`; this is what happens on
every file with a newline at or after the cursor when no `read` fails, every
`realloc` succeeds and the `lseek` fails; and the four codes are pairwise
distinct. -/
theorem C10_lseek_failure (env : Env) (fd : Int) (e : Int) (w : World) :
    (∃ r : Ret, get_line_from_file env fd (some e) w = some r ∧
      (r.world.failed_lseeks ≠ w.failed_lseeks →
        r.line = none ∧ r.error_num = some FILE_LSEEK_ERROR)) ∧
    (∀ (f : List Byte) (p i : Nat), 0 ≤ fd → w.fds fd = some ⟨f, p⟩ →
      f[p + i]? = some NEW_LINE → (∀ t, env.read_outcome t ≠ .fail) →
      (∀ t, env.alloc_ok t = true) → (∀ t, env.seek_ok t = false) →
      ∃ r : Ret, get_line_from_file env fd (some e) w = some r ∧
        r.line = none ∧ r.error_num = some FILE_LSEEK_ERROR) ∧
    FILE_LSEEK_ERROR = -3 ∧
    NO_ERROR ≠ INVALID_FD ∧ NO_ERROR ≠ NO_MEMORY ∧ NO_ERROR ≠ FILE_LSEEK_ERROR ∧
    INVALID_FD ≠ NO_MEMORY ∧ INVALID_FD ≠ FILE_LSEEK_ERROR ∧
    NO_MEMORY ≠ FILE_LSEEK_ERROR := by
  refine ⟨?_, ?_, rfl, by decide, by decide, by decide, by decide, by decide, by decide⟩
  · obtain ⟨r, he, _, hcase⟩ :=
      get_line_from_file_total env fd (fun _ => True) e w (fun _ _ _ _ => trivial)
    refine ⟨r, he, ?_⟩
    intro hne
    rcases hcase with ⟨_, _, h3⟩ | ⟨h1, h2, _⟩ | ⟨_, _, _, _, h4⟩
    · exact absurd h3 hne
    · exact ⟨h1, h2⟩
    · exact absurd h4 hne
  · intro f p i hfd0 hfd hnl hr ha hs
    obtain ⟨ret, err, w', he, _, _, _, _, h3, _⟩ :=
      get_line_from_file_spec env hr ha false hs fd hfd0 e w f p hfd
    have hlt : line_end (f.drop p) < (f.drop p).length :=
      line_end_lt_of_getElem? (f.drop p) i (by rw [getElem?_drop_add]; exact hnl)
    obtain ⟨r1, r2⟩ := h3 hlt rfl
    exact ⟨_, he, r1, by rw [r2]⟩

/-- C10 at the file `ab\ncd` with an `lseek` that fails: the call performs
the failed `lseek` and returns `NULL` with `FILE_LSEEK_ERROR`. -/
theorem C10_lseek_failure_witness :
    (get_line_from_file Env.seek_fails 3 (some 0)
      (World.single 3 [97, 98, 10, 99, 100] 0)).map
        (fun r => (r.world.failed_lseeks, r.line, r.error_num)) =
      some (1, none, some FILE_LSEEK_ERROR) ∧
    ∃ r : Ret, get_line_from_file Env.seek_fails 3 (some 0)
        (World.single 3 [97, 98, 10, 99, 100] 0) = some r ∧
      r.line = none ∧ r.error_num = some FILE_LSEEK_ERROR :=
  ⟨by decide,
    (C10_lseek_failure Env.seek_fails 3 0 (World.single 3 [97, 98, 10, 99, 100] 0)).2.1
      [97, 98, 10, 99, 100] 0 2 (by decide) rfl (by decide)
      (fun _ => by simp [Env.seek_fails]) (fun _ => rfl) (fun _ => rfl)⟩

/-! ## The driver on arbitrary bytes -/

theorem strnlen_eq_iff (l : List Byte) (n : Nat) :
    strnlen (l ++ [0]) n = n ↔ n ≤ l.length ∧ ∀ b ∈ l.take n, b ≠ 0 := by
  induction l generalizing n with
  | nil =>
    cases n with
    | zero => simp [strnlen]
    | succ n => simp [strnlen]
  | cons a l ih =>
    cases n with
    | zero => simp [strnlen]
    | succ n =>
      by_cases ha : a = 0
      · subst ha
        simp [strnlen]
      · rw [List.cons_append, strnlen, if_neg ha, List.take_succ_cons, List.length_cons]
        constructor
        · intro h
          have h' := (ih n).mp (by omega)
          refine ⟨by omega, ?_⟩
          intro b hb
          rcases List.mem_cons.mp hb with hb | hb
          · rw [hb]; exact ha
          · exact h'.2 b hb
        · rintro ⟨h1, h2⟩
          have := (ih n).mpr ⟨by omega, fun b hb => h2 b (List.mem_cons_of_mem _ hb)⟩
          omega

theorem lt_of_mem_reported_lines (ls : List (List Byte)) (n N : Nat)
    (h : N ∈ reported_lines n ls) : n < N := by
  induction ls generalizing n with
  | nil => simp [reported_lines] at h
  | cons l ls ih =>
    rw [reported_lines] at h
    split at h
    · rcases List.mem_cons.mp h with h | h
      · omega
      · have := ih _ h; omega
    · have := ih _ h; omega

theorem pairwise_reported_lines (ls : List (List Byte)) (n : Nat) :
    (reported_lines n ls).Pairwise (fun a b => a < b) := by
  induction ls generalizing n with
  | nil => simp [reported_lines]
  | cons l ls ih =>
    rw [reported_lines]
    split
    · rw [List.pairwise_cons]
      exact ⟨fun N hN => lt_of_mem_reported_lines ls (n + 1) N hN, ih _⟩
    · exact ih _

theorem mem_reported_lines (ls : List (List Byte)) (n N : Nat) :
    N ∈ reported_lines n ls ↔
      n < N ∧ ∃ l, ls[N - n - 1]? = some l ∧ strnlen (l ++ [0]) 81 = 81 := by
  induction ls generalizing n with
  | nil => simp [reported_lines]
  | cons l ls ih =>
    have hstep : ∀ N, n + 1 < N → (l :: ls)[N - n - 1]? = ls[N - (n + 1) - 1]? := by
      intro N hN
      have : N - n - 1 = (N - (n + 1) - 1) + 1 := by omega
      rw [this, List.getElem?_cons_succ]
    rw [reported_lines]
    by_cases hl : strnlen (l ++ [0]) 81 = 81
    · rw [if_pos hl, List.mem_cons, ih]
      constructor
      · rintro (h | ⟨h1, l', h2, h3⟩)
        · subst h
          exact ⟨by omega, l, by simp, hl⟩
        · exact ⟨by omega, l', by rw [hstep N h1]; exact h2, h3⟩
      · rintro ⟨h1, l', h2, h3⟩
        by_cases hN : N = n + 1
        · left; exact hN
        · right
          have h1' : n + 1 < N := by omega
          exact ⟨h1', l', by rw [← hstep N h1']; exact h2, h3⟩
    · rw [if_neg hl, ih]
      constructor
      · rintro ⟨h1, l', h2, h3⟩
        exact ⟨by omega, l', by rw [hstep N h1]; exact h2, h3⟩
      · rintro ⟨h1, l', h2, h3⟩
        by_cases hN : N = n + 1
        · subst hN
          simp at h2
          subst h2
          exact absurd h3 hl
        · have h1' : n + 1 < N := by omega
          exact ⟨h1', l', by rw [← hstep N h1']; exact h2, h3⟩

/-- The loop of `main` on arbitrary bytes, when nothing fails: with more
fuel than logical lines behind the cursor it ends after the end-of-input call,
having counted the lines and reported those that pass the `strnlen` test; with
less fuel it does not end. -/
theorem main_loop_run (env : Env) (henv : env.no_failure) (fd : Int) (hfd0 : 0 ≤ fd)
    (f : List Byte) :
    ∀ (fuel : Nat) (w : World) (p : Nat) (m : MainLocals), w.fds fd = some ⟨f, p⟩ →
      ((logical_lines (f.drop p)).length < fuel →
        ∃ w', main_loop env fd fuel m w =
            some (⟨m.line_num + (logical_lines (f.drop p)).length,
              m.printed + (reported_lines m.line_num (logical_lines (f.drop p))).length,
              NO_ERROR⟩, w') ∧
          w'.out = w.out ++
            (reported_lines m.line_num (logical_lines (f.drop p))).map Msg.over_length ∧
          w'.fs = w.fs) ∧
      (fuel ≤ (logical_lines (f.drop p)).length → main_loop env fd fuel m w = none) := by
  intro fuel
  induction fuel with
  | zero =>
    intro w p m _
    exact ⟨fun h => by omega, fun _ => rfl⟩
  | succ fuel ih =>
    intro w p m hfd
    obtain ⟨w1, he, hf1, ho1, hs1⟩ :=
      get_line_from_file_ok env henv fd hfd0 m.error_num w f p hfd
    rw [main_loop, he]
    by_cases h0 : f.drop p = []
    · simp only [h0, if_true, logical_lines, reported_lines, List.map_nil, List.length_nil,
        Nat.add_zero, List.append_nil, Option.getD_some]
      exact ⟨fun _ => ⟨w1, rfl, ho1, hs1⟩, fun h => by omega⟩
    · simp only [h0, if_false, Option.getD_some]
      have hcons := logical_lines_cons_line (f.drop p) h0
      have hfd1 : w1.fds fd =
          some ⟨f, p + min (line_end (f.drop p) + 1) (f.drop p).length⟩ := by
        rw [hf1]; simp
      have hdrop : f.drop (p + min (line_end (f.drop p) + 1) (f.drop p).length) =
          (f.drop p).drop (line_end (f.drop p) + 1) := by
        rw [← drop_min_length (f.drop p), List.drop_drop]
      rw [hcons]
      simp only [reported_lines, List.length_cons]
      by_cases hlong : strnlen ((f.drop p).take (line_end (f.drop p)) ++ [0]) 81 = 81
      · rw [if_pos hlong, if_pos hlong]
        obtain ⟨ih1, ih2⟩ := ih
          ((w1.printf (.over_length (m.line_num + 1))).record .free)
          (p + min (line_end (f.drop p) + 1) (f.drop p).length)
          ⟨m.line_num + 1, m.printed + 1, NO_ERROR⟩ hfd1
        rw [hdrop] at ih1 ih2
        simp only at ih1 ih2
        constructor
        · intro hfuel
          obtain ⟨w2, he2, ho2, hs2⟩ := ih1 (by omega)
          rw [he2]
          refine ⟨w2, ?_, ?_, ?_⟩
          · simp only [List.length_cons]
            congr 3 <;> omega
          · rw [ho2]
            simp [World.record, World.printf, ho1]
          · rw [hs2]
            simp [World.record, World.printf, hs1]
        · intro hfuel
          exact ih2 (by omega)
      · rw [if_neg hlong, if_neg hlong]
        obtain ⟨ih1, ih2⟩ := ih (w1.record .free)
          (p + min (line_end (f.drop p) + 1) (f.drop p).length)
          ⟨m.line_num + 1, m.printed, NO_ERROR⟩ hfd1
        rw [hdrop] at ih1 ih2
        simp only at ih1 ih2
        constructor
        · intro hfuel
          obtain ⟨w2, he2, ho2, hs2⟩ := ih1 (by omega)
          rw [he2]
          refine ⟨w2, ?_, ?_, ?_⟩
          · congr 3; omega
          · rw [ho2]
            simp [World.record, ho1]
          · rw [hs2]
            simp [World.record, hs1]
        · intro hfuel
          exact ih2 (by omega)

theorem error_num_isSome (env : Env) (fd : Int) (e : Int) (w : World) (r : Ret)
    (h : get_line_from_file env fd (some e) w = some r) : ∃ v, r.error_num = some v := by
  unfold get_line_from_file at h
  simp only at h
  split at h
  · cases h; exact ⟨_, rfl⟩
  · split at h
    · cases h
    · cases h; exact ⟨_, rfl⟩

/-- When the loop of `main` ends, in any environment, it ends on a call that
returned `NULL`, and the error number that `main` holds afterwards is the one
that this last call has set. -/
theorem main_loop_last_call (env : Env) (fd : Int) :
    ∀ (fuel : Nat) (m : MainLocals) (w : World) (m' : MainLocals) (w' : World),
      main_loop env fd fuel m w = some (m', w') →
      ∃ (e0 : Int) (w0 : World) (r : Ret),
        get_line_from_file env fd (some e0) w0 = some r ∧ r.line = none ∧
          r.error_num = some m'.error_num ∧ r.world = w' := by
  intro fuel
  induction fuel with
  | zero => intro m w m' w' h; cases h
  | succ fuel ih =>
    intro m w m' w' h
    rw [main_loop] at h
    cases hc : get_line_from_file env fd (some m.error_num) w with
    | none => rw [hc] at h; cases h
    | some r =>
      rw [hc] at h
      simp only at h
      obtain ⟨v, hv⟩ := error_num_isSome env fd m.error_num w r hc
      cases hl : r.line with
      | none =>
        rw [hl] at h
        simp only [Option.some.injEq, Prod.mk.injEq] at h
        obtain ⟨h1, h2⟩ := h
        subst h1 h2
        exact ⟨m.error_num, w, r, hc, hl, by simp [hv]⟩
      | some line =>
        rw [hl] at h
        simp only at h
        split at h
        · exact ih _ _ _ _ h
        · exact ih _ _ _ _ h

/-! ## C11: termination -/

/-- C11: for every file read without failure, every call of
`get_line_from_file` returns, every call that returns a line leaves the cursor
at least one byte further, and the loop of `main` started at cursor 0 ends
after exactly `(number of logical lines) + 1` calls: it ends with fuel for that
many calls, on a call that returned `NULL` with `NO_ERROR`, and does not end
with fuel for fewer calls. -/
theorem C11_termination (env : Env) (henv : env.no_failure) (fd : Int) (hfd0 : 0 ≤ fd)
    (f : List Byte) :
    (∀ (p : Nat) (e : Int) (w : World), w.fds fd = some ⟨f, p⟩ →
      ∃ r : Ret, get_line_from_file env fd (some e) w = some r ∧
        (r.line ≠ none → ∃ q, r.world.fds fd = some ⟨f, q⟩ ∧ p + 1 ≤ q)) ∧
    (∀ (w : World) (m : MainLocals), w.fds fd = some ⟨f, 0⟩ →
      (∃ (m' : MainLocals) (w' : World) (e0 : Int) (w0 : World) (r : Ret),
        main_loop env fd ((logical_lines f).length + 1) m w = some (m', w') ∧
        m'.line_num = m.line_num + (logical_lines f).length ∧
        get_line_from_file env fd (some e0) w0 = some r ∧ r.line = none ∧
        r.error_num = some NO_ERROR ∧ r.world = w') ∧
      (∀ fuel, fuel ≤ (logical_lines f).length → main_loop env fd fuel m w = none)) := by
  constructor
  · intro p e w hfd
    obtain ⟨w', he, hf, _, _⟩ := get_line_from_file_ok env henv fd hfd0 e w f p hfd
    refine ⟨_, he, ?_⟩
    simp only
    intro hne
    have h0 : f.drop p ≠ [] := by
      intro h; rw [if_pos h] at hne; exact hne rfl
    refine ⟨p + min (line_end (f.drop p) + 1) (f.drop p).length, ?_, ?_⟩
    · rw [hf, Function.update_same]
    · have hpos : 0 < (f.drop p).length := List.length_pos.mpr h0
      generalize f.drop p = rest at hpos
      omega
  · intro w m hfd
    obtain ⟨h1, h2⟩ := main_loop_run env henv fd hfd0 f ((logical_lines f).length + 1) w 0 m hfd
    rw [List.drop_zero] at h1
    obtain ⟨w', he, _, _⟩ := h1 (Nat.lt_succ_self _)
    obtain ⟨e0, w0, r, hc, hl, her, hw⟩ := main_loop_last_call env fd _ _ _ _ _ he
    refine ⟨⟨_, w', e0, w0, r, he, rfl, hc, hl, her, hw⟩, ?_⟩
    intro fuel hfuel
    have := (main_loop_run env henv fd hfd0 f fuel w 0 m hfd).2
    rw [List.drop_zero] at this
    exact this hfuel

/-- C11 at the file `ab\n\ncd`, which has three logical lines. -/
theorem C11_termination_witness :
    (Env.ideal 0 3).no_failure ∧ (0 : Int) ≤ 3 ∧
    (logical_lines ([97, 98, 10, 10, 99, 100] : List Byte)).length = 3 ∧
    (World.single 3 [97, 98, 10, 10, 99, 100] 0).fds 3 = some ⟨[97, 98, 10, 10, 99, 100], 0⟩ ∧
    ((∃ (m' : MainLocals) (w' : World) (e0 : Int) (w0 : World) (r : Ret),
        main_loop (Env.ideal 0 3) 3 ((logical_lines [97, 98, 10, 10, 99, 100]).length + 1)
          ⟨0, 0, 0⟩ (World.single 3 [97, 98, 10, 10, 99, 100] 0) = some (m', w') ∧
        m'.line_num = 0 + (logical_lines [97, 98, 10, 10, 99, 100]).length ∧
        get_line_from_file (Env.ideal 0 3) 3 (some e0) w0 = some r ∧ r.line = none ∧
        r.error_num = some NO_ERROR ∧ r.world = w') ∧
      (∀ fuel, fuel ≤ (logical_lines [97, 98, 10, 10, 99, 100]).length →
        main_loop (Env.ideal 0 3) 3 fuel ⟨0, 0, 0⟩
          (World.single 3 [97, 98, 10, 10, 99, 100] 0) = none)) :=
  ⟨⟨fun _ => by simp [Env.ideal], fun _ => rfl, fun _ => rfl⟩, by decide, by decide, rfl,
    (C11_termination (Env.ideal 0 3)
      ⟨fun _ => by simp [Env.ideal], fun _ => rfl, fun _ => rfl⟩ 3 (by decide)
      [97, 98, 10, 10, 99, 100]).2 (World.single 3 [97, 98, 10, 10, 99, 100] 0) ⟨0, 0, 0⟩ rfl⟩

/-! ## C12: the exit status -/

theorem get_line_from_file_out (env : Env) (fd : Int) (hfd0 : 0 ≤ fd) (e : Int) (w : World)
    (r : Ret) (h : get_line_from_file env fd (some e) w = some r) : r.world.out = w.out := by
  obtain ⟨ret, err, w', he, ho, _, _⟩ := get_line_loop_total env fd (fun _ => True)
    (w.remaining fd + 1) [] 0 w rfl (by simp) (fun _ _ _ _ => trivial) (Nat.lt_succ_self _)
  unfold get_line_from_file at h
  simp only at h
  rw [if_neg (by omega), he] at h
  cases h
  exact ho

/-- When the loop of `main` ends, in any environment, it has printed only
over-length messages, as many as `printed` has grown, each with a line number
among those of the lines processed. -/
theorem main_loop_out (env : Env) (fd : Int) (hfd0 : 0 ≤ fd) :
    ∀ (fuel : Nat) (m : MainLocals) (w : World) (m' : MainLocals) (w' : World),
      main_loop env fd fuel m w = some (m', w') →
      ∃ Ns : List Nat, w'.out = w.out ++ Ns.map Msg.over_length ∧
        m'.printed = m.printed + Ns.length ∧ m.line_num ≤ m'.line_num ∧
        ∀ N ∈ Ns, m.line_num < N ∧ N ≤ m'.line_num := by
  intro fuel
  induction fuel with
  | zero => intro m w m' w' h; cases h
  | succ fuel ih =>
    intro m w m' w' h
    rw [main_loop] at h
    cases hc : get_line_from_file env fd (some m.error_num) w with
    | none => rw [hc] at h; cases h
    | some r =>
      rw [hc] at h
      simp only at h
      have ho := get_line_from_file_out env fd hfd0 m.error_num w r hc
      cases hl : r.line with
      | none =>
        rw [hl] at h
        simp only [Option.some.injEq, Prod.mk.injEq] at h
        obtain ⟨h1, h2⟩ := h
        subst h1 h2
        exact ⟨[], by simp [ho], by simp, le_refl _, by simp⟩
      | some line =>
        rw [hl] at h
        simp only at h
        split at h
        · obtain ⟨Ns, h1, h2, h3, h4⟩ := ih _ _ _ _ h
          simp only at h1 h2 h3 h4
          refine ⟨(m.line_num + 1) :: Ns, ?_, ?_, by omega, ?_⟩
          · rw [h1]
            simp [World.record, World.printf, ho]
          · rw [h2, List.length_cons]; omega
          · intro N hN
            rcases List.mem_cons.mp hN with hN | hN
            · subst hN; omega
            · have := h4 N hN; omega
        · obtain ⟨Ns, h1, h2, h3, h4⟩ := ih _ _ _ _ h
          simp only at h1 h2 h3 h4
          refine ⟨Ns, ?_, h2, by omega, ?_⟩
          · rw [h1]
            simp [World.record, ho]
          · intro N hN
            have := h4 N hN; omega

/-! ## The whole run of the driver on arbitrary bytes -/

/-- The whole run of `main` on arbitrary bytes, when nothing fails. -/
theorem main_run (env : Env) (henv : env.no_failure) (w : World) (prog path : String)
    (f : List Byte) (hfs : w.fs path = some f) (fuel : Nat)
    (hfuel : (logical_lines f).length < fuel) :
    ∃ w', main env fuel [prog, path] w = some (0, w') ∧
      w'.out = w.out ++ [Msg.blank] ++
        (reported_lines 0 (logical_lines f)).map Msg.over_length ++
        [if (reported_lines 0 (logical_lines f)).length = 0 then Msg.no_lines
          else Msg.total (reported_lines 0 (logical_lines f)).length] := by
  unfold main
  simp only [sys_open, hfs]
  have hfd0 : ¬ ((env.open_fd : Int) < 0) := by omega
  rw [if_neg hfd0]
  obtain ⟨h1, _⟩ := main_loop_run env henv (env.open_fd : Int) (by omega) f fuel
    (World.printf
      { w with fds := Function.update w.fds (env.open_fd : Int) (some ⟨f, 0⟩),
               trace := .opened path env.open_fd :: w.trace } .blank) 0 ⟨0, 0, 0⟩
    (by simp [World.printf])
  rw [List.drop_zero] at h1
  obtain ⟨w2, he, ho, _⟩ := h1 hfuel
  simp only [Nat.zero_add] at he ho
  rw [he]
  simp only
  refine ⟨_, rfl, ?_⟩
  generalize reported_lines 0 (logical_lines f) = Ns at *
  by_cases hN : Ns.length = 0
  · simp [hN, NO_ERROR, sys_close, World.printf, ho]
  · simp [hN, NO_ERROR, sys_close, World.printf, ho]

/-! ## The operations of one call -/

theorem take_write_at_left (buf : List Byte) (off : Nat) (bytes : List Byte)
    (h : off ≤ buf.length) : (write_at buf off bytes).take off = buf.take off := by
  unfold write_at
  rw [List.append_assoc, List.take_append_of_le_length (by rw [List.length_take]; omega),
    List.take_take, Nat.min_self]

/-- The operations of the inner loop, in any environment: reads on the
buffer at its capacity, each for the whole free part, and at most one `free`;
the bytes buffered before the loop stay as they are. -/
theorem read_loop_trace (env : Env) (fd : Int) :
    ∀ (fuel : Nat) (s : Locals) (w : World) (x : Option Locals) (w' : World),
      s.buf.length = s.curr_buf_size → s.curr_data_len ≤ s.curr_buf_size →
      read_loop env fd fuel s w = some (x, w') →
      ∃ new, w'.trace = new ++ w.trace ∧
        (∀ ev ∈ new, ev = .free ∨ ∃ off count ret,
          ev = .read fd s.curr_buf_size off count ret ∧ off ≤ s.curr_buf_size ∧
            count = s.curr_buf_size - off ∧ 0 < count) ∧
        ∀ s', x = some s' → s'.buf.take s.curr_data_len = s.buf.take s.curr_data_len := by
  intro fuel
  induction fuel with
  | zero =>
    intro s w x w' hlen hle h
    rw [read_loop] at h
    split at h
    · cases h
      exact ⟨[], rfl, by simp, fun s' hs' => by cases hs'; rfl⟩
    · cases h
  | succ fuel ih =>
    intro s w x w' hlen hle h
    rw [read_loop] at h
    by_cases hfull : s.curr_data_len = s.curr_buf_size
    · rw [if_pos hfull] at h
      cases h
      exact ⟨[], rfl, by simp, fun s' hs' => by cases hs'; rfl⟩
    · rw [if_neg hfull] at h
      simp only at h
      have hev : ∀ ret : Int, ∃ off count ret',
          Event.read fd s.buf.length s.curr_data_len (s.curr_buf_size - s.curr_data_len) ret =
            .read fd s.curr_buf_size off count ret' ∧ off ≤ s.curr_buf_size ∧
            count = s.curr_buf_size - off ∧ 0 < count :=
        fun ret => ⟨_, _, ret, by rw [hlen], hle, rfl, by omega⟩
      rcases sys_read_cases env w fd s.buf s.curr_data_len
        (s.curr_buf_size - s.curr_data_len) with hfail | ⟨file, n, hfd, hn, hn0, hread⟩
      · rw [hfail] at h
        simp only at h
        rw [if_neg (by omega), if_pos (by omega)] at h
        cases h
        refine ⟨[.read fd s.buf.length s.curr_data_len
          (s.curr_buf_size - s.curr_data_len) (-1)], rfl, ?_, ?_⟩
        · intro ev hev'
          rw [List.mem_singleton] at hev'
          subst hev'
          exact Or.inr (hev _)
        · intro s' hs'; cases hs'; rfl
      · rw [hread] at h
        simp only at h
        have hk : ((file.content.drop file.pos).take n).length ≤ n := by
          rw [List.length_take]; omega
        generalize (file.content.drop file.pos).take n = bytes at h hk
        by_cases hz : bytes.length = 0
        · have hbn : bytes = [] := List.length_eq_zero.mp hz
          subst hbn
          by_cases hl0 : s.curr_data_len = 0
          · rw [if_pos ⟨by simp, hl0⟩] at h
            cases h
            refine ⟨[.free, .read fd s.buf.length s.curr_data_len
              (s.curr_buf_size - s.curr_data_len) (([] : List Byte).length : Nat)], rfl, ?_, ?_⟩
            · intro ev hev'
              rcases List.mem_cons.mp hev' with h1 | h1
              · exact Or.inl h1
              · rw [List.mem_singleton] at h1
                subst h1
                exact Or.inr (hev _)
            · intro s' hs'; cases hs'
          · rw [if_neg (by simp [hl0]), if_pos (by simp)] at h
            cases h
            refine ⟨[.read fd s.buf.length s.curr_data_len
              (s.curr_buf_size - s.curr_data_len) (([] : List Byte).length : Nat)], rfl, ?_, ?_⟩
            · intro ev hev'
              rw [List.mem_singleton] at hev'
              subst hev'
              exact Or.inr (hev _)
            · intro s' hs'; cases hs'
              simp only [write_at_nil]
        · rw [if_neg (by omega), if_neg (by omega)] at h
          simp only [Int.toNat_ofNat] at h
          obtain ⟨new, ht, hevs, hpre⟩ := ih _ _ _ _
            (by simp only; rw [length_write_at _ _ _ (by omega)]; exact hlen)
            (by simp only; omega) h
          simp only at hevs hpre
          refine ⟨new ++ [.read fd s.buf.length s.curr_data_len
            (s.curr_buf_size - s.curr_data_len) (bytes.length : Nat)], ?_, ?_, ?_⟩
          · rw [ht]; simp [World.record, World.set_pos]
          · intro ev hev'
            rcases List.mem_append.mp hev' with h1 | h1
            · exact hevs ev h1
            · rw [List.mem_singleton] at h1
              subst h1
              exact Or.inr (hev _)
          · intro s' hs'
            have h1 := congrArg (List.take s.curr_data_len) (hpre s' hs')
            rw [List.take_take, List.take_take, Nat.min_eq_left (by omega),
              take_write_at_left _ _ _ (by omega)] at h1
            exact h1

theorem find_new_line_some (buf : List Byte) (n i : Nat) (h : find_new_line buf n 0 = some i) :
    i < n ∧ buf[i]? = some NEW_LINE := by
  have hlt := find_new_line_lt buf n i h
  refine ⟨hlt.1, ?_⟩
  rw [find_new_line_eq, List.drop_zero] at h
  split at h
  · next hl =>
    simp only [Nat.zero_add, Option.some.injEq] at h
    have := getElem?_line_end _ hl
    rw [h, List.getElem?_take_of_lt hlt.1] at this
    exact this
  · cases h

theorem find_new_line_none (buf : List Byte) (n : Nat) (h : find_new_line buf n 0 = none) :
    ∀ j, j < n → buf[j]? ≠ some NEW_LINE := by
  rw [find_new_line_eq, List.drop_zero] at h
  split at h
  · cases h
  · next hl =>
    intro j hj
    by_cases hjb : j < buf.length
    · have hjd : j < (buf.take n).length := by rw [List.length_take]; omega
      have hle := line_end_le (buf.take n)
      have := getElem?_ne_of_lt_line_end (buf.take n) j (by omega)
      rw [List.getElem?_take_of_lt hj] at this
      exact this
    · rw [List.getElem?_eq_none (by omega)]
      simp

theorem pairwise_filterMap_append (extra base : List Event) (cap : Nat)
    (hbase : ∀ ev ∈ base, ∀ k, ev.buf_size = some k → k = cap)
    (hextra : ∀ ev ∈ extra, ∀ k, ev.buf_size = some k → cap ≤ k)
    (hpw : (extra.filterMap Event.buf_size).Pairwise (fun a b => b ≤ a)) :
    ((extra ++ base).filterMap Event.buf_size).Pairwise (fun a b => b ≤ a) := by
  rw [List.filterMap_append, List.pairwise_append]
  refine ⟨hpw, ?_, ?_⟩
  · have hall : ∀ k ∈ base.filterMap Event.buf_size, k = cap := by
      intro k hk
      obtain ⟨ev, hev, hk'⟩ := List.mem_filterMap.mp hk
      exact hbase ev hev k hk'
    generalize base.filterMap Event.buf_size = l at hall
    induction l with
    | nil => exact List.Pairwise.nil
    | cons a l ih =>
      rw [List.pairwise_cons]
      refine ⟨?_, ih (fun k hk => hall k (List.mem_cons_of_mem _ hk))⟩
      intro b hb
      rw [hall a (List.mem_cons_self _ _), hall b (List.mem_cons_of_mem _ hb)]
  · intro a ha b hb
    obtain ⟨ev, hev, hk⟩ := List.mem_filterMap.mp ha
    obtain ⟨ev', hev', hk'⟩ := List.mem_filterMap.mp hb
    rw [hbase ev' hev' b hk']
    exact hextra ev hev a hk

theorem trace_combine (c cap : Nat) (hc : c < cap) (extra base : List Event)
    (hbase : ∀ ev ∈ base, ev.in_bounds ∧ (∀ k, ev.buf_size = some k → k = cap) ∧
      ∀ cp idx, ev ≠ .store cp idx)
    (hextra : ∀ ev ∈ extra, ev.in_bounds ∧ (∀ k, ev.buf_size = some k → cap ≤ k) ∧
      ∀ cp idx, ev = .store cp idx → cp ≤ idx + BUF_SIZE_INCREMENT)
    (hpw : (extra.filterMap Event.buf_size).Pairwise (fun a b => b ≤ a)) :
    (∀ ev ∈ extra ++ base, ev.in_bounds ∧ (∀ k, ev.buf_size = some k → c < k) ∧
      ∀ cp idx, ev = .store cp idx → cp ≤ idx + BUF_SIZE_INCREMENT) ∧
    ((extra ++ base).filterMap Event.buf_size).Pairwise (fun a b => b ≤ a) := by
  refine ⟨?_, pairwise_filterMap_append extra base cap (fun ev hev => (hbase ev hev).2.1)
    (fun ev hev => (hextra ev hev).2.1) hpw⟩
  intro ev hev
  rcases List.mem_append.mp hev with h | h
  · obtain ⟨h1, h2, h3⟩ := hextra ev h
    exact ⟨h1, fun k hk => by have := h2 k hk; omega, h3⟩
  · obtain ⟨h1, h2, h3⟩ := hbase ev h
    exact ⟨h1, fun k hk => by have := h2 k hk; omega, fun cp idx he => absurd he (h3 cp idx)⟩

/-- The operations of the outer loop, in any environment, started with `c`
bytes buffered that hold no newline: every `read` and every scan happens on a
buffer of a capacity that is a multiple of `BUF_SIZE_INCREMENT` above `c` and
that never shrinks from one to the next, within the bounds of `Event.in_bounds`;
every store is inside the buffer and less than `BUF_SIZE_INCREMENT` below its
end. -/
theorem get_line_loop_trace (env : Env) (fd : Int) :
    ∀ (fuel : Nat) (buf : List Byte) (c : Nat) (w : World) (ret : Option (List Byte))
      (err : Int) (w' : World),
      buf.length = c → c % BUF_SIZE_INCREMENT = 0 →
      (∀ j, j < c → buf[j]? ≠ some NEW_LINE) →
      get_line_loop env fd fuel ⟨buf, c, c, false⟩ w = some (ret, err, w') →
      ∃ new, w'.trace = new ++ w.trace ∧
        (∀ ev ∈ new, ev.in_bounds ∧ (∀ k, ev.buf_size = some k → c < k) ∧
          ∀ cp idx, ev = .store cp idx → cp ≤ idx + BUF_SIZE_INCREMENT) ∧
        (new.filterMap Event.buf_size).Pairwise (fun a b => b ≤ a) := by
  intro fuel
  induction fuel with
  | zero => intro buf c w ret err w' _ _ _ h; cases h
  | succ fuel ih =>
    intro buf c w ret err w' hlen hmod hnonl h
    rw [get_line_loop] at h
    have hcap : c < c + BUF_SIZE_INCREMENT := by simp [BUF_SIZE_INCREMENT]
    have hcapmod : (c + BUF_SIZE_INCREMENT) % BUF_SIZE_INCREMENT = 0 := by
      simp only [BUF_SIZE_INCREMENT] at hmod ⊢; omega
    by_cases hal : env.alloc_ok w.trace.length = true
    swap
    · have hre : sys_realloc env w buf (c + BUF_SIZE_INCREMENT) =
          (none, w.record (.realloc (c + BUF_SIZE_INCREMENT) false)) := by
        simp [sys_realloc, hal]
      rw [hre] at h
      simp only [Option.some.injEq, Prod.mk.injEq] at h
      obtain ⟨_, _, hw⟩ := h
      subst hw
      refine ⟨[.free, .realloc (c + BUF_SIZE_INCREMENT) false], rfl, ?_, by simp [Event.buf_size]⟩
      intro ev hev
      simp only [List.mem_cons, List.mem_singleton, List.not_mem_nil, or_false] at hev
      rcases hev with rfl | rfl <;> simp [Event.in_bounds, Event.buf_size]
    rw [sys_realloc_ok env w _ _ hal] at h
    simp only at h
    obtain ⟨x, w2, he, _, _, _, _, hs2⟩ := read_loop_total env fd (fun _ => True)
      (c + BUF_SIZE_INCREMENT - c)
      ⟨resized env buf (c + BUF_SIZE_INCREMENT), c + BUF_SIZE_INCREMENT, c, false⟩
      (w.record (.realloc (c + BUF_SIZE_INCREMENT) true))
      (length_resized _ _ _) (by simp) rfl (fun _ _ => trivial) (fun _ _ _ _ => trivial)
      (le_refl _)
    obtain ⟨newR, htR, hevR, hpre⟩ := read_loop_trace env fd _ _ _ _ _
      (length_resized _ _ _) (by simp) he
    simp only at hevR hpre
    rw [he] at h
    have htR' : w2.trace = (newR ++ [.realloc (c + BUF_SIZE_INCREMENT) true]) ++ w.trace := by
      rw [htR]; simp [World.record]
    have hbase : ∀ ev ∈ newR ++ [Event.realloc (c + BUF_SIZE_INCREMENT) true],
        ev.in_bounds ∧ (∀ k, ev.buf_size = some k → k = c + BUF_SIZE_INCREMENT) ∧
          ∀ cp idx, ev ≠ .store cp idx := by
      intro ev hev
      rcases List.mem_append.mp hev with h1 | h1
      · rcases hevR ev h1 with rfl | ⟨off, count, r, rfl, h2, h3, h4⟩
        · simp [Event.in_bounds, Event.buf_size]
        · refine ⟨⟨by omega, hcapmod, h2, h3, h4⟩, ?_, ?_⟩
          · intro k hk
            simp only [Event.buf_size, Option.some.injEq] at hk
            exact hk.symm
          · intro cp idx hne; cases hne
      · rw [List.mem_singleton] at h1
        subst h1
        simp [Event.in_bounds, Event.buf_size]
    cases x with
    | none =>
      simp only [Option.some.injEq, Prod.mk.injEq] at h
      obtain ⟨_, _, hw⟩ := h
      subst hw
      refine ⟨[] ++ (newR ++ [.realloc (c + BUF_SIZE_INCREMENT) true]), by rw [htR']; rfl, ?_⟩
      exact trace_combine c _ hcap [] _ hbase (by simp) (by simp)
    | some s2 =>
      obtain ⟨h1, h2, h3, h4, h5, h6, _, _⟩ := hs2 s2 rfl
      have hpre2 := hpre s2 rfl
      obtain ⟨buf2, cap2, len2, flag2⟩ := s2
      simp only at h1 h2 h3 h4 h5 h6 hpre2 h
      subst h1
      have hbase2 : ∀ ev ∈ Event.scan buf2.length len2 ::
          (newR ++ [Event.realloc (c + BUF_SIZE_INCREMENT) true]),
          ev.in_bounds ∧ (∀ k, ev.buf_size = some k → k = c + BUF_SIZE_INCREMENT) ∧
            ∀ cp idx, ev ≠ .store cp idx := by
        intro ev hev
        rcases List.mem_cons.mp hev with rfl | h1
        · refine ⟨⟨by omega, by rw [h2]; exact hcapmod, by omega⟩, ?_, ?_⟩
          · intro k hk
            simp only [Event.buf_size, Option.some.injEq] at hk
            omega
          · intro cp idx hne; cases hne
        · exact hbase ev h1
      have hnonl2 : ∀ j, j < c → buf2[j]? ≠ some NEW_LINE := by
        intro j hj
        have e1 : buf2[j]? = (buf2.take c)[j]? := (List.getElem?_take_of_lt hj).symm
        rw [e1, hpre2, take_resized _ _ _ _ (by omega) (by omega), List.getElem?_take_of_lt hj]
        exact hnonl j hj
      cases hfind : find_new_line buf2 len2 0 with
      | some i =>
        rw [hfind] at h
        simp only at h
        obtain ⟨hi1, hinl⟩ := find_new_line_some buf2 len2 i hfind
        have hic : c ≤ i := by
          by_contra hlt
          exact hnonl2 i (by omega) hinl
        have hstore : Event.in_bounds (.store buf2.length i) ∧
            (∀ k, Event.buf_size (.store buf2.length i) = some k → c + BUF_SIZE_INCREMENT ≤ k) ∧
            ∀ cp idx, Event.store buf2.length i = .store cp idx →
              cp ≤ idx + BUF_SIZE_INCREMENT := by
          refine ⟨by simp only [Event.in_bounds]; omega, by simp [Event.buf_size], ?_⟩
          intro cp idx hne
          cases hne
          omega
        by_cases hal2 : env.alloc_ok
            ((w2.record (.scan buf2.length len2)).record (.store buf2.length i)).trace.length
            = true
        swap
        · have hre : sys_realloc env
              ((w2.record (.scan buf2.length len2)).record (.store buf2.length i))
              (buf2.set i 0) (i + 1) =
              (none, ((w2.record (.scan buf2.length len2)).record
                (.store buf2.length i)).record (.realloc (i + 1) false)) := by
            simp [sys_realloc, hal2]
          rw [hre] at h
          simp only [Option.some.injEq, Prod.mk.injEq] at h
          obtain ⟨_, _, hw⟩ := h
          subst hw
          refine ⟨[.free, .realloc (i + 1) false, .store buf2.length i] ++
            (.scan buf2.length len2 :: (newR ++ [.realloc (c + BUF_SIZE_INCREMENT) true])),
            by simp [sys_free, World.record, htR'], ?_⟩
          apply trace_combine c _ hcap _ _ hbase2 _ (by simp [Event.buf_size])
          intro ev hev
          simp only [List.mem_cons, List.mem_singleton, List.not_mem_nil, or_false] at hev
          rcases hev with rfl | rfl | rfl
          · simp [Event.in_bounds, Event.buf_size]
          · simp [Event.in_bounds, Event.buf_size]
          · exact hstore
        rw [sys_realloc_ok env _ _ _ hal2] at h
        simp only at h
        generalize hw5 : (((w2.record (.scan buf2.length len2)).record
          (.store buf2.length i)).record (.realloc (i + 1) true)) = w5 at h
        have ht5 : w5.trace = [.realloc (i + 1) true, .store buf2.length i] ++
            (.scan buf2.length len2 :: (newR ++ [.realloc (c + BUF_SIZE_INCREMENT) true])) ++
            w.trace := by
          rw [← hw5]; simp [World.record, htR']
        rcases sys_lseek_cases env w5 fd (((i : Int) + 1) - (len2 : Int)) with
          ⟨hneg, hw6⟩ | ⟨file, _, hpos, hw6⟩
        · rcases hsk : sys_lseek env w5 fd (((i : Int) + 1) - (len2 : Int)) with ⟨r, w6⟩
          rw [hsk] at hneg hw6 h
          simp only at hneg hw6 h
          rw [if_pos hneg] at h
          simp only [Option.some.injEq, Prod.mk.injEq] at h
          obtain ⟨_, _, hw⟩ := h
          subst hw hw6
          refine ⟨[.free, .lseek fd (((i : Int) + 1) - (len2 : Int)) false,
            .realloc (i + 1) true, .store buf2.length i] ++
            (.scan buf2.length len2 :: (newR ++ [.realloc (c + BUF_SIZE_INCREMENT) true])),
            by simp [sys_free, World.record, ht5], ?_⟩
          apply trace_combine c _ hcap _ _ hbase2 _ (by simp [Event.buf_size])
          intro ev hev
          simp only [List.mem_cons, List.mem_singleton, List.not_mem_nil, or_false] at hev
          rcases hev with rfl | rfl | rfl | rfl
          · simp [Event.in_bounds, Event.buf_size]
          · simp [Event.in_bounds, Event.buf_size]
          · simp [Event.in_bounds, Event.buf_size]
          · exact hstore
        · rcases hsk : sys_lseek env w5 fd (((i : Int) + 1) - (len2 : Int)) with ⟨r, w6⟩
          rw [hsk] at hpos hw6 h
          simp only at hpos hw6 h
          rw [if_neg (by omega)] at h
          simp only [Option.some.injEq, Prod.mk.injEq] at h
          obtain ⟨_, _, hw⟩ := h
          subst hw hw6
          refine ⟨[.lseek fd (((i : Int) + 1) - (len2 : Int)) true,
            .realloc (i + 1) true, .store buf2.length i] ++
            (.scan buf2.length len2 :: (newR ++ [.realloc (c + BUF_SIZE_INCREMENT) true])),
            by simp [World.record, World.set_pos, ht5], ?_⟩
          apply trace_combine c _ hcap _ _ hbase2 _ (by simp [Event.buf_size])
          intro ev hev
          simp only [List.mem_cons, List.mem_singleton, List.not_mem_nil, or_false] at hev
          rcases hev with rfl | rfl | rfl
          · simp [Event.in_bounds, Event.buf_size]
          · simp [Event.in_bounds, Event.buf_size]
          · exact hstore
      | none =>
        rw [hfind] at h
        simp only at h
        cases flag2 with
        | true =>
          simp only [if_true] at h
          by_cases hal2 : env.alloc_ok (w2.record (.scan buf2.length len2)).trace.length = true
          swap
          · have hre : sys_realloc env (w2.record (.scan buf2.length len2)) buf2 (len2 + 1) =
                (none, (w2.record (.scan buf2.length len2)).record
                  (.realloc (len2 + 1) false)) := by
              simp [sys_realloc, hal2]
            rw [hre] at h
            simp only [Option.some.injEq, Prod.mk.injEq] at h
            obtain ⟨_, _, hw⟩ := h
            subst hw
            refine ⟨[.free, .realloc (len2 + 1) false] ++
              (.scan buf2.length len2 :: (newR ++ [.realloc (c + BUF_SIZE_INCREMENT) true])),
              by simp [sys_free, World.record, htR'], ?_⟩
            apply trace_combine c _ hcap _ _ hbase2 _ (by simp [Event.buf_size])
            intro ev hev
            simp only [List.mem_cons, List.mem_singleton, List.not_mem_nil, or_false] at hev
            rcases hev with rfl | rfl <;> simp [Event.in_bounds, Event.buf_size]
          rw [sys_realloc_ok env _ _ _ hal2] at h
          simp only [Option.some.injEq, Prod.mk.injEq] at h
          obtain ⟨_, _, hw⟩ := h
          subst hw
          refine ⟨[.store (resized env buf2 (len2 + 1)).length len2, .realloc (len2 + 1) true] ++
            (.scan buf2.length len2 :: (newR ++ [.realloc (c + BUF_SIZE_INCREMENT) true])),
            by simp [World.record, htR'], ?_⟩
          apply trace_combine c _ hcap _ _ hbase2 _ (by simp [Event.buf_size])
          intro ev hev
          simp only [List.mem_cons, List.mem_singleton, List.not_mem_nil, or_false] at hev
          rcases hev with rfl | rfl
          · refine ⟨by simp [Event.in_bounds, length_resized], by simp [Event.buf_size], ?_⟩
            intro cp idx hne
            cases hne
            rw [length_resized]
            simp [BUF_SIZE_INCREMENT]
          · simp [Event.in_bounds, Event.buf_size]
        | false =>
          have hfull : len2 = c + BUF_SIZE_INCREMENT := h5 rfl
          subst hfull
          simp only [Bool.false_eq_true, if_false] at h
          obtain ⟨newI, htI, hevI, hpwI⟩ := ih buf2 (c + BUF_SIZE_INCREMENT)
            (w2.record (.scan buf2.length (c + BUF_SIZE_INCREMENT))) ret err w' h2 hcapmod
            (find_new_line_none buf2 _ hfind) h
          refine ⟨newI ++ (.scan buf2.length (c + BUF_SIZE_INCREMENT) ::
            (newR ++ [.realloc (c + BUF_SIZE_INCREMENT) true])),
            by rw [htI]; simp [World.record, htR'], ?_⟩
          apply trace_combine c _ hcap _ _ hbase2 _ hpwI
          intro ev hev
          obtain ⟨e1, e2, e3⟩ := hevI ev hev
          exact ⟨e1, fun k hk => by have := e2 k hk; omega, e3⟩

/-! ## C15: the buffer invariant -/

theorem find_new_line_take (buf : List Byte) (n : Nat) :
    find_new_line buf n 0 = find_new_line (buf.take n) n 0 := by
  rw [find_new_line_eq, find_new_line_eq, List.drop_zero, List.drop_zero, List.take_take,
    Nat.min_self]

/-- C15: in every environment a call returns, and among the operations `new`
of the call (newest first): every `read` and every scan happens on a buffer
whose capacity is a positive multiple of `BUF_SIZE_INCREMENT`, with the data
length at most the capacity; every `read` starts at the data length and asks
for exactly the free part of the buffer, which is not empty; the capacities
of the successive reads and scans never decrease; every store, the final
sentinel included, is at an index inside the buffer; and the scan reads only
below `curr_data_len`: it finds an index below it and does not depend on the
bytes from it on. -/
theorem C15_buffer_invariant (env : Env) (fd : Int) (e : Int) (w : World) :
    ∃ (r : Ret) (new : List Event),
      get_line_from_file env fd (some e) w = some r ∧ r.world.trace = new ++ w.trace ∧
      (∀ fd' cap off count ret, Event.read fd' cap off count ret ∈ new →
        0 < cap ∧ cap % BUF_SIZE_INCREMENT = 0 ∧ off ≤ cap ∧ count = cap - off ∧ 0 < count) ∧
      (∀ cap len, Event.scan cap len ∈ new →
        0 < cap ∧ cap % BUF_SIZE_INCREMENT = 0 ∧ len ≤ cap) ∧
      (∀ cap idx, Event.store cap idx ∈ new → idx < cap) ∧
      (new.filterMap Event.buf_size).Pairwise (fun a b => b ≤ a) ∧
      (∀ buf n i, find_new_line buf n 0 = some i → i < n) ∧
      (∀ buf n, find_new_line buf n 0 = find_new_line (buf.take n) n 0) := by
  by_cases hfd : fd < 0
  · refine ⟨⟨none, some INVALID_FD, w.printf .fd_less_than_zero⟩, [], ?_, rfl, by simp, by simp,
      by simp, by simp, fun buf n i h => (find_new_line_lt buf n i h).1, find_new_line_take⟩
    unfold get_line_from_file
    simp only
    rw [if_pos hfd]
  · obtain ⟨ret, err, w', he, _, _, _⟩ := get_line_loop_total env fd (fun _ => True)
      (w.remaining fd + 1) [] 0 w rfl (by simp) (fun _ _ _ _ => trivial) (Nat.lt_succ_self _)
    obtain ⟨new, ht, hev, hpw⟩ := get_line_loop_trace env fd _ [] 0 w ret err w' rfl
      (by simp) (fun j hj => by omega) he
    refine ⟨⟨ret, some err, w'⟩, new, ?_, ht, ?_, ?_, ?_, hpw,
      fun buf n i h => (find_new_line_lt buf n i h).1, find_new_line_take⟩
    · unfold get_line_from_file
      simp only
      rw [if_neg hfd, he]
    · intro fd' cap off count r hmem
      exact (hev _ hmem).1
    · intro cap len hmem
      exact (hev _ hmem).1
    · intro cap idx hmem
      exact (hev _ hmem).1

/-- C15 at the file `ab\ncd` read by reads of at most two bytes: the
operations of the call, oldest first. -/
theorem C15_buffer_invariant_witness :
    (get_line_from_file ⟨fun _ => .short 1, fun _ => true, fun _ => true, fun _ => 0, 3⟩ 3
      (some 0) (World.single 3 [97, 98, 10, 99, 100] 0)).map (fun r => r.world.trace.reverse) =
      some [.realloc 1024 true, .read 3 1024 0 1024 2, .read 3 1024 2 1022 2,
        .read 3 1024 4 1020 1, .read 3 1024 5 1019 0, .scan 1024 5, .store 1024 2,
        .realloc 3 true, .lseek 3 (-2) true] ∧
    ∃ (r : Ret) (new : List Event),
      get_line_from_file ⟨fun _ => .short 1, fun _ => true, fun _ => true, fun _ => 0, 3⟩ 3
        (some 0) (World.single 3 [97, 98, 10, 99, 100] 0) = some r ∧
      r.world.trace = new ++ (World.single 3 [97, 98, 10, 99, 100] 0).trace ∧
      (∀ fd' cap off count ret, Event.read fd' cap off count ret ∈ new →
        0 < cap ∧ cap % BUF_SIZE_INCREMENT = 0 ∧ off ≤ cap ∧ count = cap - off ∧ 0 < count) ∧
      (∀ cap len, Event.scan cap len ∈ new →
        0 < cap ∧ cap % BUF_SIZE_INCREMENT = 0 ∧ len ≤ cap) ∧
      (∀ cap idx, Event.store cap idx ∈ new → idx < cap) ∧
      (new.filterMap Event.buf_size).Pairwise (fun a b => b ≤ a) ∧
      (∀ buf n i, find_new_line buf n 0 = some i → i < n) ∧
      (∀ buf n, find_new_line buf n 0 = find_new_line (buf.take n) n 0) :=
  ⟨by decide,
    C15_buffer_invariant ⟨fun _ => .short 1, fun _ => true, fun _ => true, fun _ => 0, 3⟩ 3 0
      (World.single 3 [97, 98, 10, 99, 100] 0)⟩

/-! ## C16: the incremental scan -/

theorem find_new_line_from (buf : List Byte) (n : Nat) :
    ∀ c, c ≤ n → (∀ j, j < c → buf[j]? ≠ some NEW_LINE) →
      find_new_line buf (n - c) c = find_new_line buf n 0 := by
  intro c
  induction c with
  | zero => intro _ _; rfl
  | succ c ih =>
    intro hc hnonl
    rw [← ih (by omega) (fun j hj => hnonl j (by omega))]
    have hn : n - c = (n - (c + 1)) + 1 := by omega
    rw [hn, find_new_line, if_neg (hnonl c (by omega))]

/-- The outer loop with the incremental scan and the outer loop of the source
return the same, in every environment, when the bytes buffered so far hold no
newline. -/
theorem get_line_loop_incremental_eq (env : Env) (fd : Int) :
    ∀ (fuel : Nat) (buf : List Byte) (c : Nat) (w : World),
      buf.length = c → (∀ j, j < c → buf[j]? ≠ some NEW_LINE) →
      get_line_loop_incremental env fd fuel ⟨buf, c, c, false⟩ c w =
        get_line_loop env fd fuel ⟨buf, c, c, false⟩ w := by
  intro fuel
  induction fuel with
  | zero => intro buf c w _ _; rfl
  | succ fuel ih =>
    intro buf c w hlen hnonl
    rw [get_line_loop_incremental, get_line_loop]
    by_cases hal : env.alloc_ok w.trace.length = true
    swap
    · have hre : sys_realloc env w buf (c + BUF_SIZE_INCREMENT) =
          (none, w.record (.realloc (c + BUF_SIZE_INCREMENT) false)) := by
        simp [sys_realloc, hal]
      rw [hre]
    rw [sys_realloc_ok env w _ _ hal]
    simp only
    obtain ⟨x, w2, he, _, _, _, _, hs2⟩ := read_loop_total env fd (fun _ => True)
      (c + BUF_SIZE_INCREMENT - c)
      ⟨resized env buf (c + BUF_SIZE_INCREMENT), c + BUF_SIZE_INCREMENT, c, false⟩
      (w.record (.realloc (c + BUF_SIZE_INCREMENT) true))
      (length_resized _ _ _) (by simp) rfl (fun _ _ => trivial) (fun _ _ _ _ => trivial)
      (le_refl _)
    obtain ⟨_, _, _, hpre⟩ := read_loop_trace env fd _ _ _ _ _
      (length_resized _ _ _) (by simp) he
    simp only at hpre
    rw [he]
    cases x with
    | none => rfl
    | some s2 =>
      obtain ⟨h1, h2, h3, h4, h5, h6, _, _⟩ := hs2 s2 rfl
      have hpre2 := hpre s2 rfl
      obtain ⟨buf2, cap2, len2, flag2⟩ := s2
      simp only at h1 h2 h3 h4 h5 h6 hpre2 ⊢
      subst h1
      have hnonl2 : ∀ j, j < c → buf2[j]? ≠ some NEW_LINE := by
        intro j hj
        have e1 : buf2[j]? = (buf2.take c)[j]? := (List.getElem?_take_of_lt hj).symm
        rw [e1, hpre2, take_resized _ _ _ _ (by omega) (by omega), List.getElem?_take_of_lt hj]
        exact hnonl j hj
      rw [find_new_line_from buf2 len2 c h3 hnonl2]
      cases hfind : find_new_line buf2 len2 0 with
      | some i => rfl
      | none =>
        simp only
        cases flag2 with
        | true => rfl
        | false =>
          have hfull : len2 = c + BUF_SIZE_INCREMENT := h5 rfl
          subst hfull
          simp only [Bool.false_eq_true, if_false]
          exact ih buf2 _ _ h2 (find_new_line_none buf2 _ hfind)

theorem get_line_from_file_incremental_eq (env : Env) (fd : Int) (e : Option Int)
    (w : World) :
    get_line_from_file_incremental env fd e w = get_line_from_file env fd e w := by
  unfold get_line_from_file_incremental get_line_from_file
  rw [get_line_loop_incremental_eq env fd _ [] 0 w rfl (fun j hj => by omega)]

/-- C16: in every environment, the reader that scans only from the previous
data length returns what `get_line_from_file` returns, so the same line, the
same cursor and the same error code; and a newline that the full scan finds
lies in the last increment of the buffer: every store of a call is at an
index less than `BUF_SIZE_INCREMENT` below the capacity, because the bytes
buffered before the last growth hold no newline. -/
theorem C16_incremental_scan (env : Env) (fd : Int) (e : Int) (w : World) :
    get_line_from_file_incremental env fd (some e) w = get_line_from_file env fd (some e) w ∧
    ∃ (r : Ret) (new : List Event),
      get_line_from_file env fd (some e) w = some r ∧ r.world.trace = new ++ w.trace ∧
      ∀ cap idx, Event.store cap idx ∈ new → cap ≤ idx + BUF_SIZE_INCREMENT := by
  refine ⟨get_line_from_file_incremental_eq env fd (some e) w, ?_⟩
  by_cases hfd : fd < 0
  · refine ⟨⟨none, some INVALID_FD, w.printf .fd_less_than_zero⟩, [], ?_, rfl, by simp⟩
    unfold get_line_from_file
    simp only
    rw [if_pos hfd]
  · obtain ⟨ret, err, w', he, _, _, _⟩ := get_line_loop_total env fd (fun _ => True)
      (w.remaining fd + 1) [] 0 w rfl (by simp) (fun _ _ _ _ => trivial) (Nat.lt_succ_self _)
    obtain ⟨new, ht, hev, _⟩ := get_line_loop_trace env fd _ [] 0 w ret err w' rfl
      (by simp) (fun j hj => by omega) he
    refine ⟨⟨ret, some err, w'⟩, new, ?_, ht, ?_⟩
    · unfold get_line_from_file
      simp only
      rw [if_neg hfd, he]
    · intro cap idx hmem
      exact (hev _ hmem).2.2 cap idx rfl

/-- C16 at the file `ab\ncd`, where the incremental reader is evaluated, and
at a line of 1500 bytes, which needs two passes of the outer loop. -/
theorem C16_incremental_scan_witness :
    (get_line_from_file_incremental (Env.ideal 0 3) 3 (some 0)
      (World.single 3 [97, 98, 10, 99, 100] 0)).map
      (fun r => (r.line, r.error_num, r.world.fds 3)) =
      some (some [97, 98, 0], some NO_ERROR, some ⟨[97, 98, 10, 99, 100], 3⟩) ∧
    get_line_from_file_incremental (Env.ideal 0 3) 3 (some 0) (World.single 3 long_line 0) =
      get_line_from_file (Env.ideal 0 3) 3 (some 0) (World.single 3 long_line 0) ∧
    ∃ (r : Ret) (new : List Event),
      get_line_from_file (Env.ideal 0 3) 3 (some 0) (World.single 3 long_line 0) = some r ∧
      r.world.trace = new ++ (World.single 3 long_line 0).trace ∧
      ∀ cap idx, Event.store cap idx ∈ new → cap ≤ idx + BUF_SIZE_INCREMENT :=
  ⟨by decide, C16_incremental_scan (Env.ideal 0 3) 3 0 (World.single 3 long_line 0)⟩

/-! ## C17: the split of the reads -/

/-- The inner loop performs no `realloc` and no `lseek`. -/
theorem read_loop_succeeded (env : Env) (fd : Int) (fuel : Nat) (s : Locals) (w : World)
    (x : Option Locals) (w' : World) (hlen : s.buf.length = s.curr_buf_size)
    (hle : s.curr_data_len ≤ s.curr_buf_size) (h : read_loop env fd fuel s w = some (x, w')) :
    w'.trace.filterMap Event.succeeded = w.trace.filterMap Event.succeeded := by
  obtain ⟨new, ht, hev, _⟩ := read_loop_trace env fd fuel s w x w' hlen hle h
  have hnil : new.filterMap Event.succeeded = [] := by
    rw [List.filterMap_eq_nil_iff]
    intro ev hev'
    rcases hev ev hev' with rfl | ⟨off, count, ret, rfl, _⟩ <;> rfl
  rw [ht, List.filterMap_append, hnil, List.nil_append]

/-- One pass of the outer loop when no `read` fails, by the outcome of its
first `realloc`, of its second `realloc` (`a2`) and of its `lseek` (`sk`):
what the pass returns, where it leaves the cursor, and which outcomes of
`realloc` and `lseek` it adds to the trace.  Here `rest` is what lies behind
the cursor at the start of the call and `c` is the number of bytes buffered so
far. -/
theorem get_line_loop_pass (env : Env) (hr : ∀ t, env.read_outcome t ≠ .fail) (fd : Int)
    (f : List Byte) (p0 : Nat) (rest : List Byte) (hrs : f.drop p0 = rest)
    (fuel : Nat) (buf : List Byte) (c : Nat) (w : World)
    (hfd : w.fds fd = some ⟨f, p0 + c⟩) (hlen : buf.length = c)
    (htake : buf.take c = rest.take c) (hc : c ≤ rest.length) :
    ∃ (a2 sk : Bool) (w1 : World) (buf2 : List Byte),
      (∃ t, a2 = env.alloc_ok t) ∧ (∃ t, sk = env.seek_ok t) ∧
      (env.alloc_ok w.trace.length = false →
        get_line_loop env fd (fuel + 1) ⟨buf, c, c, false⟩ w = some (none, NO_MEMORY, w1) ∧
        w1.fds = w.fds ∧
        w1.trace.filterMap Event.succeeded = false :: w.trace.filterMap Event.succeeded) ∧
      (env.alloc_ok w.trace.length = true → rest.length = 0 →
        get_line_loop env fd (fuel + 1) ⟨buf, c, c, false⟩ w = some (none, NO_ERROR, w1) ∧
        w1.fds = w.fds ∧
        w1.trace.filterMap Event.succeeded = true :: w.trace.filterMap Event.succeeded) ∧
      (env.alloc_ok w.trace.length = true →
        line_end rest < min (c + BUF_SIZE_INCREMENT) rest.length →
        (a2 = false →
          get_line_loop env fd (fuel + 1) ⟨buf, c, c, false⟩ w = some (none, NO_MEMORY, w1) ∧
          w1.fds = Function.update w.fds fd
            (some ⟨f, p0 + min (c + BUF_SIZE_INCREMENT) rest.length⟩) ∧
          w1.trace.filterMap Event.succeeded =
            false :: true :: w.trace.filterMap Event.succeeded) ∧
        (a2 = true → sk = false →
          get_line_loop env fd (fuel + 1) ⟨buf, c, c, false⟩ w =
            some (none, FILE_LSEEK_ERROR, w1) ∧
          w1.fds = Function.update w.fds fd
            (some ⟨f, p0 + min (c + BUF_SIZE_INCREMENT) rest.length⟩) ∧
          w1.trace.filterMap Event.succeeded =
            false :: true :: true :: w.trace.filterMap Event.succeeded) ∧
        (a2 = true → sk = true →
          get_line_loop env fd (fuel + 1) ⟨buf, c, c, false⟩ w =
            some (some (rest.take (line_end rest) ++ [0]), NO_ERROR, w1) ∧
          w1.fds = Function.update w.fds fd (some ⟨f, p0 + line_end rest + 1⟩) ∧
          w1.trace.filterMap Event.succeeded =
            true :: true :: true :: w.trace.filterMap Event.succeeded)) ∧
      (env.alloc_ok w.trace.length = true → 0 < rest.length →
        ¬ line_end rest < min (c + BUF_SIZE_INCREMENT) rest.length →
        rest.length < c + BUF_SIZE_INCREMENT →
        (a2 = false →
          get_line_loop env fd (fuel + 1) ⟨buf, c, c, false⟩ w = some (none, NO_MEMORY, w1) ∧
          w1.fds = Function.update w.fds fd (some ⟨f, p0 + rest.length⟩) ∧
          w1.trace.filterMap Event.succeeded =
            false :: true :: w.trace.filterMap Event.succeeded) ∧
        (a2 = true →
          get_line_loop env fd (fuel + 1) ⟨buf, c, c, false⟩ w =
            some (some (rest ++ [0]), NO_ERROR, w1) ∧
          w1.fds = Function.update w.fds fd (some ⟨f, p0 + rest.length⟩) ∧
          w1.trace.filterMap Event.succeeded =
            true :: true :: w.trace.filterMap Event.succeeded)) ∧
      (env.alloc_ok w.trace.length = true →
        ¬ line_end rest < min (c + BUF_SIZE_INCREMENT) rest.length →
        c + BUF_SIZE_INCREMENT ≤ rest.length →
        get_line_loop env fd (fuel + 1) ⟨buf, c, c, false⟩ w =
          get_line_loop env fd fuel
            ⟨buf2, c + BUF_SIZE_INCREMENT, c + BUF_SIZE_INCREMENT, false⟩ w1 ∧
        w1.fds = Function.update w.fds fd (some ⟨f, p0 + (c + BUF_SIZE_INCREMENT)⟩) ∧
        w1.trace.filterMap Event.succeeded = true :: w.trace.filterMap Event.succeeded ∧
        buf2.length = c + BUF_SIZE_INCREMENT ∧
        buf2.take (c + BUF_SIZE_INCREMENT) = rest.take (c + BUF_SIZE_INCREMENT)) := by
  have hcap : 0 < c + BUF_SIZE_INCREMENT := by simp [BUF_SIZE_INCREMENT]
  cases hal : env.alloc_ok w.trace.length with
  | false =>
    have hre : sys_realloc env w buf (c + BUF_SIZE_INCREMENT) =
        (none, w.record (.realloc (c + BUF_SIZE_INCREMENT) false)) := by
      simp [sys_realloc, hal]
    refine ⟨env.alloc_ok 0, env.seek_ok 0,
      sys_free (w.record (.realloc (c + BUF_SIZE_INCREMENT) false)), [], ⟨0, rfl⟩, ⟨0, rfl⟩,
      ?_, ?_, ?_, ?_, ?_⟩
    · intro _
      rw [get_line_loop, hre]
      exact ⟨rfl, rfl, rfl⟩
    · intro h; cases h
    · intro h; cases h
    · intro h; cases h
    · intro h; cases h
  | true =>
    have hin := read_loop_spec env hr fd f p0 rest hrs (c + BUF_SIZE_INCREMENT - c)
      ⟨resized env buf (c + BUF_SIZE_INCREMENT), c + BUF_SIZE_INCREMENT, c, false⟩
      (w.record (.realloc (c + BUF_SIZE_INCREMENT) true))
      (by simpa [World.record] using hfd) (by simp)
      (length_resized _ _ _)
      (by
        simp only
        rw [take_resized _ _ _ _ (by omega) (by omega), htake])
      hc rfl (le_refl _)
    simp only at hin
    have hstart : get_line_loop env fd (fuel + 1) ⟨buf, c, c, false⟩ w =
        match read_loop env fd (c + BUF_SIZE_INCREMENT - c)
          ⟨resized env buf (c + BUF_SIZE_INCREMENT), c + BUF_SIZE_INCREMENT, c, false⟩
          (w.record (.realloc (c + BUF_SIZE_INCREMENT) true)) with
        | none => none
        | some (none, w2) => some (none, NO_ERROR, w2)
        | some (some s2, w2) =>
          let w3 := w2.record (.scan s2.buf.length s2.curr_data_len)
          match find_new_line s2.buf s2.curr_data_len 0 with
          | some i =>
            let w4 := w3.record (.store s2.buf.length i)
            match sys_realloc env w4 (s2.buf.set i 0) (i + 1) with
            | (none, w5) => some (none, NO_MEMORY, sys_free w5)
            | (some buf, w5) =>
              match sys_lseek env w5 fd (((i : Int) + 1) - (s2.curr_data_len : Int)) with
              | (r, w6) =>
                if r < 0 then some (none, FILE_LSEEK_ERROR, sys_free w6)
                else some (some buf, NO_ERROR, w6)
          | none =>
            if s2.end_of_file_reached_or_error then
              match sys_realloc env w3 s2.buf (s2.curr_data_len + 1) with
              | (none, w4) => some (none, NO_MEMORY, sys_free w4)
              | (some buf, w4) =>
                some (some (buf.set s2.curr_data_len 0), NO_ERROR,
                  w4.record (.store buf.length s2.curr_data_len))
            else
              get_line_loop env fd fuel s2 w3 := by
      rw [get_line_loop, sys_realloc_ok env w _ _ hal]
    by_cases h0 : rest.length = 0
    · rw [if_pos ⟨h0, hcap⟩] at hin
      obtain ⟨w', he, hf', _, _⟩ := hin
      have htr := read_loop_succeeded env fd _ _ _ _ _ (length_resized _ _ _) (by simp) he
      refine ⟨env.alloc_ok 0, env.seek_ok 0, w', [], ⟨0, rfl⟩, ⟨0, rfl⟩, ?_, ?_, ?_, ?_, ?_⟩
      · intro h; cases h
      · intro _ _
        rw [hstart, he]
        exact ⟨rfl, hf', by rw [htr]; rfl⟩
      · intro _ h; omega
      · intro _ h; omega
      · intro _ _ h; simp only [BUF_SIZE_INCREMENT] at h; omega
    · rw [if_neg (by omega)] at hin
      obtain ⟨buf2, w2, he, hl2, ht2, hf2, _, _⟩ := hin
      have htr : w2.trace.filterMap Event.succeeded =
          true :: w.trace.filterMap Event.succeeded := by
        rw [read_loop_succeeded env fd _ _ _ _ _ (length_resized _ _ _) (by simp) he]
        rfl
      replace hf2 : w2.fds = Function.update w.fds fd
          (some ⟨f, p0 + min (c + BUF_SIZE_INCREMENT) rest.length⟩) := hf2
      rw [he] at hstart
      simp only at hstart
      have hfd2 : w2.fds fd = some ⟨f, p0 + min (c + BUF_SIZE_INCREMENT) rest.length⟩ := by
        rw [hf2]; simp
      generalize hm : min (c + BUF_SIZE_INCREMENT) rest.length = m at *
      have hmle : m ≤ rest.length := by omega
      have hmcap : m ≤ c + BUF_SIZE_INCREMENT := by omega
      rw [find_new_line_of_take buf2 rest m hmle ht2] at hstart
      by_cases hfound : line_end rest < m
      · -- a newline in the buffer
        rw [if_pos hfound] at hstart
        simp only at hstart
        have hi2 : line_end rest < buf2.length := by omega
        have hbuf : resized env (buf2.set (line_end rest) 0) (line_end rest + 1) =
            rest.take (line_end rest) ++ [0] := by
          rw [resized_of_le _ _ _ (by simp; omega), take_set_succ _ _ _ hi2]
          congr 1
          have := congrArg (List.take (line_end rest)) ht2
          rw [List.take_take, List.take_take, Nat.min_eq_left (by omega)] at this
          exact this
        cases hal2 : env.alloc_ok ((w2.record (.scan buf2.length m)).record
            (.store buf2.length (line_end rest))).trace.length with
        | false =>
          have hre : sys_realloc env
              ((w2.record (.scan buf2.length m)).record (.store buf2.length (line_end rest)))
              (buf2.set (line_end rest) 0) (line_end rest + 1) =
              (none, ((w2.record (.scan buf2.length m)).record
                (.store buf2.length (line_end rest))).record
                  (.realloc (line_end rest + 1) false)) := by
            simp [sys_realloc, hal2]
          rw [hre] at hstart
          simp only at hstart
          obtain ⟨W, hG, hWf, hWt⟩ : ∃ W,
              get_line_loop env fd (fuel + 1) ⟨buf, c, c, false⟩ w = some (none, NO_MEMORY, W) ∧
              W.fds = Function.update w.fds fd (some ⟨f, p0 + m⟩) ∧
              W.trace.filterMap Event.succeeded =
                false :: true :: w.trace.filterMap Event.succeeded :=
            ⟨_, hstart, by simp only [sys_free, World.record]; exact hf2,
              by simp only [sys_free, World.record, List.filterMap_cons, Event.succeeded, htr]⟩
          refine ⟨false, env.seek_ok 0, W, [], ⟨_, hal2.symm⟩, ⟨0, rfl⟩, ?_, ?_, ?_, ?_, ?_⟩
          · intro h; cases h
          · intro _ h; omega
          · intro _ _
            exact ⟨fun _ => ⟨hG, hWf, hWt⟩, fun h => (by cases h), fun h => (by cases h)⟩
          · intro _ _ h; exact absurd hfound h
          · intro _ h; exact absurd hfound h
        | true =>
          rw [sys_realloc_ok env _ _ _ hal2, hbuf] at hstart
          simp only at hstart
          have hfd5 : (((w2.record (.scan buf2.length m)).record
              (.store buf2.length (line_end rest))).record
                (.realloc (line_end rest + 1) true)).fds fd = some ⟨f, p0 + m⟩ := by
            simpa [World.record] using hfd2
          cases hsk : env.seek_ok (((w2.record (.scan buf2.length m)).record
              (.store buf2.length (line_end rest))).record
                (.realloc (line_end rest + 1) true)).trace.length with
          | false =>
            rw [sys_lseek_eq env _ fd _ ⟨f, p0 + m⟩ false hfd5 hsk
              (by simp only; omega)] at hstart
            simp only [Bool.false_eq_true, if_false] at hstart
            rw [if_pos (by decide)] at hstart
            obtain ⟨W, hG, hWf, hWt⟩ : ∃ W,
                get_line_loop env fd (fuel + 1) ⟨buf, c, c, false⟩ w =
                  some (none, FILE_LSEEK_ERROR, W) ∧
                W.fds = Function.update w.fds fd (some ⟨f, p0 + m⟩) ∧
                W.trace.filterMap Event.succeeded =
                  false :: true :: true :: w.trace.filterMap Event.succeeded :=
              ⟨_, hstart, by simp only [sys_free, World.record]; exact hf2,
                by simp only [sys_free, World.record, List.filterMap_cons, Event.succeeded, htr]⟩
            refine ⟨true, false, W, [], ⟨_, hal2.symm⟩, ⟨_, hsk.symm⟩, ?_, ?_, ?_, ?_, ?_⟩
            · intro h; cases h
            · intro _ h; omega
            · intro _ _
              exact ⟨fun h => (by cases h), fun _ _ => ⟨hG, hWf, hWt⟩, fun _ h => (by cases h)⟩
            · intro _ _ h; exact absurd hfound h
            · intro _ h; exact absurd hfound h
          | true =>
            rw [sys_lseek_eq env _ fd _ ⟨f, p0 + m⟩ true hfd5 hsk
              (by simp only; omega)] at hstart
            simp only [if_true] at hstart
            have hnn : ¬ (((p0 + m : Nat) : Int) + ((line_end rest : Int) + 1 - (m : Int)) < 0) := by
              omega
            rw [if_neg hnn] at hstart
            have hx : (((p0 + m : Nat) : Int) + ((line_end rest : Int) + 1 - (m : Int))).toNat =
                p0 + line_end rest + 1 := by omega
            obtain ⟨W, hG, hWf, hWt⟩ : ∃ W,
                get_line_loop env fd (fuel + 1) ⟨buf, c, c, false⟩ w =
                  some (some (rest.take (line_end rest) ++ [0]), NO_ERROR, W) ∧
                W.fds = Function.update w.fds fd (some ⟨f, p0 + line_end rest + 1⟩) ∧
                W.trace.filterMap Event.succeeded =
                  true :: true :: true :: w.trace.filterMap Event.succeeded :=
              ⟨_, hstart,
                by simp only [World.record, World.set_pos]; rw [hx, hf2, Function.update_idem],
                by simp only [World.set_pos, World.record, List.filterMap_cons, Event.succeeded,
                  htr]⟩
            refine ⟨true, true, W, [], ⟨_, hal2.symm⟩, ⟨_, hsk.symm⟩, ?_, ?_, ?_, ?_, ?_⟩
            · intro h; cases h
            · intro _ h; omega
            · intro _ _
              exact ⟨fun h => (by cases h), fun _ h => (by cases h), fun _ _ => ⟨hG, hWf, hWt⟩⟩
            · intro _ _ h; exact absurd hfound h
            · intro _ h; exact absurd hfound h
      · rw [if_neg hfound] at hstart
        simp only at hstart
        by_cases hend : rest.length < c + BUF_SIZE_INCREMENT
        · -- the end of the file was reached
          have hmr : m = rest.length := by omega
          have hd : decide (rest.length < c + BUF_SIZE_INCREMENT) = true := by
            rw [decide_eq_true_iff]; exact hend
          rw [hd] at hstart
          simp only [if_true] at hstart
          have hbuf : (resized env buf2 (m + 1)).set m 0 = rest ++ [0] := by
            rw [resized_of_le _ _ _ (by omega), ← List.set_take,
              take_set_succ _ _ _ (by omega), ht2, hmr, List.take_length]
          cases hal2 : env.alloc_ok (w2.record (.scan buf2.length m)).trace.length with
          | false =>
            have hre : sys_realloc env (w2.record (.scan buf2.length m)) buf2 (m + 1) =
                (none, (w2.record (.scan buf2.length m)).record (.realloc (m + 1) false)) := by
              simp [sys_realloc, hal2]
            rw [hre] at hstart
            simp only at hstart
            obtain ⟨W, hG, hWf, hWt⟩ : ∃ W,
                get_line_loop env fd (fuel + 1) ⟨buf, c, c, false⟩ w =
                  some (none, NO_MEMORY, W) ∧
                W.fds = Function.update w.fds fd (some ⟨f, p0 + rest.length⟩) ∧
                W.trace.filterMap Event.succeeded =
                  false :: true :: w.trace.filterMap Event.succeeded :=
              ⟨_, hstart, by simp only [sys_free, World.record]; rw [hf2, hmr],
                by simp only [sys_free, World.record, List.filterMap_cons, Event.succeeded, htr]⟩
            refine ⟨false, env.seek_ok 0, W, [], ⟨_, hal2.symm⟩, ⟨0, rfl⟩, ?_, ?_, ?_, ?_, ?_⟩
            · intro h; cases h
            · intro _ h; omega
            · intro _ h; exact absurd h hfound
            · intro _ _ _ _
              exact ⟨fun _ => ⟨hG, hWf, hWt⟩, fun h => (by cases h)⟩
            · intro _ _ h; omega
          | true =>
            rw [sys_realloc_ok env _ _ _ hal2] at hstart
            simp only at hstart
            rw [hbuf] at hstart
            obtain ⟨W, hG, hWf, hWt⟩ : ∃ W,
                get_line_loop env fd (fuel + 1) ⟨buf, c, c, false⟩ w =
                  some (some (rest ++ [0]), NO_ERROR, W) ∧
                W.fds = Function.update w.fds fd (some ⟨f, p0 + rest.length⟩) ∧
                W.trace.filterMap Event.succeeded =
                  true :: true :: w.trace.filterMap Event.succeeded :=
              ⟨_, hstart, by simp only [World.record]; rw [hf2, hmr],
                by simp only [World.record, List.filterMap_cons, Event.succeeded, htr]⟩
            refine ⟨true, env.seek_ok 0, W, [], ⟨_, hal2.symm⟩, ⟨0, rfl⟩, ?_, ?_, ?_, ?_, ?_⟩
            · intro h; cases h
            · intro _ h; omega
            · intro _ h; exact absurd h hfound
            · intro _ _ _ _
              exact ⟨fun h => (by cases h), fun _ => ⟨hG, hWf, hWt⟩⟩
            · intro _ _ h; omega
        · -- the buffer is full: grow it and read on
          have hmc : m = c + BUF_SIZE_INCREMENT := by omega
          have hd : decide (rest.length < c + BUF_SIZE_INCREMENT) = false := by
            rw [decide_eq_false_iff_not]; exact hend
          rw [hd] at hstart
          simp only [Bool.false_eq_true, if_false] at hstart
          rw [hmc] at ht2 hf2 hstart
          refine ⟨env.alloc_ok 0, env.seek_ok 0,
            w2.record (.scan buf2.length (c + BUF_SIZE_INCREMENT)), buf2, ⟨0, rfl⟩, ⟨0, rfl⟩,
            ?_, ?_, ?_, ?_, ?_⟩
          · intro h; cases h
          · intro _ h; omega
          · intro _ h; exact absurd h hfound
          · intro _ _ _ h; omega
          · intro _ _ _
            refine ⟨hstart, ?_, ?_, hl2, ht2⟩
            · simp only [World.record]; exact hf2
            · simp only [World.record, List.filterMap_cons, Event.succeeded, htr]

theorem outcomes_ne (X H : List Bool) (a b : Bool) (hab : a ≠ b) : X ++ a :: H ≠ b :: H := by
  intro h
  have hl := congrArg List.length h
  simp only [List.length_append, List.length_cons] at hl
  have hX : X = [] := List.length_eq_zero.mp (by omega)
  subst hX
  simp only [List.nil_append, List.cons.injEq, and_true] at h
  exact hab h

/-- A call in which no `read` fails returns, and the first outcome of a
`realloc` or an `lseek` that it adds to the trace is that of its first
`realloc`. -/
theorem get_line_loop_outcomes (env : Env) (hr : ∀ t, env.read_outcome t ≠ .fail) (fd : Int)
    (f : List Byte) (p0 : Nat) (rest : List Byte) (hrs : f.drop p0 = rest) :
    ∀ (fuel : Nat) (buf : List Byte) (c : Nat) (w : World),
      w.fds fd = some ⟨f, p0 + c⟩ → buf.length = c → buf.take c = rest.take c →
      c ≤ rest.length → rest.length - c < fuel →
      ∃ ret err w1 X, get_line_loop env fd fuel ⟨buf, c, c, false⟩ w = some (ret, err, w1) ∧
        w1.trace.filterMap Event.succeeded =
          X ++ env.alloc_ok w.trace.length :: w.trace.filterMap Event.succeeded := by
  intro fuel
  induction fuel with
  | zero => intro buf c w _ _ _ _ h; omega
  | succ fuel ih =>
    intro buf c w hfd hlen htake hc hfuel
    obtain ⟨a2, sk, w1, buf2, _, _, hA, hB, hC, hD, hE⟩ :=
      get_line_loop_pass env hr fd f p0 rest hrs fuel buf c w hfd hlen htake hc
    cases ha : env.alloc_ok w.trace.length with
    | false =>
      obtain ⟨h1, _, h3⟩ := hA ha
      exact ⟨_, _, _, [], h1, by rw [h3]; rfl⟩
    | true =>
      by_cases h0 : rest.length = 0
      · obtain ⟨h1, _, h3⟩ := hB ha h0
        exact ⟨_, _, _, [], h1, by rw [h3]; rfl⟩
      · by_cases hfound : line_end rest < min (c + BUF_SIZE_INCREMENT) rest.length
        · obtain ⟨c1, c2, c3⟩ := hC ha hfound
          cases a2 with
          | false =>
            obtain ⟨h1, _, h3⟩ := c1 rfl
            exact ⟨_, _, _, [false], h1, by rw [h3]; rfl⟩
          | true =>
            cases sk with
            | false =>
              obtain ⟨h1, _, h3⟩ := c2 rfl rfl
              exact ⟨_, _, _, [false, true], h1, by rw [h3]; rfl⟩
            | true =>
              obtain ⟨h1, _, h3⟩ := c3 rfl rfl
              exact ⟨_, _, _, [true, true], h1, by rw [h3]; rfl⟩
        · by_cases hend : rest.length < c + BUF_SIZE_INCREMENT
          · obtain ⟨d1, d2⟩ := hD ha (by omega) hfound hend
            cases a2 with
            | false =>
              obtain ⟨h1, _, h3⟩ := d1 rfl
              exact ⟨_, _, _, [false], h1, by rw [h3]; rfl⟩
            | true =>
              obtain ⟨h1, _, h3⟩ := d2 rfl
              exact ⟨_, _, _, [true], h1, by rw [h3]; rfl⟩
          · obtain ⟨h1, h2, h3, h4, h5⟩ := hE ha hfound (by omega)
            obtain ⟨ret, err, wf, X, hG, hX⟩ := ih buf2 (c + BUF_SIZE_INCREMENT) w1
              (by rw [h2]; simp) h4 h5 (by omega)
              (by simp only [BUF_SIZE_INCREMENT] at *; omega)
            refine ⟨ret, err, wf, X ++ [env.alloc_ok w1.trace.length], by rw [h1]; exact hG, ?_⟩
            rw [hX, h3]
            simp

/-- Two calls on the same file and cursor in which no `read` fails, in two
environments: either they return the same pointer and error number and leave
the same descriptor table, or the outcomes of `realloc` and `lseek` recorded
in the two traces differ, which requires that one of these oracles gives
different answers in the two environments. -/
theorem get_line_loop_lockstep (env env' : Env) (hr : ∀ t, env.read_outcome t ≠ .fail)
    (hr' : ∀ t, env'.read_outcome t ≠ .fail) (fd : Int) (f : List Byte) (p0 : Nat)
    (rest : List Byte) (hrs : f.drop p0 = rest) :
    ∀ (fuel : Nat) (buf buf' : List Byte) (c : Nat) (w w' : World),
      w.fds fd = some ⟨f, p0 + c⟩ → w'.fds = w.fds → buf.length = c → buf'.length = c →
      buf.take c = rest.take c → buf'.take c = rest.take c → c ≤ rest.length →
      rest.length - c < fuel →
      w'.trace.filterMap Event.succeeded = w.trace.filterMap Event.succeeded →
      ∃ ret err w1 ret' err' w1',
        get_line_loop env fd fuel ⟨buf, c, c, false⟩ w = some (ret, err, w1) ∧
        get_line_loop env' fd fuel ⟨buf', c, c, false⟩ w' = some (ret', err', w1') ∧
        ((ret = ret' ∧ err = err' ∧ w1.fds = w1'.fds) ∨
          (w1.trace.filterMap Event.succeeded ≠ w1'.trace.filterMap Event.succeeded ∧
            ∃ t t', env.alloc_ok t ≠ env'.alloc_ok t' ∨ env.seek_ok t ≠ env'.seek_ok t')) := by
  intro fuel
  induction fuel with
  | zero => intro buf buf' c w w' _ _ _ _ _ _ _ h; omega
  | succ fuel ih =>
    intro buf buf' c w w' hfd hw hlen hlen' htake htake' hc hfuel hH
    have hfd' : w'.fds fd = some ⟨f, p0 + c⟩ := by rw [hw]; exact hfd
    obtain ⟨a2, sk, w1, buf2, ⟨t2, ht2⟩, ⟨t3, ht3⟩, hA, hB, hC, hD, hE⟩ :=
      get_line_loop_pass env hr fd f p0 rest hrs fuel buf c w hfd hlen htake hc
    obtain ⟨a2', sk', w1', buf2', ⟨t2', ht2'⟩, ⟨t3', ht3'⟩, hA', hB', hC', hD', hE'⟩ :=
      get_line_loop_pass env' hr' fd f p0 rest hrs fuel buf' c w' hfd' hlen' htake' hc
    rw [hw, hH] at hA' hB' hC' hD' hE'
    have hdiff : ∀ (v v' : World) (L L' : List Bool),
        v.trace.filterMap Event.succeeded = L ++ w.trace.filterMap Event.succeeded →
        v'.trace.filterMap Event.succeeded = L' ++ w.trace.filterMap Event.succeeded →
        L ≠ L' →
        v.trace.filterMap Event.succeeded ≠ v'.trace.filterMap Event.succeeded := by
      intro v v' L L' h1 h2 hne h
      rw [h1, h2] at h
      exact hne (List.append_cancel_right h)
    cases ha : env.alloc_ok w.trace.length <;> cases ha' : env'.alloc_ok w'.trace.length
    · obtain ⟨h1, h2, _⟩ := hA ha
      obtain ⟨h1', h2', _⟩ := hA' ha'
      exact ⟨_, _, _, _, _, _, h1, h1', Or.inl ⟨rfl, rfl, by rw [h2, h2']⟩⟩
    · obtain ⟨h1, _, h3⟩ := hA ha
      obtain ⟨ret', err', wf', X, hG', hX'⟩ := get_line_loop_outcomes env' hr' fd f p0 rest hrs
        (fuel + 1) buf' c w' hfd' hlen' htake' hc hfuel
      rw [ha', hH] at hX'
      refine ⟨_, _, _, _, _, _, h1, hG', Or.inr ⟨?_, w.trace.length, w'.trace.length,
        Or.inl (by rw [ha, ha']; decide)⟩⟩
      rw [h3, hX']
      exact (outcomes_ne X _ true false (by decide)).symm
    · obtain ⟨h1', _, h3'⟩ := hA' ha'
      obtain ⟨ret, err, wf, X, hG, hX⟩ := get_line_loop_outcomes env hr fd f p0 rest hrs
        (fuel + 1) buf c w hfd hlen htake hc hfuel
      rw [ha] at hX
      refine ⟨_, _, _, _, _, _, hG, h1', Or.inr ⟨?_, w.trace.length, w'.trace.length,
        Or.inl (by rw [ha, ha']; decide)⟩⟩
      rw [h3', hX]
      exact outcomes_ne X _ true false (by decide)
    · by_cases h0 : rest.length = 0
      · obtain ⟨h1, h2, _⟩ := hB ha h0
        obtain ⟨h1', h2', _⟩ := hB' ha' h0
        exact ⟨_, _, _, _, _, _, h1, h1', Or.inl ⟨rfl, rfl, by rw [h2, h2']⟩⟩
      · by_cases hfound : line_end rest < min (c + BUF_SIZE_INCREMENT) rest.length
        · obtain ⟨c1, c2, c3⟩ := hC ha hfound
          obtain ⟨c1', c2', c3'⟩ := hC' ha' hfound
          cases a2 with
          | false =>
            obtain ⟨h1, h2, h3⟩ := c1 rfl
            cases a2' with
            | false =>
              obtain ⟨h1', h2', _⟩ := c1' rfl
              exact ⟨_, _, _, _, _, _, h1, h1', Or.inl ⟨rfl, rfl, by rw [h2, h2']⟩⟩
            | true =>
              have hor : ∃ t t', env.alloc_ok t ≠ env'.alloc_ok t' ∨
                  env.seek_ok t ≠ env'.seek_ok t' :=
                ⟨t2, t2', Or.inl (by rw [← ht2, ← ht2']; decide)⟩
              cases sk' with
              | false =>
                obtain ⟨h1', _, h3'⟩ := c2' rfl rfl
                exact ⟨_, _, _, _, _, _, h1, h1', Or.inr
                  ⟨hdiff _ _ [false, true] [false, true, true] h3 h3' (by decide), hor⟩⟩
              | true =>
                obtain ⟨h1', _, h3'⟩ := c3' rfl rfl
                exact ⟨_, _, _, _, _, _, h1, h1', Or.inr
                  ⟨hdiff _ _ [false, true] [true, true, true] h3 h3' (by decide), hor⟩⟩
          | true =>
            cases a2' with
            | false =>
              obtain ⟨h1', _, h3'⟩ := c1' rfl
              have hor : ∃ t t', env.alloc_ok t ≠ env'.alloc_ok t' ∨
                  env.seek_ok t ≠ env'.seek_ok t' :=
                ⟨t2, t2', Or.inl (by rw [← ht2, ← ht2']; decide)⟩
              cases sk with
              | false =>
                obtain ⟨h1, _, h3⟩ := c2 rfl rfl
                exact ⟨_, _, _, _, _, _, h1, h1', Or.inr
                  ⟨hdiff _ _ [false, true, true] [false, true] h3 h3' (by decide), hor⟩⟩
              | true =>
                obtain ⟨h1, _, h3⟩ := c3 rfl rfl
                exact ⟨_, _, _, _, _, _, h1, h1', Or.inr
                  ⟨hdiff _ _ [true, true, true] [false, true] h3 h3' (by decide), hor⟩⟩
            | true =>
              cases sk <;> cases sk'
              · obtain ⟨h1, h2, _⟩ := c2 rfl rfl
                obtain ⟨h1', h2', _⟩ := c2' rfl rfl
                exact ⟨_, _, _, _, _, _, h1, h1', Or.inl ⟨rfl, rfl, by rw [h2, h2']⟩⟩
              · obtain ⟨h1, _, h3⟩ := c2 rfl rfl
                obtain ⟨h1', _, h3'⟩ := c3' rfl rfl
                exact ⟨_, _, _, _, _, _, h1, h1', Or.inr
                  ⟨hdiff _ _ [false, true, true] [true, true, true] h3 h3' (by decide),
                    t3, t3', Or.inr (by rw [← ht3, ← ht3']; decide)⟩⟩
              · obtain ⟨h1, _, h3⟩ := c3 rfl rfl
                obtain ⟨h1', _, h3'⟩ := c2' rfl rfl
                exact ⟨_, _, _, _, _, _, h1, h1', Or.inr
                  ⟨hdiff _ _ [true, true, true] [false, true, true] h3 h3' (by decide),
                    t3, t3', Or.inr (by rw [← ht3, ← ht3']; decide)⟩⟩
              · obtain ⟨h1, h2, _⟩ := c3 rfl rfl
                obtain ⟨h1', h2', _⟩ := c3' rfl rfl
                exact ⟨_, _, _, _, _, _, h1, h1', Or.inl ⟨rfl, rfl, by rw [h2, h2']⟩⟩
        · by_cases hend : rest.length < c + BUF_SIZE_INCREMENT
          · obtain ⟨d1, d2⟩ := hD ha (by omega) hfound hend
            obtain ⟨d1', d2'⟩ := hD' ha' (by omega) hfound hend
            cases a2 <;> cases a2'
            · obtain ⟨h1, h2, _⟩ := d1 rfl
              obtain ⟨h1', h2', _⟩ := d1' rfl
              exact ⟨_, _, _, _, _, _, h1, h1', Or.inl ⟨rfl, rfl, by rw [h2, h2']⟩⟩
            · obtain ⟨h1, _, h3⟩ := d1 rfl
              obtain ⟨h1', _, h3'⟩ := d2' rfl
              exact ⟨_, _, _, _, _, _, h1, h1', Or.inr
                ⟨hdiff _ _ [false, true] [true, true] h3 h3' (by decide),
                  t2, t2', Or.inl (by rw [← ht2, ← ht2']; decide)⟩⟩
            · obtain ⟨h1, _, h3⟩ := d2 rfl
              obtain ⟨h1', _, h3'⟩ := d1' rfl
              exact ⟨_, _, _, _, _, _, h1, h1', Or.inr
                ⟨hdiff _ _ [true, true] [false, true] h3 h3' (by decide),
                  t2, t2', Or.inl (by rw [← ht2, ← ht2']; decide)⟩⟩
            · obtain ⟨h1, h2, _⟩ := d2 rfl
              obtain ⟨h1', h2', _⟩ := d2' rfl
              exact ⟨_, _, _, _, _, _, h1, h1', Or.inl ⟨rfl, rfl, by rw [h2, h2']⟩⟩
          · obtain ⟨h1, h2, h3, h4, h5⟩ := hE ha hfound (by omega)
            obtain ⟨h1', h2', h3', h4', h5'⟩ := hE' ha' hfound (by omega)
            obtain ⟨ret, err, wf, ret', err', wf', hG, hG', hor⟩ :=
              ih buf2 buf2' (c + BUF_SIZE_INCREMENT) w1 w1'
                (by rw [h2]; simp) (by rw [h2, h2']) h4 h4' h5 h5' (by omega)
                (by simp only [BUF_SIZE_INCREMENT] at *; omega) (by rw [h3, h3'])
            exact ⟨ret, err, wf, ret', err', wf', by rw [h1]; exact hG, by rw [h1']; exact hG',
              hor⟩

/-- C17: for every file content and cursor, take two environments in which
no `read` fails, so that every `read` delivers any number of bytes between one
and the number asked for while bytes remain, and none only at the end of the
file; in particular the second may deliver every `read` in full.  The two
calls return, and they return the same line, leave the same cursor and set the
same error number whenever the calls of `realloc` and `lseek` have had the
same outcomes in both (the oracles are indexed by the number of operations, on
which the split of the reads bears); this is so in particular when the answers
of the `realloc` and `lseek` oracles do not depend on the time and are the same
in both environments, whether they succeed or fail. -/
theorem C17_read_split_independent (env env' : Env)
    (hread : ∀ t, env.read_outcome t ≠ .fail) (hread' : ∀ t, env'.read_outcome t ≠ .fail)
    (fd : Int) (e : Int) (w : World) (f : List Byte) (p : Nat)
    (hfd : w.fds fd = some ⟨f, p⟩) :
    ∃ (r r' : Ret) (new new' : List Event),
      get_line_from_file env fd (some e) w = some r ∧ r.world.trace = new ++ w.trace ∧
      get_line_from_file env' fd (some e) w = some r' ∧ r'.world.trace = new' ++ w.trace ∧
      (new.filterMap Event.succeeded = new'.filterMap Event.succeeded →
        r.line = r'.line ∧ r.error_num = r'.error_num ∧ r.world.fds = r'.world.fds) ∧
      ((∀ t t', env.alloc_ok t = env'.alloc_ok t') → (∀ t t', env.seek_ok t = env'.seek_ok t') →
        r.line = r'.line ∧ r.error_num = r'.error_num ∧ r.world.fds = r'.world.fds) := by
  by_cases hneg : fd < 0
  · have h1 : get_line_from_file env fd (some e) w =
        some ⟨none, some INVALID_FD, w.printf .fd_less_than_zero⟩ := by
      unfold get_line_from_file
      simp only
      rw [if_pos hneg]
    have h2 : get_line_from_file env' fd (some e) w =
        some ⟨none, some INVALID_FD, w.printf .fd_less_than_zero⟩ := by
      unfold get_line_from_file
      simp only
      rw [if_pos hneg]
    exact ⟨_, _, [], [], h1, rfl, h2, rfl, fun _ => ⟨rfl, rfl, rfl⟩, fun _ _ => ⟨rfl, rfl, rfl⟩⟩
  · have hrem : w.remaining fd = (f.drop p).length := by
      simp [World.remaining, hfd]
    obtain ⟨ret, err, w1, ret', err', w1', hG, hG', hor⟩ :=
      get_line_loop_lockstep env env' hread hread' fd f p (f.drop p) rfl
        (w.remaining fd + 1) [] [] 0 w w (by simpa using hfd) rfl rfl rfl rfl rfl
        (Nat.zero_le _) (by omega) rfl
    obtain ⟨new, htr, _⟩ := get_line_loop_trace env fd _ [] 0 w ret err w1 rfl rfl
      (by intro j hj; omega) hG
    obtain ⟨new', htr', _⟩ := get_line_loop_trace env' fd _ [] 0 w ret' err' w1' rfl rfl
      (by intro j hj; omega) hG'
    have h1 : get_line_from_file env fd (some e) w = some ⟨ret, some err, w1⟩ := by
      unfold get_line_from_file
      simp only
      rw [if_neg hneg, hG]
    have h2 : get_line_from_file env' fd (some e) w = some ⟨ret', some err', w1'⟩ := by
      unfold get_line_from_file
      simp only
      rw [if_neg hneg, hG']
    refine ⟨_, _, new, new', h1, htr, h2, htr', ?_, ?_⟩
    · intro hseq
      rcases hor with h | ⟨hne, _⟩
      · exact ⟨h.1, by rw [h.2.1], h.2.2⟩
      · exfalso
        apply hne
        rw [htr, htr', List.filterMap_append, List.filterMap_append, hseq]
    · intro ha hs
      rcases hor with h | ⟨_, t, t', h | h⟩
      · exact ⟨h.1, by rw [h.2.1], h.2.2⟩
      · exact absurd (ha t t') h
      · exact absurd (hs t t') h

/-- Reads of at most two bytes on the file `ab\ncd` when every `lseek` fails:
the call returns `NULL` with `FILE_LSEEK_ERROR` and leaves the cursor at 5,
after two successful calls of `realloc` and the failed `lseek`. -/
theorem get_line_short_reads :
    (get_line_from_file ⟨fun _ => .short 1, fun _ => true, fun _ => false, fun _ => 0, 3⟩ 3
      (some 0) (World.single 3 [97, 98, 10, 99, 100] 0)).map
      (fun r => (r.line, r.error_num, r.world.fds 3,
        r.world.trace.filterMap Event.succeeded)) =
      some (none, some FILE_LSEEK_ERROR, some ⟨[97, 98, 10, 99, 100], 5⟩,
        [false, true, true]) := by
  decide

/-- Full reads on the file `ab\ncd` when every `lseek` fails: the call returns
`NULL` with `FILE_LSEEK_ERROR` and leaves the cursor at 5, after two
successful calls of `realloc` and the failed `lseek`. -/
theorem get_line_full_reads :
    (get_line_from_file ⟨fun _ => .full, fun _ => true, fun _ => false, fun _ => 0, 3⟩ 3
      (some 0) (World.single 3 [97, 98, 10, 99, 100] 0)).map
      (fun r => (r.line, r.error_num, r.world.fds 3,
        r.world.trace.filterMap Event.succeeded)) =
      some (none, some FILE_LSEEK_ERROR, some ⟨[97, 98, 10, 99, 100], 5⟩,
        [false, true, true]) := by
  decide

/-- C17 at the file `ab\ncd` when every `lseek` fails, with reads of at most
two bytes against full reads: both calls return `NULL` with
`FILE_LSEEK_ERROR` and leave the cursor at 5. -/
theorem C17_read_split_independent_witness :
    (∀ t, (⟨fun _ => .short 1, fun _ => true, fun _ => false, fun _ => 0, 3⟩ : Env).read_outcome t
      ≠ .fail) ∧
    (∀ t, (⟨fun _ => .full, fun _ => true, fun _ => false, fun _ => 0, 3⟩ : Env).read_outcome t
      ≠ .fail) ∧
    (World.single 3 [97, 98, 10, 99, 100] 0).fds 3 = some ⟨[97, 98, 10, 99, 100], 0⟩ ∧
    (get_line_from_file ⟨fun _ => .short 1, fun _ => true, fun _ => false, fun _ => 0, 3⟩ 3
      (some 0) (World.single 3 [97, 98, 10, 99, 100] 0)).map
      (fun r => (r.line, r.error_num, r.world.fds 3,
        r.world.trace.filterMap Event.succeeded)) =
      some (none, some FILE_LSEEK_ERROR, some ⟨[97, 98, 10, 99, 100], 5⟩,
        [false, true, true]) ∧
    (get_line_from_file ⟨fun _ => .full, fun _ => true, fun _ => false, fun _ => 0, 3⟩ 3
      (some 0) (World.single 3 [97, 98, 10, 99, 100] 0)).map
      (fun r => (r.line, r.error_num, r.world.fds 3,
        r.world.trace.filterMap Event.succeeded)) =
      some (none, some FILE_LSEEK_ERROR, some ⟨[97, 98, 10, 99, 100], 5⟩,
        [false, true, true]) ∧
    ∃ (r r' : Ret) (new new' : List Event),
      get_line_from_file ⟨fun _ => .short 1, fun _ => true, fun _ => false, fun _ => 0, 3⟩ 3
        (some 0) (World.single 3 [97, 98, 10, 99, 100] 0) = some r ∧
      r.world.trace = new ++ (World.single 3 [97, 98, 10, 99, 100] 0).trace ∧
      get_line_from_file ⟨fun _ => .full, fun _ => true, fun _ => false, fun _ => 0, 3⟩ 3
        (some 0) (World.single 3 [97, 98, 10, 99, 100] 0) = some r' ∧
      r'.world.trace = new' ++ (World.single 3 [97, 98, 10, 99, 100] 0).trace ∧
      (new.filterMap Event.succeeded = new'.filterMap Event.succeeded →
        r.line = r'.line ∧ r.error_num = r'.error_num ∧ r.world.fds = r'.world.fds) ∧
      ((∀ t t', (⟨fun _ => .short 1, fun _ => true, fun _ => false, fun _ => 0, 3⟩ : Env).alloc_ok t
          = (⟨fun _ => .full, fun _ => true, fun _ => false, fun _ => 0, 3⟩ : Env).alloc_ok t') →
        (∀ t t', (⟨fun _ => .short 1, fun _ => true, fun _ => false, fun _ => 0, 3⟩ : Env).seek_ok t
          = (⟨fun _ => .full, fun _ => true, fun _ => false, fun _ => 0, 3⟩ : Env).seek_ok t') →
        r.line = r'.line ∧ r.error_num = r'.error_num ∧ r.world.fds = r'.world.fds) :=
  ⟨fun _ => by simp, fun _ => by simp, rfl, get_line_short_reads, get_line_full_reads,
    C17_read_split_independent ⟨fun _ => .short 1, fun _ => true, fun _ => false, fun _ => 0, 3⟩
      ⟨fun _ => .full, fun _ => true, fun _ => false, fun _ => 0, 3⟩
      (fun _ => by simp) (fun _ => by simp) 3 0
      (World.single 3 [97, 98, 10, 99, 100] 0) [97, 98, 10, 99, 100] 0 rfl⟩

/-! ## C18: the error number and the returned pointer -/

/-- C18: in every environment, a call with a pointer `error_num` that is not
`NULL` returns; when it returns a line, `*error_num` is `NO_ERROR`; when
`*error_num` is not 0 after the call, the call has returned `NULL`; and when
the loop of `main` ends, the error number that `main` holds is the one set by
the last call, which returned `NULL`. -/
theorem C18_error_num_and_line (env : Env) (fd : Int) (e : Int) (w : World) :
    (∃ r : Ret, get_line_from_file env fd (some e) w = some r ∧
      (r.line ≠ none → r.error_num = some NO_ERROR) ∧
      (∀ v, r.error_num = some v → v ≠ 0 → r.line = none)) ∧
    (∀ (fuel : Nat) (m m' : MainLocals) (w' : World),
      main_loop env fd fuel m w = some (m', w') →
      ∃ (e0 : Int) (w0 : World) (r : Ret),
        get_line_from_file env fd (some e0) w0 = some r ∧ r.line = none ∧
          r.error_num = some m'.error_num ∧ r.world = w') := by
  constructor
  · obtain ⟨r, he, _, hcase⟩ :=
      get_line_from_file_total env fd (fun _ => True) e w (fun _ _ _ _ => trivial)
    refine ⟨r, he, ?_, ?_⟩
    · intro hne
      rcases hcase with ⟨h1, _⟩ | ⟨h1, _⟩ | ⟨_, _, h2, _⟩
      · exact absurd h1 hne
      · exact absurd h1 hne
      · exact h2
    · intro v hv hv0
      rcases hcase with ⟨h1, _⟩ | ⟨h1, _⟩ | ⟨_, _, h2, _⟩
      · exact h1
      · exact h1
      · rw [h2] at hv
        cases hv
        exact absurd rfl hv0
  · intro fuel m m' w' h
    exact main_loop_last_call env fd fuel m w m' w' h

/-- C18 at the file `ab\ncd`: with an `lseek` that fails, the call returns
`NULL` with `FILE_LSEEK_ERROR` and the loop of `main` ends with that number;
with no failure the call returns a line with `NO_ERROR`. -/
theorem C18_error_num_and_line_witness :
    (get_line_from_file Env.seek_fails 3 (some 0)
      (World.single 3 [97, 98, 10, 99, 100] 0)).map (fun r => (r.line, r.error_num)) =
      some (none, some FILE_LSEEK_ERROR) ∧
    (get_line_from_file (Env.ideal 0 3) 3 (some 7)
      (World.single 3 [97, 98, 10, 99, 100] 0)).map (fun r => (r.line, r.error_num)) =
      some (some [97, 98, 0], some NO_ERROR) ∧
    (main_loop Env.seek_fails 3 2 ⟨0, 0, 0⟩ (World.single 3 [97, 98, 10, 99, 100] 0)).map
      (fun r => r.1) = some ⟨0, 0, FILE_LSEEK_ERROR⟩ ∧
    ∃ r : Ret, get_line_from_file Env.seek_fails 3 (some 0)
        (World.single 3 [97, 98, 10, 99, 100] 0) = some r ∧
      (r.line ≠ none → r.error_num = some NO_ERROR) ∧
      (∀ v, r.error_num = some v → v ≠ 0 → r.line = none) :=
  ⟨by decide, by decide, by decide,
    (C18_error_num_and_line Env.seek_fails 3 0 (World.single 3 [97, 98, 10, 99, 100] 0)).1⟩

/-! ## The lines that the loop of `main` receives -/

theorem main_loop_lines_snd (env : Env) (fd : Int) :
    ∀ (fuel : Nat) (m : MainLocals) (w : World),
      (main_loop_lines env fd fuel m w).map (fun r => r.2) = main_loop env fd fuel m w := by
  intro fuel
  induction fuel with
  | zero => intro m w; rfl
  | succ fuel ih =>
    intro m w
    rw [main_loop_lines, main_loop]
    cases hc : get_line_from_file env fd (some m.error_num) w with
    | none => rfl
    | some r =>
      simp only
      cases hl : r.line with
      | none => rfl
      | some line =>
        simp only
        split
        · rw [← ih]
          cases main_loop_lines env fd fuel ⟨m.line_num + 1, m.printed + 1,
            r.error_num.getD m.error_num⟩
            ((r.world.printf (.over_length (m.line_num + 1))).record .free) <;> rfl
        · rw [← ih]
          cases main_loop_lines env fd fuel ⟨m.line_num + 1, m.printed,
            r.error_num.getD m.error_num⟩ (r.world.record .free) <;> rfl

/-- In any environment, the loop of `main` counts the buffers it receives,
each of which ends with the sentinel, and prints the over-length message for
those that pass the `strnlen` test, numbered by their rank. -/
theorem main_loop_lines_out (env : Env) (fd : Int) (hfd0 : 0 ≤ fd) :
    ∀ (fuel : Nat) (m : MainLocals) (w : World) (lines : List (List Byte))
      (m' : MainLocals) (w' : World),
      main_loop_lines env fd fuel m w = some (lines, m', w') →
      m'.line_num = m.line_num + lines.length ∧
      (∀ line ∈ lines, ∃ bytes, line = bytes ++ [0]) ∧
      w'.out = w.out ++
        (reported_lines m.line_num (lines.map List.dropLast)).map Msg.over_length := by
  intro fuel
  induction fuel with
  | zero => intro m w lines m' w' h; cases h
  | succ fuel ih =>
    intro m w lines m' w' h
    rw [main_loop_lines] at h
    cases hc : get_line_from_file env fd (some m.error_num) w with
    | none => rw [hc] at h; cases h
    | some r =>
      rw [hc] at h
      simp only at h
      have ho := get_line_from_file_out env fd hfd0 m.error_num w r hc
      obtain ⟨r0, he0, _, hcase⟩ := get_line_from_file_total env fd (fun _ => True)
        m.error_num w (fun _ _ _ _ => trivial)
      rw [hc] at he0
      cases he0
      cases hl : r.line with
      | none =>
        rw [hl] at h
        simp only [Option.some.injEq, Prod.mk.injEq] at h
        obtain ⟨h1, h2, h3⟩ := h
        subst h1 h2 h3
        exact ⟨by simp, by simp, by simp [reported_lines, ho]⟩
      | some line =>
        have hbytes : ∃ bytes, line = bytes ++ [0] := by
          rcases hcase with ⟨h1, _⟩ | ⟨h1, _⟩ | ⟨bytes, h1, _⟩
          · rw [hl] at h1; cases h1
          · rw [hl] at h1; cases h1
          · rw [hl] at h1; exact ⟨bytes, Option.some.inj h1⟩
        obtain ⟨bytes, hb⟩ := hbytes
        have hdl : line.dropLast ++ [0] = line := by rw [hb]; simp
        rw [hl] at h
        simp only at h
        by_cases htest : strnlen line 81 = 81
        · rw [if_pos htest] at h
          cases hrec : main_loop_lines env fd fuel ⟨m.line_num + 1, m.printed + 1,
              r.error_num.getD m.error_num⟩
              ((r.world.printf (.over_length (m.line_num + 1))).record .free) with
          | none => rw [hrec] at h; cases h
          | some res =>
            obtain ⟨ls, m2, w2⟩ := res
            rw [hrec] at h
            simp only [Option.some.injEq, Prod.mk.injEq] at h
            obtain ⟨h1, h2, h3⟩ := h
            subst h1 h2 h3
            obtain ⟨i1, i2, i3⟩ := ih _ _ _ _ _ hrec
            simp only at i1 i3
            refine ⟨by rw [i1, List.length_cons]; omega, ?_, ?_⟩
            · intro l hmem
              rcases List.mem_cons.mp hmem with rfl | hmem
              · exact ⟨bytes, hb⟩
              · exact i2 l hmem
            · rw [i3, List.map_cons, reported_lines, hdl, if_pos htest]
              simp [World.record, World.printf, ho]
        · rw [if_neg htest] at h
          cases hrec : main_loop_lines env fd fuel ⟨m.line_num + 1, m.printed,
              r.error_num.getD m.error_num⟩ (r.world.record .free) with
          | none => rw [hrec] at h; cases h
          | some res =>
            obtain ⟨ls, m2, w2⟩ := res
            rw [hrec] at h
            simp only [Option.some.injEq, Prod.mk.injEq] at h
            obtain ⟨h1, h2, h3⟩ := h
            subst h1 h2 h3
            obtain ⟨i1, i2, i3⟩ := ih _ _ _ _ _ hrec
            simp only at i1 i3
            refine ⟨by rw [i1, List.length_cons]; omega, ?_, ?_⟩
            · intro l hmem
              rcases List.mem_cons.mp hmem with rfl | hmem
              · exact ⟨bytes, hb⟩
              · exact i2 l hmem
            · rw [i3, List.map_cons, reported_lines, hdl, if_neg htest]
              simp [World.record, ho]

/-! ## C14: the `strnlen` test on arbitrary bytes -/

/-- C14: in every environment, when the loop of `main` ends it has printed
the over-length message with the number `N` exactly when the `N`-th buffer
that the calls have returned, counted among all of them, has at least 81 bytes
before its sentinel and no 0 byte among the first 81; the messages come in
increasing order of `N`.  And on every file content read without failure the
returned lines are the logical lines of the file: `main` reports `N` exactly
when the `N`-th logical line has at least 81 bytes and no 0 byte among the
first 81. -/
theorem C14_strnlen_test (env : Env) (fuel : Nat) :
    (∀ (fd : Int) (w : World) (m m' : MainLocals) (w' : World), 0 ≤ fd →
      main_loop env fd fuel m w = some (m', w') →
      ∃ (lines : List (List Byte)) (Ns : List Nat),
        main_loop_lines env fd fuel m w = some (lines, m', w') ∧
        w'.out = w.out ++ Ns.map Msg.over_length ∧ Ns.Pairwise (fun a b => a < b) ∧
        ∀ N, N ∈ Ns ↔ m.line_num < N ∧ ∃ bytes,
          lines[N - m.line_num - 1]? = some (bytes ++ [0]) ∧
          81 ≤ bytes.length ∧ ∀ b ∈ bytes.take 81, b ≠ 0) ∧
    (∀ (w : World) (prog path : String) (f : List Byte), env.no_failure →
      w.fs path = some f → f.length < fuel →
      ∃ (Ns : List Nat) (w' : World), main env fuel [prog, path] w = some (0, w') ∧
        w'.out = w.out ++ [Msg.blank] ++ Ns.map Msg.over_length ++
          [if Ns.length = 0 then Msg.no_lines else Msg.total Ns.length] ∧
        Ns.Pairwise (fun a b => a < b) ∧
        (∀ N, N ∈ Ns ↔ 1 ≤ N ∧ ∃ l, (logical_lines f)[N - 1]? = some l ∧
          81 ≤ l.length ∧ ∀ b ∈ l.take 81, b ≠ 0)) := by
  constructor
  · intro fd w m m' w' hfd0 h
    have hsnd := main_loop_lines_snd env fd fuel m w
    rw [h] at hsnd
    cases hml : main_loop_lines env fd fuel m w with
    | none => rw [hml] at hsnd; cases hsnd
    | some res =>
      obtain ⟨lines, m2, w2⟩ := res
      rw [hml] at hsnd
      simp only [Option.map_some', Option.some.injEq, Prod.mk.injEq] at hsnd
      obtain ⟨h1, h2⟩ := hsnd
      subst h1 h2
      obtain ⟨_, hsent, hout⟩ := main_loop_lines_out env fd hfd0 fuel m w lines _ _ hml
      refine ⟨lines, reported_lines m.line_num (lines.map List.dropLast), rfl, hout,
        pairwise_reported_lines _ _, ?_⟩
      intro N
      rw [mem_reported_lines]
      simp only [strnlen_eq_iff, List.getElem?_map]
      constructor
      · rintro ⟨h1, l, h2, h3⟩
        refine ⟨h1, ?_⟩
        cases hget : lines[N - m.line_num - 1]? with
        | none => rw [hget] at h2; cases h2
        | some line =>
          rw [hget] at h2
          simp only [Option.map_some', Option.some.injEq] at h2
          obtain ⟨bytes, hb⟩ := hsent line (List.getElem?_mem hget)
          subst hb
          simp only [List.dropLast_concat] at h2
          subst h2
          exact ⟨bytes, rfl, h3⟩
      · rintro ⟨h1, bytes, h2, h3⟩
        refine ⟨h1, bytes, ?_, h3⟩
        rw [h2]
        simp
  · intro w prog path f henv hfs hfuel
    have hb := length_logical_lines_le f
    obtain ⟨w', he, ho⟩ := main_run env henv w prog path f hfs fuel (by omega)
    refine ⟨reported_lines 0 (logical_lines f), w', he, ho, pairwise_reported_lines _ _, ?_⟩
    intro N
    rw [mem_reported_lines]
    simp only [Nat.sub_zero, strnlen_eq_iff]
    constructor
    · rintro ⟨h1, h2⟩; exact ⟨h1, h2⟩
    · rintro ⟨h1, h2⟩; exact ⟨h1, h2⟩

theorem reported_lines_with_nul : reported_lines 0 (logical_lines lines_with_nul) = [1] := by
  decide

/-- C14 on three lines, of 81 bytes, of 82 bytes that start with a 0 byte, and
of 80 bytes: only line 1 is reported. -/
theorem C14_strnlen_test_witness :
    (Env.ideal 0 3).no_failure ∧
    (World.with_file "a.txt" lines_with_nul).fs "a.txt" = some lines_with_nul ∧
    lines_with_nul.length < 300 ∧
    ∃ w' : World,
      main (Env.ideal 0 3) 300 ["prog", "a.txt"] (World.with_file "a.txt" lines_with_nul) =
        some (0, w') ∧
      w'.out = [Msg.blank, Msg.over_length 1, Msg.total 1] := by
  refine ⟨⟨fun _ => by simp [Env.ideal], fun _ => rfl, fun _ => rfl⟩, by simp [World.with_file],
    by decide, ?_⟩
  obtain ⟨Ns, w', he, ho, hp, hmem⟩ := (C14_strnlen_test (Env.ideal 0 3) 300).2
    (World.with_file "a.txt" lines_with_nul) "prog" "a.txt" lines_with_nul
    ⟨fun _ => by simp [Env.ideal], fun _ => rfl, fun _ => rfl⟩
    (by simp [World.with_file]) (by decide)
  have hNs : Ns = [1] := by
    have hperm : Ns.Perm [1] := by
      rw [List.perm_ext_iff_of_nodup hp.nodup (by decide)]
      intro N
      rw [hmem N, ← reported_lines_with_nul, mem_reported_lines]
      simp only [Nat.sub_zero, strnlen_eq_iff]
      constructor
      · rintro ⟨h1, h2⟩; exact ⟨h1, h2⟩
      · rintro ⟨h1, h2⟩; exact ⟨h1, h2⟩
    exact List.eq_of_perm_of_sorted hperm hp (by decide)
  subst hNs
  exact ⟨w', he, by rw [ho]; rfl⟩

/-! ## C13: the summary after a failure -/

/-- C13: in every environment, when `main` gets past the `open` and its loop
ends, the loop has received the buffers `lines` and has ended on a call that
returned `NULL`, whose error number `main` holds afterwards.  Up to there
`main` has printed the blank line and the over-length message for exactly the
numbers `N` such that the `N`-th of these buffers passes the test of the
driver (at least 81 bytes before the sentinel, no 0 byte among the first 81;
that is, more than 80 bytes when the buffers hold no 0 byte before the
sentinel).  It then prints the summary with the number `K` of these lines, or
the message `No lines` when `K = 0`, and after it the diagnostic with the
error number of the last call exactly when this number is not 0. -/
theorem C13_summary_after_failure (env : Env) (fuel : Nat) (w : World)
    (prog path : String) (f : List Byte) (hfs : w.fs path = some f)
    (out : List Msg)
    (hrun : (main env fuel [prog, path] w).map (fun r => r.2.out) = some out) :
    ∃ (lines : List (List Byte)) (m : MainLocals) (w2 : World) (Ns : List Nat)
        (e0 : Int) (w0 : World) (r : Ret),
      main_loop_lines env (env.open_fd : Int) fuel ⟨0, 0, 0⟩
        ((sys_open env w path).2.printf .blank) = some (lines, m, w2) ∧
      get_line_from_file env (env.open_fd : Int) (some e0) w0 = some r ∧ r.line = none ∧
      r.error_num = some m.error_num ∧ r.world = w2 ∧ w0.out = w2.out ∧
      m.line_num = lines.length ∧ m.printed = Ns.length ∧
      Ns.Pairwise (fun a b => a < b) ∧
      (∀ N, N ∈ Ns ↔ 1 ≤ N ∧ ∃ bytes, lines[N - 1]? = some (bytes ++ [0]) ∧
        81 ≤ bytes.length ∧ ∀ b ∈ bytes.take 81, b ≠ 0) ∧
      ((∀ line ∈ lines, ∀ b ∈ line.dropLast, b ≠ 0) →
        ∀ N, N ∈ Ns ↔ 1 ≤ N ∧ ∃ bytes, lines[N - 1]? = some (bytes ++ [0]) ∧
          80 < bytes.length) ∧
      w2.out = w.out ++ [Msg.blank] ++ Ns.map Msg.over_length ∧
      out = w2.out ++ [if Ns.length = 0 then Msg.no_lines else Msg.total Ns.length] ++
        (if m.error_num ≠ 0 then [Msg.error_happened m.error_num] else []) := by
  simp only [main, sys_open, hfs] at hrun ⊢
  have hfd0 : ¬ ((env.open_fd : Int) < 0) := by omega
  rw [if_neg hfd0] at hrun
  generalize hW : (World.printf
        { w with fds := Function.update w.fds (env.open_fd : Int) (some ⟨f, 0⟩),
                 trace := .opened path env.open_fd :: w.trace } .blank) = W at hrun ⊢
  have hWout : W.out = w.out ++ [Msg.blank] := by rw [← hW]; rfl
  cases hloop : main_loop env (env.open_fd : Int) fuel ⟨0, 0, 0⟩ W with
  | none => rw [hloop] at hrun; cases hrun
  | some res =>
    obtain ⟨m, w2⟩ := res
    rw [hloop] at hrun
    simp only [Option.map_some', Option.some.injEq] at hrun
    have hsnd := main_loop_lines_snd env (env.open_fd : Int) fuel ⟨0, 0, 0⟩ W
    rw [hloop] at hsnd
    cases hml : main_loop_lines env (env.open_fd : Int) fuel ⟨0, 0, 0⟩ W with
    | none => rw [hml] at hsnd; cases hsnd
    | some res2 =>
      obtain ⟨lines, m2, w3⟩ := res2
      rw [hml] at hsnd
      simp only [Option.map_some', Option.some.injEq, Prod.mk.injEq] at hsnd
      obtain ⟨e1, e2⟩ := hsnd
      subst e1 e2
      obtain ⟨e0, w0, r, hc, hl, her, hrw⟩ := main_loop_last_call env _ _ _ _ _ _ hloop
      have hro := get_line_from_file_out env _ (by omega) e0 w0 r hc
      obtain ⟨hln, hsent, hout⟩ :=
        main_loop_lines_out env _ (by omega) fuel ⟨0, 0, 0⟩ W lines _ _ hml
      obtain ⟨Ns', h1, h2, _, _⟩ := main_loop_out env _ (by omega) _ _ _ _ _ hloop
      simp only [Nat.zero_add] at hln h2
      have hlenN : Ns'.length = (reported_lines 0 (lines.map List.dropLast)).length := by
        have := hout.symm.trans h1
        have := congrArg List.length (List.append_cancel_left this)
        simpa using this.symm
      have hmem : ∀ N, N ∈ reported_lines 0 (lines.map List.dropLast) ↔
          1 ≤ N ∧ ∃ bytes, lines[N - 1]? = some (bytes ++ [0]) ∧
            81 ≤ bytes.length ∧ ∀ b ∈ bytes.take 81, b ≠ 0 := by
        intro N
        rw [mem_reported_lines]
        simp only [strnlen_eq_iff, List.getElem?_map, Nat.sub_zero]
        constructor
        · rintro ⟨h1, l, h2, h3⟩
          refine ⟨h1, ?_⟩
          cases hget : lines[N - 1]? with
          | none => rw [hget] at h2; cases h2
          | some line =>
            rw [hget] at h2
            simp only [Option.map_some', Option.some.injEq] at h2
            obtain ⟨bytes, hb⟩ := hsent line (List.getElem?_mem hget)
            subst hb
            simp only [List.dropLast_concat] at h2
            subst h2
            exact ⟨bytes, rfl, h3⟩
        · rintro ⟨h1, bytes, h2, h3⟩
          refine ⟨h1, bytes, ?_, h3⟩
          rw [h2]
          simp
      simp only at hout
      refine ⟨lines, m2, w3, reported_lines 0 (lines.map List.dropLast), e0, w0, r, rfl, hc, hl,
        her, hrw, ?_, hln, by rw [h2, hlenN], pairwise_reported_lines _ _, hmem, ?_, ?_, ?_⟩
      · rw [← hro, hrw]
      · intro hno N
        rw [hmem N]
        constructor
        · rintro ⟨h1, bytes, h2, h3, _⟩
          exact ⟨h1, bytes, h2, by omega⟩
        · rintro ⟨h1, bytes, h2, h3⟩
          refine ⟨h1, bytes, h2, by omega, ?_⟩
          intro b hb
          have := hno _ (List.getElem?_mem h2) b
          rw [List.dropLast_concat] at this
          exact this (List.mem_of_mem_take hb)
      · rw [hout, hWout]
      · rw [← hrun, ← hlenN, ← h2]
        by_cases hp : m2.printed = 0 <;> by_cases he : m2.error_num = 0 <;>
          simp [hp, he, sys_close, World.printf]

/-- C13 on a file of two lines where the `lseek` of the second call fails:
the first line, of 81 bytes, is reported, the summary counts it, and the
diagnostic with `FILE_LSEEK_ERROR` follows. -/
theorem C13_summary_after_failure_witness :
    (World.with_file "a.txt" long_then_short).fs "a.txt" = some long_then_short ∧
    (main Env.late_seek_fails 5 ["prog", "a.txt"] (World.with_file "a.txt" long_then_short)).map
      (fun r => r.2.out) =
      some [Msg.blank, Msg.over_length 1, Msg.total 1, Msg.error_happened FILE_LSEEK_ERROR] ∧
    ∃ (lines : List (List Byte)) (m : MainLocals) (w2 : World) (Ns : List Nat)
        (e0 : Int) (w0 : World) (r : Ret),
      main_loop_lines Env.late_seek_fails (Env.late_seek_fails.open_fd : Int) 5 ⟨0, 0, 0⟩
        ((sys_open Env.late_seek_fails (World.with_file "a.txt" long_then_short) "a.txt").2.printf
          .blank) = some (lines, m, w2) ∧
      get_line_from_file Env.late_seek_fails (Env.late_seek_fails.open_fd : Int) (some e0) w0
        = some r ∧ r.line = none ∧
      r.error_num = some m.error_num ∧ r.world = w2 ∧ w0.out = w2.out ∧
      m.line_num = lines.length ∧ m.printed = Ns.length ∧
      Ns.Pairwise (fun a b => a < b) ∧
      (∀ N, N ∈ Ns ↔ 1 ≤ N ∧ ∃ bytes, lines[N - 1]? = some (bytes ++ [0]) ∧
        81 ≤ bytes.length ∧ ∀ b ∈ bytes.take 81, b ≠ 0) ∧
      ((∀ line ∈ lines, ∀ b ∈ line.dropLast, b ≠ 0) →
        ∀ N, N ∈ Ns ↔ 1 ≤ N ∧ ∃ bytes, lines[N - 1]? = some (bytes ++ [0]) ∧
          80 < bytes.length) ∧
      w2.out = (World.with_file "a.txt" long_then_short).out ++ [Msg.blank] ++
        Ns.map Msg.over_length ∧
      [Msg.blank, Msg.over_length 1, Msg.total 1, Msg.error_happened FILE_LSEEK_ERROR] =
        w2.out ++ [if Ns.length = 0 then Msg.no_lines else Msg.total Ns.length] ++
          (if m.error_num ≠ 0 then [Msg.error_happened m.error_num] else []) :=
  ⟨by simp [World.with_file], by decide,
    C13_summary_after_failure Env.late_seek_fails 5 (World.with_file "a.txt" long_then_short)
      "prog" "a.txt" long_then_short (by simp [World.with_file]) _ (by decide)⟩

end CheckLineLength
